import Mathlib

/-!
Verification of the BFV implementation (`bfv/polynomial.py`, `bfv/bfv.py`,
`tests/test_crt.py`).  Polynomials are lists of integer coefficients stored
highest-degree-first, exactly as in the source.  Python's exact big integers
are modelled by `ℤ`; the floating-point quantities (the decryption threshold,
`round`, and the FFT convolution) are modelled by exact arithmetic over `ℚ`,
`ℝ` and `ℂ`.
-/

namespace BFV

/-- Source `polynomial.py::poly_add`: left-pad the shorter operand with zeros
to the common length, then add coefficient-wise. -/
def poly_add (poly1 poly2 : List ℤ) : List ℤ :=
  let maxLength := max poly1.length poly2.length
  let p1 := List.replicate (maxLength - poly1.length) 0 ++ poly1
  let p2 := List.replicate (maxLength - poly2.length) 0 ++ poly2
  List.zipWith (· + ·) p1 p2

/-- In-place accumulation loop `acc[pos] += v`, run left to right over a list
of (position, increment) pairs; models Python's indexed `+=` updates. -/
def addAt (l : List ℤ) (incs : List (ℕ × ℤ)) : List ℤ :=
  incs.foldl (fun acc pv => acc.set pv.1 (acc.getD pv.1 0 + pv.2)) l

/-- Source `polynomial.py::poly_mul_naive`: schoolbook convolution,
`product[i+j] += poly1[i] * poly2[j]` over the nested loops. -/
def poly_mul_naive (poly1 poly2 : List ℤ) : List ℤ :=
  addAt (List.replicate (poly1.length + poly2.length - 1) 0)
    (((List.range poly1.length).map fun i =>
      (List.range poly2.length).map fun j => (i + j, poly1.getD i 0 * poly2.getD j 0)).flatten)

/-- One iteration of the `poly_div` main loop at index `i`: compute the
leading quotient coefficient (Python floor division `//`) and subtract
`coeff * divisor` from the remainder at offset `i`. -/
def divStep (divisor : List ℤ) (qr : List ℤ × List ℤ) (i : ℕ) : List ℤ × List ℤ :=
  let coeff := Int.fdiv (qr.2.getD i 0) (divisor.getD 0 0)
  (qr.1.set i coeff,
   addAt qr.2 ((List.range divisor.length).map fun j => (i + j, -(divisor.getD j 0 * coeff))))

/-- Source `polynomial.py::poly_div`: long division producing quotient and
remainder; the remainder's leading zeros are removed at the end. -/
def poly_div (dividend divisor : List ℤ) : List ℤ × List ℤ :=
  let qlen := dividend.length + 1 - divisor.length
  let qr := (List.range qlen).foldl (divStep divisor) (List.replicate qlen 0, dividend)
  (qr.1, qr.2.dropWhile (· == 0))

/-- Source `polynomial.py::get_centered_remainder`: `r = x % modulus`, then
`r` if `r <= modulus/2` (float comparison, modelled in `ℚ`) else `r - modulus`. -/
def get_centered_remainder (x modulus : ℤ) : ℤ :=
  let r := x % modulus
  if (r : ℚ) ≤ (modulus : ℚ) / 2 then r else r - modulus

/-- Source `polynomial.py::Polynomial.reduce_coefficients_by_modulus`. -/
def reduce_coefficients_by_modulus (l : List ℤ) (modulus : ℤ) : List ℤ :=
  l.map (get_centered_remainder · modulus)

/-- The ring's denominator `f(x) = x^n + 1` as `[1] + [0]*(n-1) + [1]`. -/
def cycloPoly (n : ℕ) : List ℤ := 1 :: (List.replicate (n - 1) 0 ++ [1])

/-- Source `polynomial.py::Polynomial.reduce_coefficients_by_cyclo`: divide by
the cyclotomic polynomial, keep the remainder, left-pad it with zeros to
length `n`. -/
def reduce_coefficients_by_cyclo (l : List ℤ) (cyclo : List ℤ) : List ℤ :=
  let rem := (poly_div l cyclo).2
  let n := cyclo.length - 1
  List.replicate (n - rem.length) 0 ++ rem

/-- Source `polynomial.py::PolynomialRing`: the value `(n, modulus)` with
denominator `x^n + 1`. -/
structure PolynomialRing where
  n : ℕ
  modulus : ℤ
  deriving DecidableEq

/-- Source `polynomial.py::Polynomial.reduce_in_ring`: cyclotomic reduction
first, then centered modulus reduction. -/
def reduce_in_ring (l : List ℤ) (R : PolynomialRing) : List ℤ :=
  reduce_coefficients_by_modulus (reduce_coefficients_by_cyclo l (cycloPoly R.n)) R.modulus

/-- Python 3 `round` (banker's rounding: nearest integer, ties to even),
on exact rationals. -/
def python_round (x : ℚ) : ℤ :=
  let f := ⌊x⌋
  if x - f < 1/2 then f
  else if 1/2 < x - f then f + 1
  else if f % 2 = 0 then f else f + 1

/-- Source `bfv.py::RLWE.is_prime`: trial division over `range(2, n)`. -/
def is_prime (n : ℕ) : Bool :=
  if n < 2 then false
  else (List.range' 2 (n - 2)).all fun i => decide (n % i ≠ 0)

/-- Source `bfv.py::RLWE.__init__` validation, in source order: `t <= q`,
`n` a power of two (`n > 0 and n & (n - 1) == 0`), `q > 1`, `t > 1`,
`t` prime (trial division), `gcd(q, t) == 1`. -/
def rlweValid (n q t : ℕ) : Bool :=
  decide (t ≤ q) && (decide (0 < n) && decide (n &&& (n - 1) = 0)) &&
    decide (1 < q) && decide (1 < t) && is_prime t && decide (Nat.gcd q t = 1)

/-- Source `polynomial.py::PolynomialRing.sample_polynomial`.  The bounds
`±(modulus-1)/2` are Python floats, modelled in `ℚ`; the `% 1 == 0`
integrality assert becomes the floor test; `random.randint` is modelled by an
oracle `rand` mapped into `[lower, upper]` (it raises when `upper < lower`). -/
def sample_polynomial (R : PolynomialRing) (rand : ℕ → ℤ) : Option (List ℤ) :=
  let lower : ℚ := -((R.modulus : ℚ) - 1) / 2
  let upper : ℚ := ((R.modulus : ℚ) - 1) / 2
  if lower = (⌊lower⌋ : ℚ) ∧ upper = (⌊upper⌋ : ℚ) then
    if ⌊upper⌋ < ⌊lower⌋ then none
    else some ((List.range R.n).map fun i => ⌊lower⌋ + rand i % (⌊upper⌋ - ⌊lower⌋ + 1))
  else none

/-- Truncation toward zero, as Python's `int()` on a float. -/
noncomputable def intTrunc (x : ℝ) : ℤ := if 0 ≤ x then ⌊x⌋ else ⌈x⌉

/-- The principal `n`-th root of unity used by the discrete Fourier transform. -/
noncomputable def dftOmega (n : ℕ) : ℂ := Complex.exp (2 * Real.pi * Complex.I / n)

/-- Modelled from the spec: `bfv/fft.py` is absent from `src/`.  The spec
(§4.2) contracts `fft(coeffs) -> complex_evaluations`, the radix-2
Cooley-Tukey computation of the discrete Fourier transform; it is modelled
here as the exact DFT over `ℂ` (exact complex arithmetic in place of
floating point). -/
noncomputable def recursive_fft (l : List ℂ) : List ℂ :=
  (List.range l.length).map fun k =>
    ∑ j ∈ Finset.range l.length, l.getD j 0 * dftOmega l.length ^ (j * k)

/-- Modelled from the spec: `bfv/fft.py` is absent from `src/`.  The inverse
transform `ifft(evaluations) -> complex_coeffs`, modelled as the exact
inverse DFT over `ℂ`. -/
noncomputable def recursive_ifft (l : List ℂ) : List ℂ :=
  (List.range l.length).map fun k =>
    (∑ j ∈ Finset.range l.length, l.getD j 0 * (dftOmega l.length)⁻¹ ^ (j * k)) / l.length

/-- The `n = 1; while n < product_len: n *= 2` loop of `poly_mul`: the least
power of two that is `≥ product_len` (and `1` when `product_len ≤ 1`). -/
def nextPow2 (m : ℕ) : ℕ := 2 ^ Nat.clog 2 m

/-- Source `polynomial.py::poly_mul`: left-pad both operands with zeros to the
convolution length and then to the next power of two, reverse into
low-degree-first order, FFT both, multiply pointwise, inverse FFT, drop the
power-of-two padding, reverse back, and take `int(coeff.real)` of each
coefficient. -/
noncomputable def poly_mul (poly1 poly2 : List ℤ) : List ℤ :=
  let product_len := poly1.length + poly2.length - 1
  let poly1_padded := List.replicate (product_len - poly1.length) 0 ++ poly1
  let poly2_padded := List.replicate (product_len - poly2.length) 0 ++ poly2
  let n := nextPow2 product_len
  let poly1_padded := List.replicate (n - product_len) 0 ++ poly1_padded
  let poly2_padded := List.replicate (n - product_len) 0 ++ poly2_padded
  let poly1_reversed := poly1_padded.reverse
  let poly2_reversed := poly2_padded.reverse
  let fft_evals1 := recursive_fft (poly1_reversed.map (Int.cast : ℤ → ℂ))
  let fft_evals2 := recursive_fft (poly2_reversed.map (Int.cast : ℤ → ℂ))
  let fft_product_evals := List.zipWith (· * ·) fft_evals1 fft_evals2
  let product_coeffs := recursive_ifft fft_product_evals
  let product_padding := product_coeffs.length - product_len
  let product_coeffs_no_pad := product_coeffs.take (product_coeffs.length - product_padding)
  let rev := product_coeffs_no_pad.reverse
  rev.map fun c => intTrunc c.re

/-- Source `bfv.py::BFV.PublicKeyGen` with the uniform draw `a` passed
explicitly: `pk0 = reduce(a*s + e, Rq)`, `pk1 = a * (-1)`. -/
noncomputable def PublicKeyGen (R : PolynomialRing) (s e a : List ℤ) : List ℤ × List ℤ :=
  (reduce_in_ring (poly_add (poly_mul a s) e) R, poly_mul a [-1])

/-- Source `bfv.py::BFV.Encrypt`:
`ct0 = reduce(delta*m + pk0*u + e0, Rq)`, `ct1 = reduce(pk1*u + e1, Rq)`. -/
noncomputable def Encrypt (R : PolynomialRing) (pk : List ℤ × List ℤ) (m : List ℤ)
    (e0 e1 u : List ℤ) (delta : ℤ) : List ℤ × List ℤ :=
  (reduce_in_ring (poly_add (poly_add (poly_mul [delta] m) (poly_mul pk.1 u)) e0) R,
   reduce_in_ring (poly_add (poly_mul pk.2 u) e1) R)

/-- The noise polynomial recomputed by `Decrypt`: `v = u*e + e0 + s*e1`. -/
noncomputable def decryptNoise (s e0 e1 e u : List ℤ) : List ℤ :=
  poly_add (poly_add (poly_mul u e) e0) (poly_mul s e1)

/-- The `Decrypt` noise threshold `q/(2*t) - rt_Q/2` (Python float
arithmetic, modelled in `ℚ`). -/
def noiseThreshold (q t : ℤ) : ℚ := (q : ℚ) / (2 * (t : ℚ)) - ((q % t : ℤ) : ℚ) / 2

/-- Source `bfv.py::BFV.Decrypt`.  The failing `assert` on the noise check is
modelled by `none`; otherwise the message is recovered as
`reduce(trim_zeros [round(t * reduce(ct0 + ct1*s, Rq) / q)], Rt)`. -/
noncomputable def Decrypt (Rq Rt : PolynomialRing) (secret_key : List ℤ)
    (ciphertext : List ℤ × List ℤ) (e0 e1 e u : List ℤ) : Option (List ℤ) :=
  let t := Rt.modulus
  let q := Rq.modulus
  let v := decryptNoise secret_key e0 e1 e u
  if v.all (fun c => decide (|(c : ℚ)| < noiseThreshold q t)) then
    let numerator_1 := reduce_in_ring (poly_add ciphertext.1 (poly_mul ciphertext.2 secret_key)) Rq
    let numerator := poly_mul [t] numerator_1
    let quotient := numerator.map fun c : ℤ => python_round ((c : ℚ) / (q : ℚ))
    let trimmed := quotient.dropWhile (· == 0)
    some (reduce_in_ring trimmed Rt)
  else none

/-- Source `bfv.py::BFV.EvalAdd`: component-wise sum, each reduced in `Rq`. -/
def EvalAdd (R : PolynomialRing) (ciphertext1 ciphertext2 : List ℤ × List ℤ) :
    List ℤ × List ℤ :=
  (reduce_in_ring (poly_add ciphertext1.1 ciphertext2.1) R,
   reduce_in_ring (poly_add ciphertext1.2 ciphertext2.2) R)

/-- Modelled from the spec: `bfv/crt.py` is absent from `src/`.  `CRTModuli`
exposes the product `q = Π qi` (§4.3). -/
def crt_q (qis : List ℕ) : ℕ := qis.prod

/-- Modular inverse `a⁻¹ mod m`, via `ZMod`. -/
def mod_inv (a m : ℕ) : ℕ := ZMod.val (a : ZMod m)⁻¹

/-- Modelled from the spec: `bfv/crt.py` is absent from `src/`.
`CRTInteger.recover`: `x = Σ xis[i] * Mi * Ni mod q` with `Mi = q / qi` and
`Ni = Mi⁻¹ mod qi` (§4.3). -/
def crt_recover (qis xis : List ℕ) : ℕ :=
  let q := crt_q qis
  (List.zipWith (fun qi xi => xi * (q / qi) * mod_inv (q / qi) qi) qis xis).sum % q

/-- Modelled from the spec: `bfv/crt.py` is absent from `src/`.
`CRTInteger.from_integer`: residues `xis[i] = x mod qi` (§4.3). -/
def crt_from_integer (qis : List ℕ) (x : ℕ) : List ℕ := qis.map (x % ·)

/-- Modelled from the spec: `bfv/crt.py` is absent from `src/`.
`CRTPolynomial.from_rq_polynomial_to_rqi_polynomials`: for each `qi`, the
polynomial with every coefficient reduced centered-mod `qi` (§4.3). -/
def crt_poly_decompose (p : List ℤ) (qis : List ℕ) : List (List ℤ) :=
  qis.map fun (qi : ℕ) => reduce_coefficients_by_modulus p (qi : ℤ)

/-- Coefficient-wise CRT recovery: centered residues are mapped to standard
residues, recombined by `crt_recover`, and the result centered mod `q`. -/
def crt_coeff_recover (qis : List ℕ) (cs : List ℤ) : ℤ :=
  get_centered_remainder
    (crt_recover qis (List.zipWith (fun (qi : ℕ) (c : ℤ) => (c % (qi : ℤ)).toNat) qis cs) : ℤ)
    (crt_q qis)

/-- Modelled from the spec: `bfv/crt.py` is absent from `src/`.
`CRTPolynomial.from_rqi_polynomials_to_rq_polynomial`: coefficient-wise CRT
recovery across the factor polynomials, coefficients centered mod `q` (§4.3). -/
def crt_poly_recover (polys : List (List ℤ)) (n : ℕ) (qis : List ℕ) : List ℤ :=
  (List.range n).map fun j => crt_coeff_recover qis (polys.map fun p => p.getD j 0)

/-! ### Definitions used by the verification -/

open Polynomial in
/-- The integer polynomial denoted by a highest-degree-first coefficient list. -/
noncomputable def toP (l : List ℤ) : Polynomial ℤ :=
  ∑ i ∈ Finset.range l.length, C (l.getD i 0) * X ^ (l.length - 1 - i)

/-- The degree-`k` coefficient of a highest-degree-first list. -/
def coeffD (l : List ℤ) (k : ℕ) : ℤ :=
  if k < l.length then l.getD (l.length - 1 - k) 0 else 0

/-- The polynomial over `ZMod q` denoted by a coefficient list. -/
noncomputable def phiZ (q : ℕ) (l : List ℤ) : Polynomial (ZMod q) :=
  (toP l).map (Int.castRingHom (ZMod q))

/-- The ring `Z_q[x]/(x^n+1)` in which ciphertext arithmetic takes place. -/
abbrev QuotRing (n q : ℕ) :=
  Polynomial (ZMod q) ⧸ Ideal.span {(Polynomial.X : Polynomial (ZMod q)) ^ n + 1}

/-- The image of a coefficient list in `Z_q[x]/(x^n+1)`. -/
noncomputable def Phi (n q : ℕ) (l : List ℤ) : QuotRing n q :=
  Ideal.Quotient.mk _ (phiZ q l)

/-- The inner FFT convolution pipeline of `poly_mul`: both operands padded and
reversed, transformed, multiplied pointwise and transformed back (the
`product_coeffs` list of the source, before unpadding). -/
noncomputable def fftConv (poly1 poly2 : List ℤ) : List ℂ :=
  let product_len := poly1.length + poly2.length - 1
  let poly1_padded := List.replicate (product_len - poly1.length) 0 ++ poly1
  let poly2_padded := List.replicate (product_len - poly2.length) 0 ++ poly2
  let n := nextPow2 product_len
  let poly1_padded := List.replicate (n - product_len) 0 ++ poly1_padded
  let poly2_padded := List.replicate (n - product_len) 0 ++ poly2_padded
  recursive_ifft (List.zipWith (· * ·)
    (recursive_fft (poly1_padded.reverse.map (Int.cast : ℤ → ℂ)))
    (recursive_fft (poly2_padded.reverse.map (Int.cast : ℤ → ℂ))))

/-! ### Semantic map: basic properties -/

theorem coeffD_eq_getD {l : List ℤ} {i : ℕ} (h : i < l.length) :
    l.getD i 0 = coeffD l (l.length - 1 - i) := by
  unfold coeffD
  rw [if_pos (by omega)]
  congr 1
  omega

theorem getD_replicate_zero (n i : ℕ) : (List.replicate n (0 : ℤ)).getD i 0 = 0 := by
  rcases lt_or_le i n with h | h
  · rw [List.getD_eq_getElem _ _ (by simpa using h), List.getElem_replicate]
  · exact List.getD_eq_default _ _ (by simpa using h)

theorem toP_coeff (l : List ℤ) (k : ℕ) : (toP l).coeff k = coeffD l k := by
  unfold toP coeffD
  rw [Polynomial.finset_sum_coeff]
  simp only [Polynomial.coeff_C_mul, Polynomial.coeff_X_pow, mul_ite, mul_one, mul_zero]
  by_cases hk : k < l.length
  · rw [if_pos hk, Finset.sum_eq_single (l.length - 1 - k)]
    · rw [if_pos (by omega)]
    · intro i hi hneq
      rw [if_neg]
      intro hEq
      simp only [Finset.mem_range] at hi
      omega
    · intro h
      exact absurd (Finset.mem_range.mpr (by omega)) h
  · rw [if_neg hk]
    apply Finset.sum_eq_zero
    intro i hi
    rw [if_neg]
    simp only [Finset.mem_range] at hi
    omega

theorem toP_ext {l1 l2 : List ℤ} (h : ∀ k, coeffD l1 k = coeffD l2 k) : toP l1 = toP l2 :=
  Polynomial.ext fun k => by rw [toP_coeff, toP_coeff, h]

theorem coeffD_replicate_append (m : ℕ) (l : List ℤ) (k : ℕ) :
    coeffD (List.replicate m 0 ++ l) k = coeffD l k := by
  unfold coeffD
  simp only [List.length_append, List.length_replicate]
  by_cases hk : k < l.length
  · rw [if_pos (by omega), if_pos hk,
      List.getD_append_right _ _ _ _ (by simp only [List.length_replicate]; omega)]
    congr 1
    simp only [List.length_replicate]
    omega
  · by_cases hk2 : k < m + l.length
    · rw [if_pos hk2, if_neg hk,
        List.getD_append _ _ _ _ (by simp only [List.length_replicate]; omega)]
      exact getD_replicate_zero _ _
    · rw [if_neg hk2, if_neg hk]

theorem toP_replicate_append (m : ℕ) (l : List ℤ) :
    toP (List.replicate m 0 ++ l) = toP l :=
  toP_ext fun k => coeffD_replicate_append m l k

theorem coeffD_cons_zero (l : List ℤ) (k : ℕ) : coeffD (0 :: l) k = coeffD l k := by
  have : (0 : ℤ) :: l = List.replicate 1 0 ++ l := rfl
  rw [this, coeffD_replicate_append]

theorem coeffD_dropWhile_zero (l : List ℤ) (k : ℕ) :
    coeffD (l.dropWhile (· == 0)) k = coeffD l k := by
  induction l with
  | nil => rfl
  | cons x xs ih =>
      by_cases hx : x = 0
      · subst hx
        rw [List.dropWhile_cons_of_pos (by simp), coeffD_cons_zero]
        exact ih
      · rw [List.dropWhile_cons_of_neg (by simpa using hx)]

theorem toP_dropWhile_zero (l : List ℤ) : toP (l.dropWhile (· == 0)) = toP l :=
  toP_ext fun k => coeffD_dropWhile_zero l k

/-! ### `poly_add` -/

theorem length_poly_add (a b : List ℤ) :
    (poly_add a b).length = max a.length b.length := by
  unfold poly_add
  simp only [List.length_zipWith, List.length_append, List.length_replicate]
  omega

theorem getD_zipWith_add {a b : List ℤ} (h : a.length = b.length) (i : ℕ) :
    (List.zipWith (· + ·) a b).getD i 0 = a.getD i 0 + b.getD i 0 := by
  rcases lt_or_le i a.length with hi | hi
  · rw [List.getD_eq_getElem _ _ (by simp only [List.length_zipWith]; omega),
      List.getElem_zipWith, List.getD_eq_getElem _ _ hi, List.getD_eq_getElem _ _ (by omega)]
  · rw [List.getD_eq_default _ _ (by simp only [List.length_zipWith]; omega),
      List.getD_eq_default _ _ hi, List.getD_eq_default _ _ (by omega)]
    rfl

theorem coeffD_zipWith_add {a b : List ℤ} (h : a.length = b.length) (k : ℕ) :
    coeffD (List.zipWith (· + ·) a b) k = coeffD a k + coeffD b k := by
  unfold coeffD
  simp only [List.length_zipWith, h, min_self]
  by_cases hk : k < b.length
  · rw [if_pos hk, if_pos hk, if_pos hk, getD_zipWith_add h]
  · rw [if_neg hk, if_neg hk, if_neg hk, add_zero]

theorem coeffD_poly_add (a b : List ℤ) (k : ℕ) :
    coeffD (poly_add a b) k = coeffD a k + coeffD b k := by
  simp only [poly_add]
  rw [coeffD_zipWith_add (by simp only [List.length_append, List.length_replicate]; omega),
    coeffD_replicate_append, coeffD_replicate_append]

theorem toP_poly_add (a b : List ℤ) : toP (poly_add a b) = toP a + toP b :=
  Polynomial.ext fun k => by
    rw [Polynomial.coeff_add, toP_coeff, toP_coeff, toP_coeff, coeffD_poly_add]

/-! ### `addAt` (indexed accumulation) and `poly_mul_naive` -/

theorem getD_set (l : List ℤ) (p : ℕ) (x : ℤ) (k : ℕ) :
    (l.set p x).getD k 0 = if p = k ∧ k < l.length then x else l.getD k 0 := by
  rcases lt_or_le k l.length with hk | hk
  · rw [List.getD_eq_getElem _ _ (by simpa using hk), List.getElem_set]
    by_cases hpk : p = k
    · rw [if_pos hpk, if_pos ⟨hpk, hk⟩]
    · rw [if_neg hpk, if_neg (by tauto), List.getD_eq_getElem _ _ hk]
  · rw [List.getD_eq_default _ _ (by simpa using hk), List.getD_eq_default _ _ hk,
      if_neg (by omega)]

theorem addAt_length (incs : List (ℕ × ℤ)) (l : List ℤ) :
    (addAt l incs).length = l.length := by
  induction incs generalizing l with
  | nil => rfl
  | cons pv rest ih =>
      show (addAt (l.set pv.1 (l.getD pv.1 0 + pv.2)) rest).length = _
      rw [ih, List.length_set]

theorem addAt_getD (incs : List (ℕ × ℤ)) (l : List ℤ)
    (hpos : ∀ pv ∈ incs, pv.1 < l.length) (k : ℕ) :
    (addAt l incs).getD k 0 =
      l.getD k 0 + ((incs.filter fun pv => pv.1 == k).map Prod.snd).sum := by
  induction incs generalizing l with
  | nil => simp [addAt]
  | cons pv rest ih =>
      have hstep : addAt l (pv :: rest) = addAt (l.set pv.1 (l.getD pv.1 0 + pv.2)) rest := rfl
      rw [hstep, ih _ (fun w hw => by
        rw [List.length_set]; exact hpos w (List.mem_cons_of_mem _ hw)),
        getD_set]
      by_cases hpk : pv.1 = k
      · have hkl : k < l.length := hpk ▸ hpos pv (List.mem_cons_self pv rest)
        rw [if_pos ⟨hpk, hkl⟩, List.filter_cons_of_pos (by simpa using hpk)]
        simp only [List.map_cons, List.sum_cons]
        rw [hpk]
        ring
      · rw [if_neg (by tauto), List.filter_cons_of_neg (by simpa using hpk)]

theorem list_sum_filter_map (l : List ℕ) (p : ℕ → Bool) (f : ℕ → ℤ) :
    (((l.filter p).map f)).sum = (l.map fun x => if p x then f x else 0).sum := by
  induction l with
  | nil => rfl
  | cons x xs ih =>
      by_cases hx : p x
      · rw [List.filter_cons_of_pos hx, List.map_cons, List.sum_cons, List.map_cons,
          List.sum_cons, if_pos hx, ih]
      · rw [List.filter_cons_of_neg (by simpa using hx), List.map_cons, List.sum_cons,
          if_neg (by simpa using hx), ih, zero_add]

theorem list_map_range_sum {M : Type*} [AddCommMonoid M] (f : ℕ → M) (n : ℕ) :
    (((List.range n).map f)).sum = ∑ j ∈ Finset.range n, f j := by
  induction n with
  | zero => rfl
  | succ m ih =>
      rw [List.range_succ, List.map_append, List.sum_append, Finset.sum_range_succ, ih]
      simp

theorem naive_outer_sum (F : ℕ → List (ℕ × ℤ)) (P : ℕ × ℤ → Bool) (la : ℕ) :
    (((((List.range la).map F).flatten.filter P)).map Prod.snd).sum =
      ∑ i ∈ Finset.range la, (((F i).filter P).map Prod.snd).sum := by
  induction la with
  | zero => rfl
  | succ m ih =>
      rw [List.range_succ, List.map_append, List.flatten_append, List.filter_append,
        List.map_append, List.sum_append, Finset.sum_range_succ, ih]
      simp

theorem length_poly_mul_naive (a b : List ℤ) :
    (poly_mul_naive a b).length = a.length + b.length - 1 := by
  unfold poly_mul_naive
  rw [addAt_length, List.length_replicate]

theorem getD_poly_mul_naive (a b : List ℤ) (k : ℕ) :
    (poly_mul_naive a b).getD k 0 =
      ∑ i ∈ Finset.range a.length, ∑ j ∈ Finset.range b.length,
        if i + j = k then a.getD i 0 * b.getD j 0 else 0 := by
  unfold poly_mul_naive
  rw [addAt_getD _ _ (by
    intro pv hpv
    rw [List.length_replicate]
    simp only [List.mem_flatten, List.mem_map] at hpv
    obtain ⟨inner, ⟨i, hi, hFi⟩, hmem⟩ := hpv
    subst hFi
    simp only [List.mem_map, List.mem_range] at hmem hi
    obtain ⟨j, hj, hpair⟩ := hmem
    subst hpair
    simp only []
    omega), getD_replicate_zero, zero_add, naive_outer_sum]
  apply Finset.sum_congr rfl
  intro i _
  rw [List.filter_map, List.map_map, list_sum_filter_map, list_map_range_sum]
  apply Finset.sum_congr rfl
  intro j _
  simp only [Function.comp_apply, beq_iff_eq]

theorem coeffD_poly_mul_naive (a b : List ℤ) (k : ℕ) :
    coeffD (poly_mul_naive a b) k =
      ∑ u ∈ Finset.range (k + 1), coeffD a u * coeffD b (k - u) := by
  set la := a.length with hla
  set lb := b.length with hlb
  set L := la + lb - 1 with hL
  by_cases hk : k < L
  · have h1 : coeffD (poly_mul_naive a b) k = (poly_mul_naive a b).getD (L - 1 - k) 0 := by
      unfold coeffD
      rw [length_poly_mul_naive, if_pos hk]
    rw [h1, getD_poly_mul_naive]
    have hstep : ∀ i ∈ Finset.range la, ∀ j ∈ Finset.range lb,
        (if i + j = L - 1 - k then a.getD i 0 * b.getD j 0 else 0) =
        (if i + j = L - 1 - k then coeffD a (la - 1 - i) * coeffD b (lb - 1 - j) else 0) := by
      intro i hi j hj
      simp only [Finset.mem_range] at hi hj
      rw [coeffD_eq_getD hi, coeffD_eq_getD hj]
    rw [Finset.sum_congr rfl fun i hi => Finset.sum_congr rfl fun j hj => hstep i hi j hj]
    rw [← Finset.sum_range_reflect]
    have hswap : ∀ u ∈ Finset.range la,
        (∑ j ∈ Finset.range lb, if (la - 1 - u) + j = L - 1 - k then
          coeffD a (la - 1 - (la - 1 - u)) * coeffD b (lb - 1 - j) else 0) =
        (∑ v ∈ Finset.range lb, if u + v = k then coeffD a u * coeffD b v else 0) := by
      intro u hu
      simp only [Finset.mem_range] at hu
      rw [← Finset.sum_range_reflect]
      apply Finset.sum_congr rfl
      intro v hv
      simp only [Finset.mem_range] at hv
      have harith : ((la - 1 - u) + (lb - 1 - v) = L - 1 - k) ↔ (u + v = k) := by
        rw [hL]
        omega
      have hcoef : la - 1 - (la - 1 - u) = u := by omega
      have hcoef2 : lb - 1 - (lb - 1 - v) = v := by omega
      rw [hcoef, hcoef2]
      by_cases hc : u + v = k
      · rw [if_pos (harith.mpr hc), if_pos hc]
      · rw [if_neg (fun h => hc (harith.mp h)), if_neg hc]
    rw [Finset.sum_congr rfl hswap]
    have hinner : ∀ u ∈ Finset.range la,
        (∑ v ∈ Finset.range lb, if u + v = k then coeffD a u * coeffD b v else 0) =
        (if u ≤ k then coeffD a u * coeffD b (k - u) else 0) := by
      intro u _
      by_cases huk : u ≤ k ∧ k - u < lb
      · rw [if_pos huk.1, Finset.sum_eq_single (k - u)]
        · rw [if_pos (by omega)]
        · intro v hv hne
          rw [if_neg (by omega)]
        · intro hnot
          exact absurd (Finset.mem_range.mpr huk.2) hnot
      · have hz : ∀ v ∈ Finset.range lb, (if u + v = k then coeffD a u * coeffD b v else 0) = 0 := by
          intro v hv
          simp only [Finset.mem_range] at hv
          rw [if_neg (by omega)]
        rw [Finset.sum_eq_zero hz]
        by_cases hu2 : u ≤ k
        · rw [if_pos hu2]
          have : coeffD b (k - u) = 0 := by
            unfold coeffD
            rw [if_neg (by omega)]
          rw [this, mul_zero]
        · rw [if_neg hu2]
    rw [Finset.sum_congr rfl hinner]
    have hS : ∀ u ∈ Finset.range (k + 1), coeffD a u * coeffD b (k - u) =
        if u ≤ k then coeffD a u * coeffD b (k - u) else 0 := by
      intro u hu
      simp only [Finset.mem_range] at hu
      rw [if_pos (by omega)]
    rw [Finset.sum_congr rfl hS]
    have hzero : ∀ u, la ≤ u ∨ k + 1 ≤ u →
        (if u ≤ k then coeffD a u * coeffD b (k - u) else 0) = 0 := by
      intro u hu
      by_cases h1 : u ≤ k
      · rw [if_pos h1]
        have : coeffD a u = 0 := by
          unfold coeffD
          rw [if_neg (by omega)]
        rw [this, zero_mul]
      · rw [if_neg h1]
    trans (∑ x ∈ Finset.range (max la (k + 1)), if x ≤ k then coeffD a x * coeffD b (k - x) else 0)
    · exact Finset.sum_subset (Finset.range_subset.mpr (le_max_left la (k + 1)))
        (fun u _ hu => hzero u (by simp only [Finset.mem_range] at hu; omega))
    · exact (Finset.sum_subset (Finset.range_subset.mpr (le_max_right la (k + 1)))
        (fun u _ hu => hzero u (by simp only [Finset.mem_range] at hu; omega))).symm
  · have h0 : coeffD (poly_mul_naive a b) k = 0 := by
      unfold coeffD
      rw [length_poly_mul_naive, if_neg hk]
    rw [h0]
    symm
    apply Finset.sum_eq_zero
    intro u hu
    simp only [Finset.mem_range] at hu
    by_cases hua : u < la
    · have : coeffD b (k - u) = 0 := by
        unfold coeffD
        rw [if_neg (by omega)]
      rw [this, mul_zero]
    · have : coeffD a u = 0 := by
        unfold coeffD
        rw [if_neg (by omega)]
      rw [this, zero_mul]

theorem toP_poly_mul_naive (a b : List ℤ) : toP (poly_mul_naive a b) = toP a * toP b :=
  Polynomial.ext fun k => by
    rw [toP_coeff, Polynomial.coeff_mul, Finset.Nat.sum_antidiagonal_eq_sum_range_succ_mk,
      coeffD_poly_mul_naive]
    exact Finset.sum_congr rfl fun u _ => by rw [toP_coeff, toP_coeff]

/-! ### `poly_div` correctness (monic divisor) -/

theorem toP_nil : toP [] = 0 := rfl

theorem toP_replicate_zero (k : ℕ) : toP (List.replicate k 0) = 0 := by
  have : List.replicate k (0 : ℤ) = List.replicate k 0 ++ [] := by simp
  rw [this, toP_replicate_append, toP_nil]

open Polynomial in
theorem toP_set_add (l : List ℤ) (p : ℕ) (hp : p < l.length) (v : ℤ) :
    toP (l.set p (l.getD p 0 + v)) = toP l + C v * X ^ (l.length - 1 - p) := by
  apply Polynomial.ext
  intro k
  rw [Polynomial.coeff_add, toP_coeff, toP_coeff, Polynomial.coeff_C_mul,
    Polynomial.coeff_X_pow]
  unfold coeffD
  simp only [List.length_set]
  by_cases hk : k < l.length
  · rw [if_pos hk, if_pos hk, getD_set]
    by_cases hpk : p = l.length - 1 - k
    · rw [if_pos ⟨hpk, by omega⟩, if_pos (by omega)]
      rw [hpk]
      ring
    · rw [if_neg (by tauto), if_neg (by omega), mul_zero, add_zero]
  · rw [if_neg hk, if_neg hk, if_neg (by omega), mul_zero, add_zero]

open Polynomial in
theorem toP_addAt (incs : List (ℕ × ℤ)) (l : List ℤ)
    (hpos : ∀ pv ∈ incs, pv.1 < l.length) :
    toP (addAt l incs) = toP l + (incs.map fun pv => C pv.2 * X ^ (l.length - 1 - pv.1)).sum := by
  induction incs generalizing l with
  | nil => simp [addAt]
  | cons pv rest ih =>
      have hstep : addAt l (pv :: rest) = addAt (l.set pv.1 (l.getD pv.1 0 + pv.2)) rest := rfl
      have hlen : (l.set pv.1 (l.getD pv.1 0 + pv.2)).length = l.length := List.length_set ..
      rw [hstep, ih _ (fun w hw => by
          rw [hlen]; exact hpos w (List.mem_cons_of_mem _ hw)),
        toP_set_add _ _ (hpos pv (List.mem_cons_self pv rest)), List.map_cons, List.sum_cons,
        hlen]
      ring

theorem addAt_getD_lt (incs : List (ℕ × ℤ)) (l : List ℤ)
    (hpos : ∀ pv ∈ incs, pv.1 < l.length) (k : ℕ) (hk : ∀ pv ∈ incs, pv.1 ≠ k) :
    (addAt l incs).getD k 0 = l.getD k 0 := by
  rw [addAt_getD _ _ hpos]
  have : (incs.filter fun pv => pv.1 == k) = [] := by
    rw [List.filter_eq_nil_iff]
    intro pv hpv
    simpa using hk pv hpv
  rw [this]
  simp

/-- One `poly_div` loop step: effect on `toP` and on the processed positions,
for a divisor with leading coefficient `1`. -/
theorem divStep_spec (d : List ℤ) (hd : d.getD 0 0 = 1) (hdne : d ≠ [])
    (quo rem : List ℤ) (i : ℕ) (hrem : i + d.length ≤ rem.length)
    (hquo : i < quo.length) (hquoz : quo.getD i 0 = 0)
    (hql : quo.length + d.length = rem.length + 1) :
    (divStep d (quo, rem) i).1.length = quo.length ∧
    (divStep d (quo, rem) i).2.length = rem.length ∧
    (∀ j, j < i → rem.getD j 0 = 0 → (divStep d (quo, rem) i).2.getD j 0 = 0) ∧
    ((divStep d (quo, rem) i).2.getD i 0 = 0) ∧
    (∀ j, i < j → (divStep d (quo, rem) i).1.getD j 0 = quo.getD j 0) ∧
    toP (divStep d (quo, rem) i).1 * toP d + toP (divStep d (quo, rem) i).2 =
      toP quo * toP d + toP rem := by
  have hdl : 0 < d.length := List.length_pos.mpr hdne
  have hcoeff : Int.fdiv (rem.getD i 0) (d.getD 0 0) = rem.getD i 0 := by
    rw [hd, Int.fdiv_one]
  have hposs : ∀ pv ∈ (List.range d.length).map
      (fun j => (i + j, -(d.getD j 0 * Int.fdiv (rem.getD i 0) (d.getD 0 0)))), pv.1 < rem.length := by
    intro pv hpv
    simp only [List.mem_map, List.mem_range] at hpv
    obtain ⟨j, hj, hpair⟩ := hpv
    subst hpair
    simp only []
    omega
  refine ⟨List.length_set .., addAt_length .., ?_, ?_, ?_, ?_⟩
  · intro j hj hrj
    show (addAt rem _).getD j 0 = 0
    rw [addAt_getD_lt _ _ hposs _ (by
      intro pv hpv
      simp only [List.mem_map, List.mem_range] at hpv
      obtain ⟨j', _, hpair⟩ := hpv
      subst hpair
      simp only []
      omega)]
    exact hrj
  · show (addAt rem _).getD i 0 = 0
    rw [addAt_getD _ _ hposs, List.filter_map, List.map_map, list_sum_filter_map,
      list_map_range_sum, Finset.sum_eq_single 0]
    · simp only [Function.comp_apply, add_zero, beq_self_eq_true, if_pos, hd, Int.fdiv_one]
      ring
    · intro j hj hjne
      simp only [Function.comp_apply]
      rw [if_neg (by simpa using by omega)]
    · intro h
      exact absurd (Finset.mem_range.mpr hdl) h
  · intro j hj
    show (quo.set i _).getD j 0 = quo.getD j 0
    rw [getD_set, if_neg (by omega)]
  · show toP (quo.set i _) * toP d + toP (addAt rem _) = _
    have hset : quo.set i (Int.fdiv (rem.getD i 0) (d.getD 0 0)) =
        quo.set i (quo.getD i 0 + rem.getD i 0) := by
      rw [hquoz, hcoeff, zero_add]
    rw [hset, toP_set_add _ _ hquo, toP_addAt _ _ hposs, List.map_map, list_map_range_sum]
    simp only [Function.comp_apply]
    have hsum : ∑ j ∈ Finset.range d.length,
        Polynomial.C (-(d.getD j 0 * Int.fdiv (rem.getD i 0) (d.getD 0 0))) *
          Polynomial.X ^ (rem.length - 1 - (i + j)) =
        -(Polynomial.C (rem.getD i 0) * Polynomial.X ^ (rem.length - d.length - i) * toP d) := by
      unfold toP
      rw [Finset.mul_sum, ← Finset.sum_neg_distrib]
      apply Finset.sum_congr rfl
      intro j hj
      simp only [Finset.mem_range] at hj
      have hexp : rem.length - 1 - (i + j) = (rem.length - d.length - i) + (d.length - 1 - j) := by
        omega
      rw [hexp, hcoeff, map_neg, map_mul, pow_add]
      ring
    rw [hsum]
    have hexp2 : quo.length - 1 - i = rem.length - d.length - i := by
      omega
    rw [hexp2]
    ring

/-- The `poly_div` main loop maintains the division invariant. -/
theorem divLoop_spec (d : List ℤ) (hd : d.getD 0 0 = 1) (hdne : d ≠ [])
    (L qlen : ℕ) (hqd : qlen + d.length = L + 1) :
    ∀ f i quo rem, i + f = qlen → rem.length = L → quo.length = qlen →
      (∀ j, j < i → rem.getD j 0 = 0) → (∀ j, i ≤ j → quo.getD j 0 = 0) →
      ((List.range' i f).foldl (divStep d) (quo, rem)).2.length = L ∧
      ((List.range' i f).foldl (divStep d) (quo, rem)).1.length = qlen ∧
      (∀ j, j < qlen → ((List.range' i f).foldl (divStep d) (quo, rem)).2.getD j 0 = 0) ∧
      toP ((List.range' i f).foldl (divStep d) (quo, rem)).1 * toP d +
        toP ((List.range' i f).foldl (divStep d) (quo, rem)).2 =
        toP quo * toP d + toP rem := by
  intro f
  induction f with
  | zero =>
      intro i quo rem hif hrl hql hremz hquoz
      refine ⟨hrl, hql, ?_, rfl⟩
      intro j hj
      exact hremz j (by omega)
  | succ f ih =>
      intro i quo rem hif hrl hql hremz hquoz
      rw [List.range'_succ]
      have hstep := divStep_spec d hd hdne quo rem i (by omega) (by omega)
        (hquoz i le_rfl) (by omega)
      have hfold : (i :: List.range' (i + 1) f).foldl (divStep d) (quo, rem) =
          (List.range' (i + 1) f).foldl (divStep d) (divStep d (quo, rem) i) := rfl
      rw [hfold]
      have hpair : divStep d (quo, rem) i =
          ((divStep d (quo, rem) i).1, (divStep d (quo, rem) i).2) := rfl
      rw [hpair]
      have hrec := ih (i + 1) (divStep d (quo, rem) i).1 (divStep d (quo, rem) i).2
        (by omega) (by rw [hstep.2.1, hrl]) (by rw [hstep.1, hql])
        (by
          intro j hj
          rcases lt_or_eq_of_le (Nat.lt_succ_iff.mp hj) with h | h
          · exact hstep.2.2.1 j h (hremz j h)
          · subst h
            exact hstep.2.2.2.1)
        (by
          intro j hj
          rw [hstep.2.2.2.2.1 j (by omega)]
          exact hquoz j (by omega))
      refine ⟨hrec.1, hrec.2.1, hrec.2.2.1, ?_⟩
      rw [hrec.2.2.2, hstep.2.2.2.2.2]

theorem length_dropWhile_zero_le (l : List ℤ) (k : ℕ) (hk : k ≤ l.length)
    (hz : ∀ j, j < k → l.getD j 0 = 0) :
    (l.dropWhile (· == 0)).length ≤ l.length - k := by
  induction k generalizing l with
  | zero =>
      simpa using List.Sublist.length_le (List.dropWhile_sublist (l := l) (· == 0))
  | succ m ih =>
      match l with
      | [] => simp at hk
      | x :: xs =>
          have hx : x = 0 := hz 0 (by omega)
          subst hx
          rw [List.dropWhile_cons_of_pos (by simp)]
          have hxs := ih xs (by simp only [List.length_cons] at hk; omega)
            (fun j hj => by
              have h2 := hz (j + 1) (by omega)
              simpa using h2)
          simp only [List.length_cons]
          omega

/-- Division identity and remainder bound for `poly_div` with a divisor whose
leading coefficient is `1`. -/
theorem poly_div_spec (dividend divisor : List ℤ) (hd : divisor.getD 0 0 = 1) :
    toP dividend = toP (poly_div dividend divisor).1 * toP divisor +
      toP (poly_div dividend divisor).2 ∧
    (poly_div dividend divisor).2.length + 1 ≤ divisor.length := by
  have hdne : divisor ≠ [] := by
    intro h
    rw [h] at hd
    simp at hd
  have hdl : 0 < divisor.length := List.length_pos.mpr hdne
  set L := dividend.length with hL
  set qlen := dividend.length + 1 - divisor.length with hqlen
  by_cases hshort : divisor.length ≤ dividend.length + 1
  · have hqd : qlen + divisor.length = L + 1 := by omega
    have hloop := divLoop_spec divisor hd hdne L qlen hqd qlen 0
      (List.replicate qlen 0) dividend (by omega) rfl (by simp)
      (fun j hj => by omega) (fun j _ => getD_replicate_zero qlen j)
    have hdef1 : (poly_div dividend divisor).1 =
        ((List.range qlen).foldl (divStep divisor) (List.replicate qlen 0, dividend)).1 := rfl
    have hdef2 : (poly_div dividend divisor).2 =
        ((List.range qlen).foldl (divStep divisor) (List.replicate qlen 0, dividend)).2.dropWhile
          (· == 0) := rfl
    rw [List.range_eq_range'] at hdef1 hdef2
    constructor
    · rw [hdef1, hdef2, toP_dropWhile_zero, hloop.2.2.2, toP_replicate_zero, zero_mul, zero_add]
    · rw [hdef2]
      have := length_dropWhile_zero_le _ qlen (by rw [hloop.1]; omega) hloop.2.2.1
      rw [hloop.1] at this
      omega
  · have hq0 : qlen = 0 := by omega
    have hdef1 : (poly_div dividend divisor).1 =
        ((List.range qlen).foldl (divStep divisor) (List.replicate qlen 0, dividend)).1 := rfl
    have hdef2 : (poly_div dividend divisor).2 =
        ((List.range qlen).foldl (divStep divisor) (List.replicate qlen 0, dividend)).2.dropWhile
          (· == 0) := rfl
    rw [hq0] at hdef1 hdef2
    simp only [List.range_zero, List.foldl_nil] at hdef1 hdef2
    constructor
    · rw [hdef1, hdef2, toP_dropWhile_zero, toP_replicate_zero, zero_mul, zero_add]
    · rw [hdef2]
      have := List.Sublist.length_le (List.dropWhile_sublist (l := dividend) (· == 0))
      omega

/-! ### Cyclotomic reduction -/

theorem cycloPoly_length (n : ℕ) (hn : 0 < n) : (cycloPoly n).length = n + 1 := by
  unfold cycloPoly
  simp only [List.length_cons, List.length_append, List.length_replicate,
    List.length_singleton, List.length_nil]
  omega

theorem cycloPoly_getD_zero (n : ℕ) : (cycloPoly n).getD 0 0 = 1 := rfl

open Polynomial in
theorem toP_cycloPoly (n : ℕ) (hn : 0 < n) : toP (cycloPoly n) = X ^ n + 1 := by
  apply Polynomial.ext
  intro k
  rw [toP_coeff, Polynomial.coeff_add, Polynomial.coeff_X_pow, Polynomial.coeff_one]
  unfold coeffD
  rw [cycloPoly_length n hn]
  unfold cycloPoly
  by_cases hk : k < n + 1
  · rw [if_pos hk]
    rcases Nat.lt_trichotomy k n with hkn | hkn | hkn
    · have h1 : n + 1 - 1 - k = (n - k - 1) + 1 := by omega
      rw [h1, List.getD_cons_succ]
      by_cases hk0 : k = 0
      · subst hk0
        rw [List.getD_append_right _ _ _ _ (by simp only [List.length_replicate]; omega)]
        simp only [List.length_replicate]
        have h2 : n - 0 - 1 - (n - 1) = 0 := by omega
        rw [h2, if_neg (by omega)]
        simp
      · rw [List.getD_append _ _ _ _ (by simp only [List.length_replicate]; omega),
          getD_replicate_zero, if_neg (by omega), if_neg hk0]
        simp
    · subst hkn
      have h0 : k + 1 - 1 - k = 0 := by omega
      rw [h0, List.getD_cons_zero, if_pos rfl, if_neg (by omega)]
      simp
    · omega
  · rw [if_neg hk, if_neg (by omega), if_neg (by omega)]
    simp

theorem reduce_cyclo_length (l : List ℤ) (n : ℕ) (hn : 0 < n) :
    (reduce_coefficients_by_cyclo l (cycloPoly n)).length = n := by
  unfold reduce_coefficients_by_cyclo
  have hrem := (poly_div_spec l (cycloPoly n) (cycloPoly_getD_zero n)).2
  rw [cycloPoly_length n hn] at hrem
  simp only [List.length_append, List.length_replicate, cycloPoly_length n hn]
  omega

open Polynomial in
theorem reduce_cyclo_dvd (l : List ℤ) (n : ℕ) (hn : 0 < n) :
    ((X : Polynomial ℤ) ^ n + 1) ∣ (toP l - toP (reduce_coefficients_by_cyclo l (cycloPoly n))) := by
  have hspec := (poly_div_spec l (cycloPoly n) (cycloPoly_getD_zero n)).1
  have htoP : toP (reduce_coefficients_by_cyclo l (cycloPoly n)) =
      toP (poly_div l (cycloPoly n)).2 := by
    unfold reduce_coefficients_by_cyclo
    rw [toP_replicate_append]
  rw [htoP, hspec, toP_cycloPoly n hn]
  exact ⟨toP (poly_div l (cycloPoly n)).1, by ring⟩

theorem pad_dropWhile (l : List ℤ) :
    List.replicate (l.length - (l.dropWhile (· == 0)).length) 0 ++ l.dropWhile (· == 0) = l := by
  conv_rhs => rw [← List.takeWhile_append_dropWhile (p := (· == 0)) (l := l)]
  congr 1
  have hlen : (l.takeWhile (· == 0)).length = l.length - (l.dropWhile (· == 0)).length := by
    have := congrArg List.length (List.takeWhile_append_dropWhile (p := (· == 0)) (l := l))
    rw [List.length_append] at this
    omega
  rw [← hlen]
  exact (List.eq_replicate_of_mem fun x hx => by
    simpa using List.mem_takeWhile_imp hx).symm

theorem reduce_cyclo_short (l : List ℤ) (n : ℕ) (hn : 0 < n) (hl : l.length ≤ n) :
    reduce_coefficients_by_cyclo l (cycloPoly n) = List.replicate (n - l.length) 0 ++ l := by
  have hq0 : l.length + 1 - (cycloPoly n).length = 0 := by
    rw [cycloPoly_length n hn]
    omega
  have hrem : (poly_div l (cycloPoly n)).2 = l.dropWhile (· == 0) := by
    simp only [poly_div, hq0, List.range_zero, List.foldl_nil]
  have hdl : (l.dropWhile (· == 0)).length ≤ l.length :=
    List.Sublist.length_le (List.dropWhile_sublist _)
  have hsplit : (cycloPoly n).length - 1 - (l.dropWhile (· == 0)).length =
      (n - l.length) + (l.length - (l.dropWhile (· == 0)).length) := by
    rw [cycloPoly_length n hn]
    omega
  simp only [reduce_coefficients_by_cyclo, hrem, hsplit]
  rw [List.replicate_add, List.append_assoc, pad_dropWhile]

/-! ### Centered remainder -/

theorem get_centered_remainder_range (x m : ℤ) (hm : 0 < m) :
    -m < 2 * get_centered_remainder x m ∧ 2 * get_centered_remainder x m ≤ m := by
  unfold get_centered_remainder
  have h0 : 0 ≤ x % m := Int.emod_nonneg x (by omega)
  have h1 : x % m < m := Int.emod_lt_of_pos x hm
  by_cases hc : ((x % m : ℤ) : ℚ) ≤ (m : ℚ) / 2
  · rw [if_pos hc]
    have h2 : ((2 * (x % m) : ℤ) : ℚ) ≤ (m : ℚ) := by push_cast; linarith
    have h3 : 2 * (x % m) ≤ m := by exact_mod_cast h2
    omega
  · rw [if_neg hc]
    push_neg at hc
    have h2 : (m : ℚ) < ((2 * (x % m) : ℤ) : ℚ) := by push_cast; linarith
    have h3 : m < 2 * (x % m) := by exact_mod_cast h2
    omega

/-- The `ℚ`-comparison in `get_centered_remainder` expressed over `ℤ`, so that
concrete instances evaluate by `decide`. -/
theorem get_centered_remainder_eq_int (x m : ℤ) :
    get_centered_remainder x m = if 2 * (x % m) ≤ m then x % m else x % m - m := by
  unfold get_centered_remainder
  have hiff : ((x % m : ℤ) : ℚ) ≤ (m : ℚ) / 2 ↔ 2 * (x % m) ≤ m := by
    rw [le_div_iff₀ (by norm_num : (0 : ℚ) < 2)]
    constructor
    · intro h
      have h2 : ((2 * (x % m) : ℤ) : ℚ) ≤ (m : ℚ) := by push_cast; linarith
      exact_mod_cast h2
    · intro h
      have h2 : ((2 * (x % m) : ℤ) : ℚ) ≤ (m : ℚ) := by exact_mod_cast h
      push_cast at h2
      linarith
  by_cases hc : 2 * (x % m) ≤ m
  · rw [if_pos (hiff.mpr hc), if_pos hc]
  · rw [if_neg (fun h => hc (hiff.mp h)), if_neg hc]

theorem get_centered_remainder_modEq (x m : ℤ) (hm : m ≠ 0) :
    get_centered_remainder x m ≡ x [ZMOD m] := by
  unfold get_centered_remainder
  by_cases hc : ((x % m : ℤ) : ℚ) ≤ (m : ℚ) / 2
  · rw [if_pos hc]
    exact Int.emod_emod_of_dvd x dvd_rfl
  · rw [if_neg hc]
    have hm0 : (m : ℤ) ≡ 0 [ZMOD m] := Int.modEq_zero_iff_dvd.mpr dvd_rfl
    calc x % m - m ≡ x % m - 0 [ZMOD m] := (Int.ModEq.refl _).sub hm0
    _ = x % m := by ring
    _ ≡ x [ZMOD m] := Int.emod_emod_of_dvd x dvd_rfl

theorem centered_unique {a b m : ℤ} (hm : 0 < m)
    (ha : -m < 2 * a ∧ 2 * a ≤ m) (hb : -m < 2 * b ∧ 2 * b ≤ m)
    (hcong : a ≡ b [ZMOD m]) : a = b := by
  have hdvd : m ∣ (a - b) := Int.ModEq.dvd hcong.symm
  have habs : a - b = 0 := Int.eq_zero_of_abs_lt_dvd hdvd (by
    rw [abs_lt]
    constructor <;> omega)
  omega

theorem get_centered_remainder_fixed (c m : ℤ) (hm : 0 < m)
    (hc : -m < 2 * c ∧ 2 * c ≤ m) : get_centered_remainder c m = c :=
  centered_unique hm (get_centered_remainder_range c m hm) hc
    (get_centered_remainder_modEq c m (by omega))

/-! ### `reduce_in_ring`: length, coefficient range, idempotence -/

theorem length_reduce_in_ring (l : List ℤ) (n : ℕ) (m : ℤ) (hn : 0 < n) :
    (reduce_in_ring l ⟨n, m⟩).length = n := by
  unfold reduce_in_ring reduce_coefficients_by_modulus
  rw [List.length_map]
  exact reduce_cyclo_length l n hn

theorem reduce_in_ring_coeff_range (l : List ℤ) (n : ℕ) (m : ℤ) (hm : 0 < m) :
    ∀ c ∈ reduce_in_ring l ⟨n, m⟩, -m < 2 * c ∧ 2 * c ≤ m := by
  intro c hc
  unfold reduce_in_ring reduce_coefficients_by_modulus at hc
  simp only [List.mem_map] at hc
  obtain ⟨x, _, hx⟩ := hc
  subst hx
  exact get_centered_remainder_range x m hm

theorem reduce_in_ring_fixed (l : List ℤ) (n : ℕ) (m : ℤ) (hn : 0 < n) (hm : 0 < m)
    (hlen : l.length = n) (hrange : ∀ c ∈ l, -m < 2 * c ∧ 2 * c ≤ m) :
    reduce_in_ring l ⟨n, m⟩ = l := by
  unfold reduce_in_ring
  have hcyclo : reduce_coefficients_by_cyclo l (cycloPoly n) = l := by
    rw [reduce_cyclo_short l n hn (le_of_eq hlen), hlen]
    simp
  rw [hcyclo]
  unfold reduce_coefficients_by_modulus
  have : ∀ x ∈ l, get_centered_remainder x m = id x := fun x hx =>
    get_centered_remainder_fixed x m hm (hrange x hx)
  rw [List.map_congr_left this, List.map_id]

theorem reduce_in_ring_idempotent (l : List ℤ) (n : ℕ) (m : ℤ) (hn : 0 < n) (hm : 0 < m) :
    reduce_in_ring (reduce_in_ring l ⟨n, m⟩) ⟨n, m⟩ = reduce_in_ring l ⟨n, m⟩ :=
  reduce_in_ring_fixed _ n m hn hm (length_reduce_in_ring l n m hn)
    (reduce_in_ring_coeff_range l n m hm)

/-! ### The image of a coefficient list in `(ZMod q)[X] / (X^n + 1)` -/

theorem phiZ_poly_add (q : ℕ) (a b : List ℤ) :
    phiZ q (poly_add a b) = phiZ q a + phiZ q b := by
  unfold phiZ
  rw [toP_poly_add, Polynomial.map_add]

theorem phiZ_poly_mul_naive (q : ℕ) (a b : List ℤ) :
    phiZ q (poly_mul_naive a b) = phiZ q a * phiZ q b := by
  unfold phiZ
  rw [toP_poly_mul_naive, Polynomial.map_mul]

theorem Phi_poly_add (n q : ℕ) (a b : List ℤ) :
    Phi n q (poly_add a b) = Phi n q a + Phi n q b := by
  unfold Phi
  rw [phiZ_poly_add, map_add]

theorem Phi_poly_mul_naive (n q : ℕ) (a b : List ℤ) :
    Phi n q (poly_mul_naive a b) = Phi n q a * Phi n q b := by
  unfold Phi
  rw [phiZ_poly_mul_naive, map_mul]

theorem coeffD_reduce_by_modulus (l : List ℤ) (m : ℤ) (hm : 0 < m) (k : ℕ) :
    coeffD (reduce_coefficients_by_modulus l m) k = get_centered_remainder (coeffD l k) m := by
  unfold reduce_coefficients_by_modulus coeffD
  rw [List.length_map]
  by_cases hk : k < l.length
  · rw [if_pos hk, if_pos hk, List.getD_eq_getElem _ _ (by rw [List.length_map]; omega),
      List.getElem_map, List.getD_eq_getElem _ _ (by omega)]
  · rw [if_neg hk, if_neg hk]
    symm
    exact get_centered_remainder_fixed 0 m hm (by omega)

theorem phiZ_reduce_by_modulus (q : ℕ) (hq : 0 < q) (l : List ℤ) :
    phiZ q (reduce_coefficients_by_modulus l (q : ℤ)) = phiZ q l := by
  unfold phiZ
  apply Polynomial.ext
  intro k
  rw [Polynomial.coeff_map, Polynomial.coeff_map, toP_coeff, toP_coeff,
    coeffD_reduce_by_modulus l (q : ℤ) (by exact_mod_cast hq)]
  simp only [Int.castRingHom, RingHom.coe_mk, MonoidHom.coe_mk, OneHom.coe_mk]
  rw [ZMod.intCast_eq_intCast_iff]
  exact get_centered_remainder_modEq _ _ (by positivity)

open Polynomial in
theorem Phi_reduce_in_ring (n q : ℕ) (hn : 0 < n) (hq : 0 < q) (l : List ℤ) :
    Phi n q (reduce_in_ring l ⟨n, (q : ℤ)⟩) = Phi n q l := by
  unfold Phi reduce_in_ring
  rw [phiZ_reduce_by_modulus q hq]
  rw [Ideal.Quotient.eq, Ideal.mem_span_singleton]
  have hdvd := reduce_cyclo_dvd l n hn
  have := map_dvd (Polynomial.mapRingHom (Int.castRingHom (ZMod q))) hdvd
  simp only [map_sub, Polynomial.coe_mapRingHom, Polynomial.map_add, Polynomial.map_pow,
    Polynomial.map_X, Polynomial.map_one] at this
  unfold phiZ
  exact (dvd_sub_comm.mp this)

open Polynomial in
theorem toP_degree_lt (l : List ℤ) (n : ℕ) (hl : l.length ≤ n) (hn : 0 < n) :
    (toP l).degree < (n : WithBot ℕ) := by
  unfold toP
  apply lt_of_le_of_lt (Polynomial.degree_sum_le _ _)
  rw [Finset.sup_lt_iff (by exact_mod_cast WithBot.bot_lt_coe n)]
  intro i hi
  simp only [Finset.mem_range] at hi
  apply lt_of_le_of_lt (Polynomial.degree_C_mul_X_pow_le _ _)
  exact_mod_cast (by omega : l.length - 1 - i < n)

open Polynomial in
theorem phiZ_degree_lt (q : ℕ) (l : List ℤ) (n : ℕ) (hl : l.length ≤ n) (hn : 0 < n) :
    (phiZ q l).degree < (n : WithBot ℕ) :=
  lt_of_le_of_lt (Polynomial.degree_map_le) (toP_degree_lt l n hl hn)

open Polynomial in
theorem canonical_eq {n q : ℕ} (hn : 0 < n) (hq : 1 < q) {l1 l2 : List ℤ}
    (hl1 : l1.length = n) (hl2 : l2.length = n)
    (hr1 : ∀ c ∈ l1, -(q : ℤ) < 2 * c ∧ 2 * c ≤ (q : ℤ))
    (hr2 : ∀ c ∈ l2, -(q : ℤ) < 2 * c ∧ 2 * c ≤ (q : ℤ))
    (hPhi : Phi n q l1 = Phi n q l2) : l1 = l2 := by
  haveI : Fact (1 < q) := ⟨hq⟩
  have hdvd : ((X : Polynomial (ZMod q)) ^ n + 1) ∣ (phiZ q l1 - phiZ q l2) := by
    have := Ideal.Quotient.eq.mp hPhi
    exact Ideal.mem_span_singleton.mp this
  have hmonic : ((X : Polynomial (ZMod q)) ^ n + 1).Monic := by
    have := Polynomial.monic_X_pow_add_C (R := ZMod q) (1 : ZMod q) (by omega : n ≠ 0)
    simpa using this
  have hdeg : (phiZ q l1 - phiZ q l2).degree < (n : WithBot ℕ) :=
    lt_of_le_of_lt (Polynomial.degree_sub_le _ _)
      (max_lt (phiZ_degree_lt q l1 n (le_of_eq hl1) hn) (phiZ_degree_lt q l2 n (le_of_eq hl2) hn))
  have hdegf : ((X : Polynomial (ZMod q)) ^ n + 1).degree = (n : WithBot ℕ) := by
    have := Polynomial.degree_X_pow_add_C (R := ZMod q) hn (1 : ZMod q)
    simpa using this
  have hzero : phiZ q l1 - phiZ q l2 = 0 := by
    obtain ⟨h, hh⟩ := hdvd
    by_cases hh0 : h = 0
    · rw [hh, hh0, mul_zero]
    · exfalso
      have hdm : (phiZ q l1 - phiZ q l2).degree = h.degree + (n : WithBot ℕ) := by
        rw [hh, mul_comm, hmonic.degree_mul, hdegf]
      have h0 : 0 ≤ h.degree := Polynomial.zero_le_degree_iff.mpr hh0
      have hge : (n : WithBot ℕ) ≤ (phiZ q l1 - phiZ q l2).degree := by
        rw [hdm]
        calc (n : WithBot ℕ) = 0 + n := (zero_add _).symm
        _ ≤ h.degree + n := add_le_add_right h0 _
      exact absurd hdeg (not_lt.mpr hge)
  have hcoeffs : ∀ k, coeffD l1 k = coeffD l2 k := by
    intro k
    have hc : (phiZ q l1).coeff k = (phiZ q l2).coeff k := by
      rw [sub_eq_zero] at hzero
      rw [hzero]
    unfold phiZ at hc
    rw [Polynomial.coeff_map, Polynomial.coeff_map, toP_coeff, toP_coeff] at hc
    simp only [Int.coe_castRingHom] at hc
    have hmod : coeffD l1 k ≡ coeffD l2 k [ZMOD (q : ℤ)] := by
      rw [← ZMod.intCast_eq_intCast_iff]
      exact_mod_cast hc
    by_cases hk : k < n
    · have hm1 : coeffD l1 k ∈ l1 := by
        unfold coeffD
        rw [if_pos (by omega)]
        rw [List.getD_eq_getElem _ _ (by omega)]
        exact List.getElem_mem _
      have hm2 : coeffD l2 k ∈ l2 := by
        unfold coeffD
        rw [if_pos (by omega)]
        rw [List.getD_eq_getElem _ _ (by omega)]
        exact List.getElem_mem _
      exact centered_unique (by exact_mod_cast (by omega : 0 < q)) (hr1 _ hm1) (hr2 _ hm2) hmod
    · unfold coeffD
      rw [if_neg (by omega), if_neg (by omega)]
  apply List.ext_getElem (by omega)
  intro i h1 h2
  have := hcoeffs (n - 1 - i)
  unfold coeffD at this
  rw [if_pos (by omega), if_pos (by omega)] at this
  have harith : l1.length - 1 - (n - 1 - i) = i := by omega
  have harith2 : l2.length - 1 - (n - 1 - i) = i := by omega
  rw [harith, harith2, List.getD_eq_getElem _ _ h1, List.getD_eq_getElem _ _ h2] at this
  exact this

/-! ### Exactness of the DFT convolution pipeline -/

theorem dftOmega_ne_zero (N : ℕ) : dftOmega N ≠ 0 := Complex.exp_ne_zero _

theorem rootsum (N : ℕ) (hN : 0 < N) (z : ℤ) :
    ∑ k ∈ Finset.range N, dftOmega N ^ (z * (k : ℤ)) = if (N : ℤ) ∣ z then (N : ℂ) else 0 := by
  have hprim : IsPrimitiveRoot (dftOmega N) N :=
    Complex.isPrimitiveRoot_exp N (by omega)
  have hterm : ∀ k : ℕ, dftOmega N ^ (z * (k : ℤ)) = (dftOmega N ^ z) ^ k := by
    intro k
    rw [← zpow_natCast (dftOmega N ^ z) k, ← zpow_mul]
  rw [Finset.sum_congr rfl fun k _ => hterm k]
  by_cases hdvd : (N : ℤ) ∣ z
  · have hx1 : dftOmega N ^ z = 1 := (hprim.zpow_eq_one_iff_dvd z).mpr hdvd
    rw [if_pos hdvd, hx1]
    simp
  · have hx1 : dftOmega N ^ z ≠ 1 := fun h => hdvd ((hprim.zpow_eq_one_iff_dvd z).mp h)
    rw [if_neg hdvd, geom_sum_eq hx1]
    have hxN : (dftOmega N ^ z) ^ N = 1 := by
      rw [← zpow_natCast (dftOmega N ^ z) N, ← zpow_mul, mul_comm, zpow_mul, zpow_natCast,
        hprim.pow_eq_one, one_zpow]
    rw [hxN, sub_self, zero_div]

theorem getD_map_range (f : ℕ → ℂ) (N k : ℕ) (hk : k < N) :
    (((List.range N).map f)).getD k 0 = f k := by
  rw [List.getD_eq_getElem _ _ (by simp only [List.length_map, List.length_range]; omega),
    List.getElem_map, List.getElem_range]

theorem recursive_fft_length (l : List ℂ) : (recursive_fft l).length = l.length := by
  unfold recursive_fft
  rw [List.length_map, List.length_range]

theorem recursive_ifft_length (l : List ℂ) : (recursive_ifft l).length = l.length := by
  unfold recursive_ifft
  rw [List.length_map, List.length_range]

theorem recursive_fft_getD (l : List ℂ) (k : ℕ) (hk : k < l.length) :
    (recursive_fft l).getD k 0 =
      ∑ j ∈ Finset.range l.length, l.getD j 0 * dftOmega l.length ^ (j * k) := by
  unfold recursive_fft
  rw [getD_map_range _ _ _ hk]

theorem recursive_ifft_getD (l : List ℂ) (k : ℕ) (hk : k < l.length) :
    (recursive_ifft l).getD k 0 =
      (∑ j ∈ Finset.range l.length, l.getD j 0 * (dftOmega l.length)⁻¹ ^ (j * k)) / l.length := by
  unfold recursive_ifft
  rw [getD_map_range _ _ _ hk]

theorem getD_zipWith_mul (a b : List ℂ) (k : ℕ) (hk : k < min a.length b.length) :
    (List.zipWith (· * ·) a b).getD k 0 = a.getD k 0 * b.getD k 0 := by
  rw [List.getD_eq_getElem _ _ (by rw [List.length_zipWith]; omega), List.getElem_zipWith,
    List.getD_eq_getElem _ _ (by omega), List.getD_eq_getElem _ _ (by omega)]

theorem cyclic_index_iff (N p k j : ℕ) (hN : 0 < N) (hp : p < N) (hk : k < N) (hj : j < N) :
    ((N : ℤ) ∣ ((p : ℤ) + (k : ℤ) - (j : ℤ))) ↔ ((p + k) % N = j) := by
  have h1 : (j ≡ p + k [MOD N]) ↔ ((N : ℤ) ∣ ((p + k : ℕ) : ℤ) - (j : ℤ)) :=
    Nat.modEq_iff_dvd
  have h2 : ((p + k : ℕ) : ℤ) - (j : ℤ) = (p : ℤ) + (k : ℤ) - (j : ℤ) := by push_cast; ring
  rw [h2] at h1
  rw [← h1]
  unfold Nat.ModEq
  rw [Nat.mod_eq_of_lt hj]
  exact eq_comm

/-- Pointwise multiplication of the exact DFTs followed by the exact inverse
DFT computes the cyclic convolution. -/
theorem dft_convolution (x y : List ℂ) (N : ℕ) (hx : x.length = N) (hy : y.length = N)
    (hN : 0 < N) (j : ℕ) (hj : j < N) :
    (recursive_ifft (List.zipWith (· * ·) (recursive_fft x) (recursive_fft y))).getD j 0 =
      ∑ p ∈ Finset.range N, ∑ k ∈ Finset.range N,
        if (p + k) % N = j then x.getD p 0 * y.getD k 0 else 0 := by
  have hne : (dftOmega N) ≠ 0 := dftOmega_ne_zero N
  have hNC : (N : ℂ) ≠ 0 := Nat.cast_ne_zero.mpr (by omega)
  have hfx : (recursive_fft x).length = N := by rw [recursive_fft_length, hx]
  have hfy : (recursive_fft y).length = N := by rw [recursive_fft_length, hy]
  have hzip : (List.zipWith (· * ·) (recursive_fft x) (recursive_fft y)).length = N := by
    rw [List.length_zipWith, hfx, hfy, min_self]
  rw [recursive_ifft_getD _ j (by rw [hzip]; omega), hzip]
  have hterm : ∀ k ∈ Finset.range N,
      (List.zipWith (· * ·) (recursive_fft x) (recursive_fft y)).getD k 0 *
        (dftOmega N)⁻¹ ^ (k * j) =
      ∑ p ∈ Finset.range N, ∑ q ∈ Finset.range N,
        x.getD p 0 * y.getD q 0 * dftOmega N ^ (((p : ℤ) + (q : ℤ) - (j : ℤ)) * (k : ℤ)) := by
    intro k hk
    simp only [Finset.mem_range] at hk
    rw [getD_zipWith_mul _ _ k (by rw [hfx, hfy, min_self]; omega),
      recursive_fft_getD x k (by omega), recursive_fft_getD y k (by omega), hx, hy,
      Finset.sum_mul_sum, Finset.sum_mul]
    apply Finset.sum_congr rfl
    intro p hp
    rw [Finset.sum_mul]
    apply Finset.sum_congr rfl
    intro q hq
    have hzpow : dftOmega N ^ (p * k) * dftOmega N ^ (q * k) * (dftOmega N)⁻¹ ^ (k * j) =
        dftOmega N ^ (((p : ℤ) + (q : ℤ) - (j : ℤ)) * (k : ℤ)) := by
      rw [inv_pow, ← zpow_natCast (dftOmega N) (p * k), ← zpow_natCast (dftOmega N) (q * k),
        ← zpow_natCast (dftOmega N) (k * j), ← zpow_neg, ← zpow_add₀ hne, ← zpow_add₀ hne]
      congr 1
      push_cast
      ring
    calc x.getD p 0 * dftOmega N ^ (p * k) * (y.getD q 0 * dftOmega N ^ (q * k)) *
          (dftOmega N)⁻¹ ^ (k * j)
        = x.getD p 0 * y.getD q 0 *
          (dftOmega N ^ (p * k) * dftOmega N ^ (q * k) * (dftOmega N)⁻¹ ^ (k * j)) := by ring
    _ = x.getD p 0 * y.getD q 0 *
          dftOmega N ^ (((p : ℤ) + (q : ℤ) - (j : ℤ)) * (k : ℤ)) := by rw [hzpow]
  rw [Finset.sum_congr rfl hterm, Finset.sum_comm]
  have hswap2 : ∀ p ∈ Finset.range N,
      (∑ k ∈ Finset.range N, ∑ q ∈ Finset.range N,
        x.getD p 0 * y.getD q 0 * dftOmega N ^ (((p : ℤ) + (q : ℤ) - (j : ℤ)) * (k : ℤ))) =
      ∑ q ∈ Finset.range N, x.getD p 0 * y.getD q 0 *
        (if ((N : ℤ) ∣ ((p : ℤ) + (q : ℤ) - (j : ℤ))) then (N : ℂ) else 0) := by
    intro p hp
    rw [Finset.sum_comm]
    apply Finset.sum_congr rfl
    intro q hq
    rw [← Finset.mul_sum, rootsum N hN]
  rw [Finset.sum_congr rfl hswap2, Finset.sum_div]
  apply Finset.sum_congr rfl
  intro p hp
  rw [Finset.sum_div]
  apply Finset.sum_congr rfl
  intro q hq
  simp only [Finset.mem_range] at hp hq
  by_cases hdvd : (N : ℤ) ∣ ((p : ℤ) + (q : ℤ) - (j : ℤ))
  · rw [if_pos hdvd, if_pos ((cyclic_index_iff N p q j hN hp hq hj).mp hdvd),
      mul_div_assoc, div_self hNC, mul_one]
  · rw [if_neg hdvd, if_neg fun h => hdvd ((cyclic_index_iff N p q j hN hp hq hj).mpr h),
      mul_zero, zero_div]

/-! ### `poly_mul` agrees with `poly_mul_naive` -/

theorem getD_replicate_any {α : Type*} (c : α) (n i : ℕ) :
    (List.replicate n c).getD i c = c := by
  rcases lt_or_le i n with h | h
  · rw [List.getD_eq_getElem _ _ (by simpa using h), List.getElem_replicate]
  · exact List.getD_eq_default _ _ (by simpa using h)

theorem nextPow2_ge (m : ℕ) : m ≤ nextPow2 m := Nat.le_pow_clog (by norm_num) m

theorem nextPow2_pos (m : ℕ) : 0 < nextPow2 m := Nat.pos_pow_of_pos _ (by norm_num)

theorem intTrunc_intCast (z : ℤ) : intTrunc ((z : ℤ) : ℝ) = z := by
  unfold intTrunc
  by_cases h : (0 : ℝ) ≤ (z : ℝ)
  · rw [if_pos h, Int.floor_intCast]
  · rw [if_neg h, Int.ceil_intCast]

theorem fft_replicate_zero_getD (N k : ℕ) :
    (recursive_fft (List.replicate N (0 : ℂ))).getD k 0 = 0 := by
  rcases lt_or_le k ((recursive_fft (List.replicate N (0 : ℂ))).length) with hk | hk
  · rw [recursive_fft_length] at hk
    rw [recursive_fft_getD _ _ (by simpa using hk)]
    apply Finset.sum_eq_zero
    intro j hj
    rw [getD_replicate_any, zero_mul]
  · exact List.getD_eq_default _ _ hk

theorem ifft_zip_getD_zero (f1 f2 : List ℂ)
    (hz : ∀ k, k < min f1.length f2.length → f1.getD k 0 * f2.getD k 0 = 0) (j : ℕ) :
    (recursive_ifft (List.zipWith (· * ·) f1 f2)).getD j 0 = 0 := by
  rcases lt_or_le j ((recursive_ifft (List.zipWith (· * ·) f1 f2)).length) with hj | hj
  · rw [recursive_ifft_length, List.length_zipWith] at hj
    rw [recursive_ifft_getD _ _ (by
      rw [List.length_zipWith]
      exact hj)]
    have hzero : ∀ k ∈ Finset.range (List.zipWith (· * ·) f1 f2).length,
        (List.zipWith (· * ·) f1 f2).getD k 0 *
          (dftOmega (List.zipWith (· * ·) f1 f2).length)⁻¹ ^ (k * j) = 0 := by
      intro k hk
      simp only [Finset.mem_range, List.length_zipWith] at hk
      rw [getD_zipWith_mul _ _ _ hk, hz k hk, zero_mul]
    rw [Finset.sum_congr rfl hzero]
    simp
  · exact List.getD_eq_default _ _ hj

theorem padded_reversed_cast (x : List ℤ) (N : ℕ) :
    ((List.replicate (N - x.length) 0 ++ x).reverse).map (Int.cast : ℤ → ℂ) =
      x.reverse.map (Int.cast : ℤ → ℂ) ++ List.replicate (N - x.length) 0 := by
  rw [List.reverse_append, List.reverse_replicate, List.map_append, List.map_replicate]
  simp

theorem padded_length (x : List ℤ) (N : ℕ) (hx : x.length ≤ N) :
    ((x.reverse.map (Int.cast : ℤ → ℂ)) ++ List.replicate (N - x.length) 0).length = N := by
  simp only [List.length_append, List.length_map, List.length_reverse, List.length_replicate]
  omega

theorem padded_getD (x : List ℤ) (N p : ℕ) :
    ((x.reverse.map (Int.cast : ℤ → ℂ)) ++ List.replicate (N - x.length) 0).getD p 0 =
      if p < x.length then ((coeffD x p : ℤ) : ℂ) else 0 := by
  by_cases hpx : p < x.length
  · rw [if_pos hpx,
      List.getD_append _ _ _ _ (by
        simp only [List.length_map, List.length_reverse]; omega),
      List.getD_eq_getElem _ _ (by
        simp only [List.length_map, List.length_reverse]; omega),
      List.getElem_map, List.getElem_reverse]
    unfold coeffD
    rw [if_pos hpx, List.getD_eq_getElem _ _ (by omega)]
  · rw [if_neg hpx,
      List.getD_append_right _ _ _ _ (by
        simp only [List.length_map, List.length_reverse]; omega)]
    exact getD_replicate_any 0 _ _

/-- For indices below the convolution length, the FFT pipeline entry is the
(cast of the) schoolbook convolution coefficient. -/
theorem conv_entry (a b : List ℤ) (N : ℕ) (hN : 0 < N) (ha : 0 < a.length)
    (hb : 0 < b.length) (hLN : a.length + b.length - 1 ≤ N) (j : ℕ)
    (hj : j < a.length + b.length - 1) :
    (recursive_ifft (List.zipWith (· * ·)
      (recursive_fft (((List.replicate (N - a.length) 0 ++ a).reverse).map (Int.cast : ℤ → ℂ)))
      (recursive_fft (((List.replicate (N - b.length) 0 ++ b).reverse).map
        (Int.cast : ℤ → ℂ))))).getD j 0 =
      ((coeffD (poly_mul_naive a b) j : ℤ) : ℂ) := by
  have hla : a.length ≤ N := by omega
  have hlb : b.length ≤ N := by omega
  rw [padded_reversed_cast a N, padded_reversed_cast b N,
    dft_convolution _ _ N (padded_length a N hla) (padded_length b N hlb) hN j (by omega)]
  have hstep : ∀ p ∈ Finset.range N, ∀ k ∈ Finset.range N,
      (if (p + k) % N = j then
        ((a.reverse.map (Int.cast : ℤ → ℂ)) ++ List.replicate (N - a.length) 0).getD p 0 *
        ((b.reverse.map (Int.cast : ℤ → ℂ)) ++ List.replicate (N - b.length) 0).getD k 0 else 0) =
      (if p + k = j then ((coeffD a p : ℤ) : ℂ) * ((coeffD b k : ℤ) : ℂ) else 0) := by
    intro p hp k hk
    simp only [Finset.mem_range] at hp hk
    rw [padded_getD a N p, padded_getD b N k]
    by_cases h1 : p + k = j
    · rw [if_pos (by rw [h1]; exact Nat.mod_eq_of_lt (by omega)), if_pos h1]
      by_cases hpa : p < a.length
      · rw [if_pos hpa]
        by_cases hkb : k < b.length
        · rw [if_pos hkb]
        · rw [if_neg hkb, mul_zero]
          have : coeffD b k = 0 := by
            unfold coeffD
            rw [if_neg hkb]
          rw [this]
          simp
      · rw [if_neg hpa, zero_mul]
        have : coeffD a p = 0 := by
          unfold coeffD
          rw [if_neg hpa]
        rw [this]
        simp
    · by_cases h2 : (p + k) % N = j
      · rw [if_pos h2, if_neg h1]
        have hsum : p + k = N + j := by
          have hdm := Nat.div_add_mod (p + k) N
          have hdlt : (p + k) / N < 2 := Nat.div_lt_of_lt_mul (by omega)
          generalize hG : (p + k) / N = d at hdm hdlt
          have hd01 : d = 0 ∨ d = 1 := by omega
          rcases hd01 with h | h <;> rw [h] at hdm <;> omega
        by_cases hpa : p < a.length
        · have hkb : ¬ k < b.length := by omega
          rw [if_pos hpa, if_neg hkb, mul_zero]
        · rw [if_neg hpa, zero_mul]
      · rw [if_neg h2, if_neg h1]
  rw [Finset.sum_congr rfl fun p hp => Finset.sum_congr rfl fun k hk => hstep p hp k hk]
  have hinner : ∀ p ∈ Finset.range N,
      (∑ k ∈ Finset.range N, if p + k = j then ((coeffD a p : ℤ) : ℂ) * ((coeffD b k : ℤ) : ℂ)
        else 0) =
      (if p ≤ j then ((coeffD a p : ℤ) : ℂ) * ((coeffD b (j - p) : ℤ) : ℂ) else 0) := by
    intro p hp
    simp only [Finset.mem_range] at hp
    by_cases hpj : p ≤ j
    · rw [if_pos hpj, Finset.sum_eq_single (j - p)]
      · rw [if_pos (by omega)]
      · intro k hk hkne
        rw [if_neg (by omega)]
      · intro hnot
        exact absurd (Finset.mem_range.mpr (by omega)) hnot
    · rw [if_neg hpj]
      apply Finset.sum_eq_zero
      intro k hk
      rw [if_neg (by omega)]
  rw [Finset.sum_congr rfl hinner,
    ← Finset.sum_subset (Finset.range_subset.mpr (by omega : j + 1 ≤ N))
      (fun p _ hp => by
        rw [if_neg (by simp only [Finset.mem_range] at hp; omega)])]
  have hfinal : ∀ p ∈ Finset.range (j + 1),
      (if p ≤ j then ((coeffD a p : ℤ) : ℂ) * ((coeffD b (j - p) : ℤ) : ℂ) else 0) =
      ((coeffD a p * coeffD b (j - p) : ℤ) : ℂ) := by
    intro p hp
    simp only [Finset.mem_range] at hp
    rw [if_pos (by omega)]
    push_cast
    ring
  rw [Finset.sum_congr rfl hfinal, coeffD_poly_mul_naive]
  push_cast
  rfl

theorem poly_mul_def (a b : List ℤ) :
    poly_mul a b = ((fftConv a b).take ((fftConv a b).length -
      ((fftConv a b).length - (a.length + b.length - 1)))).reverse.map
        (fun c => intTrunc c.re) := rfl

theorem fftConv_length_ge (a b : List ℤ) :
    a.length + b.length - 1 ≤ (fftConv a b).length := by
  unfold fftConv
  simp only [recursive_ifft_length, List.length_zipWith, recursive_fft_length,
    List.length_map, List.length_reverse, List.length_append, List.length_replicate]
  omega

theorem getD_take (l : List ℂ) (n k : ℕ) (hk : k < n) :
    (l.take n).getD k 0 = l.getD k 0 := by
  rcases lt_or_le k l.length with h | h
  · rw [List.getD_eq_getElem _ _ (by simp only [List.length_take]; omega),
      List.getElem_take, List.getD_eq_getElem _ _ h]
  · rw [List.getD_eq_default _ _ (by simp only [List.length_take]; omega),
      List.getD_eq_default _ _ h]

theorem fftConv_getD_main (a b : List ℤ) (ha : 0 < a.length) (hb : 0 < b.length)
    (j : ℕ) (hj : j < a.length + b.length - 1) :
    (fftConv a b).getD j 0 = ((coeffD (poly_mul_naive a b) j : ℤ) : ℂ) := by
  have hmerge : ∀ (x : List ℤ), x.length ≤ a.length + b.length - 1 →
      List.replicate (nextPow2 (a.length + b.length - 1) - (a.length + b.length - 1)) (0 : ℤ) ++
        (List.replicate ((a.length + b.length - 1) - x.length) 0 ++ x) =
      List.replicate (nextPow2 (a.length + b.length - 1) - x.length) 0 ++ x := by
    intro x hx
    rw [← List.append_assoc, ← List.replicate_add]
    have := nextPow2_ge (a.length + b.length - 1)
    congr 2
    omega
  simp only [fftConv]
  rw [hmerge a (by omega), hmerge b (by omega)]
  exact conv_entry a b (nextPow2 (a.length + b.length - 1)) (nextPow2_pos _) ha hb
    (nextPow2_ge _) j hj

theorem fftConv_getD_nil_left (b : List ℤ) (j : ℕ) : (fftConv [] b).getD j 0 = 0 := by
  simp only [fftConv, List.length_nil, Nat.zero_add, Nat.sub_zero, List.append_nil]
  have hzeros : List.replicate (nextPow2 (b.length - 1) - (b.length - 1)) (0 : ℤ) ++
      List.replicate (b.length - 1) 0 = List.replicate (nextPow2 (b.length - 1)) 0 := by
    rw [← List.replicate_add]
    have := nextPow2_ge (b.length - 1)
    congr 1
    omega
  rw [hzeros, List.reverse_replicate, List.map_replicate]
  apply ifft_zip_getD_zero
  intro k hk
  rw [show ((0 : ℤ) : ℂ) = (0 : ℂ) from Int.cast_zero, fft_replicate_zero_getD, zero_mul]

theorem fftConv_getD_nil_right (a : List ℤ) (j : ℕ) : (fftConv a []).getD j 0 = 0 := by
  simp only [fftConv, List.length_nil, Nat.add_zero, Nat.sub_zero, List.append_nil]
  have hzeros : List.replicate (nextPow2 (a.length - 1) - (a.length - 1)) (0 : ℤ) ++
      List.replicate (a.length - 1) 0 = List.replicate (nextPow2 (a.length - 1)) 0 := by
    rw [← List.replicate_add]
    have := nextPow2_ge (a.length - 1)
    congr 1
    omega
  rw [hzeros, List.reverse_replicate, List.map_replicate]
  apply ifft_zip_getD_zero
  intro k hk
  rw [show ((0 : ℤ) : ℂ) = (0 : ℂ) from Int.cast_zero, fft_replicate_zero_getD, mul_zero]

theorem intTrunc_zero : intTrunc 0 = 0 := by
  unfold intTrunc
  rw [if_pos le_rfl, Int.floor_zero]

theorem poly_mul_length (a b : List ℤ) :
    (poly_mul a b).length = a.length + b.length - 1 := by
  rw [poly_mul_def, List.length_map, List.length_reverse, List.length_take]
  have := fftConv_length_ge a b
  omega

theorem poly_mul_naive_nil_left (b : List ℤ) :
    poly_mul_naive [] b = List.replicate (b.length - 1) 0 := by
  unfold poly_mul_naive addAt
  simp

theorem poly_mul_naive_nil_right (a : List ℤ) :
    poly_mul_naive a [] = List.replicate (a.length - 1) 0 := by
  unfold poly_mul_naive addAt
  simp

theorem poly_mul_getD (a b : List ℤ) (i : ℕ) (hi : i < a.length + b.length - 1) :
    (poly_mul a b).getD i 0 =
      intTrunc ((fftConv a b).getD (a.length + b.length - 1 - 1 - i) 0).re := by
  have hL := fftConv_length_ge a b
  have htake : ((fftConv a b).take ((fftConv a b).length -
      ((fftConv a b).length - (a.length + b.length - 1)))).length =
      a.length + b.length - 1 := by
    rw [List.length_take]
    omega
  rw [poly_mul_def,
    List.getD_eq_getElem _ 0 (by
      rw [List.length_map, List.length_reverse, htake]
      omega),
    List.getElem_map, List.getElem_reverse]
  congr 1
  rw [← List.getD_eq_getElem, htake, getD_take _ _ _ (by omega)]

/-- In the exact-arithmetic model of the FFT, `poly_mul` computes exactly the
schoolbook convolution `poly_mul_naive`. -/
theorem poly_mul_eq_naive (a b : List ℤ) : poly_mul a b = poly_mul_naive a b := by
  apply List.ext_getElem (by rw [poly_mul_length, length_poly_mul_naive])
  intro i h1 h2
  have hiL : i < a.length + b.length - 1 := by
    rw [poly_mul_length] at h1
    exact h1
  rw [← List.getD_eq_getElem _ 0 h1, ← List.getD_eq_getElem _ 0 h2,
    poly_mul_getD a b i hiL]
  by_cases hA : a = []
  · subst hA
    rw [fftConv_getD_nil_left, Complex.zero_re, intTrunc_zero, poly_mul_naive_nil_left,
      getD_replicate_zero]
  · by_cases hB : b = []
    · subst hB
      rw [fftConv_getD_nil_right, Complex.zero_re, intTrunc_zero, poly_mul_naive_nil_right,
        getD_replicate_zero]
    · have ha : 0 < a.length := List.length_pos.mpr hA
      have hb : 0 < b.length := List.length_pos.mpr hB
      rw [fftConv_getD_main a b ha hb _ (by omega), Complex.intCast_re, intTrunc_intCast]
      unfold coeffD
      rw [length_poly_mul_naive, if_pos (by omega)]
      congr 1
      omega

theorem toP_poly_mul (a b : List ℤ) : toP (poly_mul a b) = toP a * toP b := by
  rw [poly_mul_eq_naive, toP_poly_mul_naive]

theorem Phi_poly_mul (n q : ℕ) (a b : List ℤ) :
    Phi n q (poly_mul a b) = Phi n q a * Phi n q b := by
  rw [poly_mul_eq_naive, Phi_poly_mul_naive]

/-! ### Lemmas for the decryption argument -/

theorem length_reduce_by_modulus (l : List ℤ) (m : ℤ) :
    (reduce_coefficients_by_modulus l m).length = l.length := by
  unfold reduce_coefficients_by_modulus
  exact List.length_map ..

theorem getD_reduce_by_modulus (l : List ℤ) (m : ℤ) (i : ℕ) (hi : i < l.length) :
    (reduce_coefficients_by_modulus l m).getD i 0 = get_centered_remainder (l.getD i 0) m := by
  unfold reduce_coefficients_by_modulus
  rw [List.getD_eq_getElem _ _ (by rw [List.length_map]; omega), List.getElem_map,
    List.getD_eq_getElem _ _ hi]

theorem getD_poly_add_len_eq {a b : List ℤ} (hab : a.length = b.length) (i : ℕ) :
    (poly_add a b).getD i 0 = a.getD i 0 + b.getD i 0 := by
  by_cases hi : i < b.length
  · have h1 := coeffD_poly_add a b (b.length - 1 - i)
    have hlen : (poly_add a b).length = b.length := by
      rw [length_poly_add]
      omega
    unfold coeffD at h1
    rw [hlen, hab] at h1
    rw [if_pos (by omega), if_pos (by omega), if_pos (by omega)] at h1
    have he : b.length - 1 - (b.length - 1 - i) = i := by omega
    rw [he] at h1
    exact h1
  · rw [List.getD_eq_default _ _ (by rw [length_poly_add]; omega),
      List.getD_eq_default _ _ (by omega), List.getD_eq_default _ _ (by omega)]
    rfl

theorem getD_poly_mul_singleton (c : ℤ) (l : List ℤ) (i : ℕ) :
    (poly_mul_naive [c] l).getD i 0 = c * l.getD i 0 := by
  rw [getD_poly_mul_naive]
  simp only [List.length_singleton]
  rw [Finset.sum_range_one]
  by_cases hi : i < l.length
  · rw [Finset.sum_eq_single i]
    · rw [if_pos (by omega)]
      rfl
    · intro j hj hne
      rw [if_neg (by omega)]
    · intro hnot
      exact absurd (Finset.mem_range.mpr hi) hnot
  · have hz : l.getD i 0 = 0 := List.getD_eq_default _ _ (by omega)
    rw [hz, mul_zero]
    apply Finset.sum_eq_zero
    intro j hj
    simp only [Finset.mem_range] at hj
    rw [if_neg (by omega)]

theorem python_round_eq_of_close (x : ℚ) (z : ℤ) (h : |x - z| < 1/2) :
    python_round x = z := by
  rw [abs_lt] at h
  have hfl : (⌊x⌋ : ℚ) ≤ x := Int.floor_le x
  have hfu : x < ⌊x⌋ + 1 := Int.lt_floor_add_one x
  unfold python_round
  by_cases h1 : x - ⌊x⌋ < 1/2
  · rw [if_pos h1]
    have hz1 : (z : ℚ) < ⌊x⌋ + 1 := by linarith
    have hz2 : (⌊x⌋ : ℚ) - 1/2 < z := by linarith
    have hz1' : z < ⌊x⌋ + 1 := by exact_mod_cast hz1
    have hz2' : ⌊x⌋ - 1 < z := by
      have : (⌊x⌋ : ℚ) - 1 < z := by linarith
      exact_mod_cast this
    omega
  · push_neg at h1
    rcases lt_or_eq_of_le h1 with h2 | h2
    · rw [if_neg (by linarith), if_pos h2]
      have hz1 : (⌊x⌋ : ℚ) < z := by linarith
      have hz2 : (z : ℚ) < ⌊x⌋ + 2 := by linarith
      have hz1' : ⌊x⌋ < z := by exact_mod_cast hz1
      have hz2' : z < ⌊x⌋ + 2 := by exact_mod_cast hz2
      omega
    · exfalso
      have hz1 : (⌊x⌋ : ℚ) < z := by linarith
      have hz2 : (z : ℚ) < ⌊x⌋ + 1 := by linarith
      have hz1' : ⌊x⌋ < z := by exact_mod_cast hz1
      have hz2' : z < ⌊x⌋ + 1 := by exact_mod_cast hz2
      omega

theorem get_centered_decomp (x m : ℤ) (hm : m ≠ 0) :
    ∃ K : ℤ, get_centered_remainder x m = x + m * K := by
  have h := get_centered_remainder_modEq x m hm
  have hdvd : m ∣ (get_centered_remainder x m - x) := Int.ModEq.dvd h.symm
  obtain ⟨K, hK⟩ := hdvd
  refine ⟨K, ?_⟩
  linarith [hK]

open Polynomial in
theorem Phi_reduce_cyclo (n q : ℕ) (hn : 0 < n) (l : List ℤ) :
    Phi n q (reduce_coefficients_by_cyclo l (cycloPoly n)) = Phi n q l := by
  unfold Phi
  rw [Ideal.Quotient.eq, Ideal.mem_span_singleton]
  have hdvd := reduce_cyclo_dvd l n hn
  have hmap := map_dvd (Polynomial.mapRingHom (Int.castRingHom (ZMod q))) hdvd
  simp only [map_sub, Polynomial.coe_mapRingHom, Polynomial.map_add, Polynomial.map_pow,
    Polynomial.map_X, Polynomial.map_one] at hmap
  unfold phiZ
  exact dvd_sub_comm.mp hmap

theorem Phi_reduce_by_modulus (n q : ℕ) (hq : 0 < q) (l : List ℤ) :
    Phi n q (reduce_coefficients_by_modulus l (q : ℤ)) = Phi n q l := by
  unfold Phi
  rw [phiZ_reduce_by_modulus q hq]

/-- The scaling-and-rounding step of `Decrypt` recovers the plaintext
coefficient up to a multiple of `t`, provided the (folded) noise satisfies
`|t*W - (q mod t)*M| < q/2`. -/
theorem round_recover (q t : ℕ) (hq : 1 < q) (ht : 0 < t) (Mi Wi : ℤ)
    (hW : |2 * ((t : ℤ) * Wi - ((q : ℤ) % (t : ℤ)) * Mi)| < (q : ℤ)) :
    ∃ k : ℤ, python_round ((((t : ℤ) * get_centered_remainder
        (((q / t : ℕ) : ℤ) * Mi + Wi) ((q : ℕ) : ℤ) : ℤ) : ℚ) / (((q : ℕ) : ℤ) : ℚ)) =
      Mi + (t : ℤ) * k := by
  obtain ⟨K, hK⟩ := get_centered_decomp (((q / t : ℕ) : ℤ) * Mi + Wi) ((q : ℕ) : ℤ)
    (by exact_mod_cast (by omega : q ≠ 0))
  refine ⟨K, ?_⟩
  apply python_round_eq_of_close
  have hdiv : ((q / t : ℕ) : ℤ) = (q : ℤ) / (t : ℤ) := Int.ofNat_div q t
  have hqt : ((q : ℕ) : ℤ) = (t : ℤ) * ((q / t : ℕ) : ℤ) + (q : ℤ) % (t : ℤ) := by
    rw [hdiv]
    exact (Int.ediv_add_emod (q : ℤ) (t : ℤ)).symm
  have hc : ((t : ℤ) * get_centered_remainder (((q / t : ℕ) : ℤ) * Mi + Wi) ((q : ℕ) : ℤ)) =
      ((q : ℕ) : ℤ) * (Mi + (t : ℤ) * K) + ((t : ℤ) * Wi - ((q : ℤ) % (t : ℤ)) * Mi) := by
    rw [hK]
    linear_combination (-Mi : ℤ) * hqt
  have hqQ : (0 : ℚ) < (((q : ℕ) : ℤ) : ℚ) := by exact_mod_cast (by omega : 0 < q)
  rw [hc]
  have hxz : (((((q : ℕ) : ℤ) * (Mi + (t : ℤ) * K) +
        ((t : ℤ) * Wi - ((q : ℤ) % (t : ℤ)) * Mi) : ℤ)) : ℚ) / (((q : ℕ) : ℤ) : ℚ) -
        ((Mi + (t : ℤ) * K : ℤ) : ℚ) =
      (((t : ℤ) * Wi - ((q : ℤ) % (t : ℤ)) * Mi : ℤ) : ℚ) / (((q : ℕ) : ℤ) : ℚ) := by
    field_simp
  rw [hxz, abs_div, abs_of_pos hqQ, div_lt_iff hqQ]
  have hWabs : 2 * |((t : ℤ) * Wi - ((q : ℤ) % (t : ℤ)) * Mi)| < ((q : ℕ) : ℤ) := by
    rw [abs_mul] at hW
    simp only [abs_two] at hW
    exact_mod_cast hW
  have hWQ : 2 * |((((t : ℤ) * Wi - ((q : ℤ) % (t : ℤ)) * Mi : ℤ)) : ℚ)| <
      (((q : ℕ) : ℤ) : ℚ) := by
    rw [← Int.cast_abs]
    exact_mod_cast hWabs
  linarith

/-- Master recovery lemma for `Decrypt`: if the ciphertext equals
`delta*M + X` in `Z_q[x]/(x^n+1)`, the folded noise satisfies the rounding
bound, and the source's own (unfolded) noise check passes, then `Decrypt`
returns exactly `M`. -/
theorem Decrypt_recovery (n q t : ℕ) (hn : 0 < n) (hq : 1 < q) (ht : 0 < t)
    (s e0 e1 e u c0 c1 M X : List ℤ)
    (hMlen : M.length = n)
    (hMrange : ∀ c ∈ M, -(t : ℤ) < 2 * c ∧ 2 * c ≤ (t : ℤ))
    (hPhi : Phi n q (poly_add c0 (poly_mul c1 s)) =
      Phi n q (poly_add (poly_mul [((q / t : ℕ) : ℤ)] M) X))
    (hnoise : ∀ i, i < n →
      |2 * ((t : ℤ) * (reduce_coefficients_by_cyclo X (cycloPoly n)).getD i 0 -
        ((q : ℤ) % (t : ℤ)) * M.getD i 0)| < (q : ℤ))
    (hcheck : ∀ c ∈ decryptNoise s e0 e1 e u,
      |(c : ℚ)| < noiseThreshold ((q : ℕ) : ℤ) ((t : ℕ) : ℤ)) :
    Decrypt ⟨n, ((q : ℕ) : ℤ)⟩ ⟨n, ((t : ℕ) : ℤ)⟩ s (c0, c1) e0 e1 e u = some M := by
  have hqz : (0 : ℤ) < ((q : ℕ) : ℤ) := by exact_mod_cast (by omega : 0 < q)
  have htz : (0 : ℤ) < ((t : ℕ) : ℤ) := by exact_mod_cast ht
  have hWlen : (reduce_coefficients_by_cyclo X (cycloPoly n)).length = n :=
    reduce_cyclo_length X n hn
  have hδMlen : (poly_mul [((q / t : ℕ) : ℤ)] M).length = n := by
    rw [poly_mul_length, hMlen]
    simp
  have hDlen : (poly_add (poly_mul [((q / t : ℕ) : ℤ)] M)
      (reduce_coefficients_by_cyclo X (cycloPoly n))).length = n := by
    rw [length_poly_add, hδMlen, hWlen]
    omega
  set canon : List ℤ := reduce_coefficients_by_modulus
    (poly_add (poly_mul [((q / t : ℕ) : ℤ)] M)
      (reduce_coefficients_by_cyclo X (cycloPoly n))) ((q : ℕ) : ℤ) with hcanon
  have hcanonlen : canon.length = n := by
    rw [hcanon, length_reduce_by_modulus, hDlen]
  have hA : reduce_in_ring (poly_add c0 (poly_mul c1 s)) ⟨n, ((q : ℕ) : ℤ)⟩ = canon := by
    apply canonical_eq hn hq (length_reduce_in_ring _ n _ hn) hcanonlen
      (reduce_in_ring_coeff_range _ n _ hqz)
    · intro c hc
      rw [hcanon] at hc
      unfold reduce_coefficients_by_modulus at hc
      simp only [List.mem_map] at hc
      obtain ⟨x, _, hx⟩ := hc
      rw [← hx]
      exact get_centered_remainder_range x _ hqz
    · rw [Phi_reduce_in_ring n q hn (by omega), hPhi, hcanon,
        Phi_reduce_by_modulus n q (by omega), Phi_poly_add, Phi_poly_add,
        Phi_reduce_cyclo n q hn]
  have houtQ : reduce_coefficients_by_modulus
      ((poly_mul [((t : ℕ) : ℤ)] canon).map fun c : ℤ =>
        python_round ((c : ℚ) / ((((q : ℕ) : ℤ)) : ℚ))) ((t : ℕ) : ℤ) = M := by
    have hQlen : ((poly_mul [((t : ℕ) : ℤ)] canon).map fun c : ℤ =>
        python_round ((c : ℚ) / ((((q : ℕ) : ℤ)) : ℚ))).length = n := by
      rw [List.length_map, poly_mul_length, hcanonlen]
      simp
    apply List.ext_getElem (by rw [length_reduce_by_modulus, hQlen, hMlen])
    intro i h1 h2
    have hin : i < n := by
      rw [hMlen] at h2
      exact h2
    rw [← List.getD_eq_getElem _ 0 h1, ← List.getD_eq_getElem _ 0 h2,
      getD_reduce_by_modulus _ _ _ (by rw [hQlen]; omega),
      List.getD_eq_getElem _ 0 (by rw [hQlen]; omega), List.getElem_map,
      ← List.getD_eq_getElem _ 0 (by rw [poly_mul_length, hcanonlen]; simp; omega),
      poly_mul_eq_naive, getD_poly_mul_singleton, hcanon,
      getD_reduce_by_modulus _ _ _ (by rw [hDlen]; omega),
      getD_poly_add_len_eq (by rw [hδMlen, hWlen]),
      poly_mul_eq_naive, getD_poly_mul_singleton]
    obtain ⟨k, hk⟩ := round_recover q t hq ht (M.getD i 0)
      ((reduce_coefficients_by_cyclo X (cycloPoly n)).getD i 0) (hnoise i hin)
    rw [hk]
    have hMmem : M.getD i 0 ∈ M := by
      rw [List.getD_eq_getElem _ _ (by omega)]
      exact List.getElem_mem _
    apply centered_unique htz (get_centered_remainder_range _ _ htz) (hMrange _ hMmem)
    calc get_centered_remainder (M.getD i 0 + ((t : ℕ) : ℤ) * k) ((t : ℕ) : ℤ)
        ≡ M.getD i 0 + ((t : ℕ) : ℤ) * k [ZMOD ((t : ℕ) : ℤ)] :=
          get_centered_remainder_modEq _ _ htz.ne'
    _ ≡ M.getD i 0 [ZMOD ((t : ℕ) : ℤ)] := Int.ModEq.symm
          (Int.modEq_iff_dvd.mpr ⟨k, by ring⟩)
  have hcond : (decryptNoise s e0 e1 e u).all
      (fun c => decide (|(c : ℚ)| < noiseThreshold ((q : ℕ) : ℤ) ((t : ℕ) : ℤ))) = true :=
    List.all_eq_true.mpr fun c hc => decide_eq_true (hcheck c hc)
  simp only [Decrypt]
  rw [if_pos hcond, hA]
  refine congrArg some ?_
  set Q : List ℤ := (poly_mul [((t : ℕ) : ℤ)] canon).map
    (fun c : ℤ => python_round ((c : ℚ) / ((((q : ℕ) : ℤ)) : ℚ))) with hQdef
  have hQlen2 : Q.length = n := by
    rw [hQdef, List.length_map, poly_mul_length, hcanonlen]
    simp
  unfold reduce_in_ring
  have hcyc : reduce_coefficients_by_cyclo (Q.dropWhile (· == 0)) (cycloPoly n) = Q := by
    rw [reduce_cyclo_short _ n hn
      (le_trans (List.Sublist.length_le (List.dropWhile_sublist _)) (le_of_eq hQlen2)),
      ← hQlen2]
    exact pad_dropWhile Q
  rw [hcyc]
  exact houtQ

/-! ### The ciphertext identity `ct0 + ct1*s = delta*m + v` in `Z_q[x]/(x^n+1)` -/

theorem toP_singleton (c : ℤ) : toP [c] = Polynomial.C c := by
  unfold toP
  simp

theorem Phi_singleton (n q : ℕ) (c : ℤ) :
    Phi n q [c] = Ideal.Quotient.mk _ (Polynomial.C ((c : ℤ) : ZMod q)) := by
  unfold Phi phiZ
  rw [toP_singleton, Polynomial.map_C]
  rfl

theorem Phi_singleton_congr (n q : ℕ) {c1 c2 : ℤ} (h : ((c1 : ℤ) : ZMod q) = (c2 : ZMod q)) :
    Phi n q [c1] = Phi n q [c2] := by
  rw [Phi_singleton, Phi_singleton, h]

theorem Phi_neg_one (n q : ℕ) : Phi n q [-1] = -1 := by
  rw [Phi_singleton]
  simp

theorem encrypt_Phi_relation (n q : ℕ) (hn : 0 < n) (hq : 0 < q) (δ : ℤ)
    (s e a m e0 e1 u : List ℤ) :
    Phi n q (poly_add (Encrypt ⟨n, (q : ℤ)⟩ (PublicKeyGen ⟨n, (q : ℤ)⟩ s e a) m e0 e1 u δ).1
      (poly_mul (Encrypt ⟨n, (q : ℤ)⟩ (PublicKeyGen ⟨n, (q : ℤ)⟩ s e a) m e0 e1 u δ).2 s)) =
    Phi n q (poly_add (poly_mul [δ] m) (decryptNoise s e0 e1 e u)) := by
  simp only [Encrypt, PublicKeyGen, decryptNoise]
  simp only [Phi_poly_add, Phi_poly_mul, Phi_reduce_in_ring n q hn hq]
  rw [Phi_neg_one]
  ring

/-- Converting the per-coefficient threshold bound on the folded noise (plus
the centered range of the plaintext coefficient) into the rounding bound. -/
theorem folded_noise_bound (q t : ℕ) (hq : 1 < q) (ht : 0 < t) (Wi Mi : ℤ)
    (hWi : |(Wi : ℚ)| < noiseThreshold (q : ℤ) (t : ℤ))
    (hMi : -(t : ℤ) < 2 * Mi ∧ 2 * Mi ≤ t) :
    |2 * ((t : ℤ) * Wi - ((q : ℤ) % (t : ℤ)) * Mi)| < (q : ℤ) := by
  have htz : (0 : ℤ) < (t : ℤ) := by exact_mod_cast ht
  have hr0 : (0 : ℤ) ≤ (q : ℤ) % (t : ℤ) := Int.emod_nonneg _ (by omega)
  have htQ : (0 : ℚ) < (t : ℚ) := by exact_mod_cast ht
  have hr0Q : (0 : ℚ) ≤ (((q : ℤ) % (t : ℤ) : ℤ) : ℚ) := by exact_mod_cast hr0
  unfold noiseThreshold at hWi
  obtain ⟨hW1, hW2⟩ := abs_lt.mp hWi
  have hM1 : -(t : ℚ) < 2 * (Mi : ℚ) := by exact_mod_cast hMi.1
  have hM2 : 2 * (Mi : ℚ) ≤ (t : ℚ) := by exact_mod_cast hMi.2
  have hcastBound : ((((q : ℕ) : ℤ) : ℚ)) = (q : ℚ) := by push_cast; ring
  have hcastBoundT : ((((t : ℕ) : ℤ) : ℚ)) = (t : ℚ) := by push_cast; ring
  rw [hcastBound, hcastBoundT] at hW1 hW2
  have hgoalQ : |((2 * ((t : ℤ) * Wi - ((q : ℤ) % (t : ℤ)) * Mi) : ℤ) : ℚ)| < (q : ℚ) := by
    have hcast : ((2 * ((t : ℤ) * Wi - ((q : ℤ) % (t : ℤ)) * Mi) : ℤ) : ℚ)
        = 2 * ((t : ℚ) * (Wi : ℚ) - (((q : ℤ) % (t : ℤ) : ℤ) : ℚ) * (Mi : ℚ)) := by
      push_cast
      ring
    rw [hcast, abs_lt]
    have ht2 : (0 : ℚ) < 2 * (t : ℚ) := by positivity
    have hup : 2 * (t : ℚ) * (Wi : ℚ) <
        2 * (t : ℚ) * ((q : ℚ) / (2 * (t : ℚ)) - (((q : ℤ) % (t : ℤ) : ℤ) : ℚ) / 2) :=
      mul_lt_mul_of_pos_left hW2 ht2
    have hlo : 2 * (t : ℚ) * (-((q : ℚ) / (2 * (t : ℚ)) - (((q : ℤ) % (t : ℤ) : ℤ) : ℚ) / 2)) <
        2 * (t : ℚ) * (Wi : ℚ) :=
      mul_lt_mul_of_pos_left hW1 ht2
    have hkey : 2 * (t : ℚ) * ((q : ℚ) / (2 * (t : ℚ)) - (((q : ℤ) % (t : ℤ) : ℤ) : ℚ) / 2) =
        (q : ℚ) - (t : ℚ) * (((q : ℤ) % (t : ℤ) : ℤ) : ℚ) := by
      field_simp
      ring
    have hrup : (((q : ℤ) % (t : ℤ) : ℤ) : ℚ) * (2 * (Mi : ℚ)) ≤
        (((q : ℤ) % (t : ℤ) : ℤ) : ℚ) * (t : ℚ) := mul_le_mul_of_nonneg_left hM2 hr0Q
    have hrlo : (((q : ℤ) % (t : ℤ) : ℤ) : ℚ) * (-(t : ℚ)) ≤
        (((q : ℤ) % (t : ℤ) : ℤ) : ℚ) * (2 * (Mi : ℚ)) :=
      mul_le_mul_of_nonneg_left (le_of_lt hM1) hr0Q
    constructor
    · nlinarith [hup, hlo, hrup, hrlo, hkey]
    · nlinarith [hup, hlo, hrup, hrlo, hkey]
  exact_mod_cast hgoalQ

/-- C1 (amended): under the stated hypotheses, including the additional
requirement that the cyclotomically folded noise `v mod (x^n+1)` stays
strictly below the threshold, decryption recovers the plaintext. -/
theorem C1_decrypt_of_encrypt (n q t : ℕ) (hvalid : rlweValid n q t = true)
    (s e a m e0 e1 u : List ℤ)
    (hm : m = reduce_in_ring m ⟨n, (t : ℤ)⟩)
    (hv : ∀ c ∈ decryptNoise s e0 e1 e u, |(c : ℚ)| < noiseThreshold (q : ℤ) (t : ℤ))
    (hw : ∀ c ∈ reduce_coefficients_by_cyclo (decryptNoise s e0 e1 e u) (cycloPoly n),
      |(c : ℚ)| < noiseThreshold (q : ℤ) (t : ℤ)) :
    Decrypt ⟨n, (q : ℤ)⟩ ⟨n, (t : ℤ)⟩ s
      (Encrypt ⟨n, (q : ℤ)⟩ (PublicKeyGen ⟨n, (q : ℤ)⟩ s e a) m e0 e1 u ((q / t : ℕ) : ℤ))
      e0 e1 e u = some m := by
  simp only [rlweValid, Bool.and_eq_true, decide_eq_true_eq] at hvalid
  obtain ⟨⟨⟨⟨⟨htq, hn0, hpow⟩, hq1⟩, ht1⟩, hprime⟩, hgcd⟩ := hvalid
  have hn : 0 < n := hn0
  have hq : 1 < q := hq1
  have ht : 0 < t := by omega
  have hMlen : m.length = n := by
    rw [hm]
    exact length_reduce_in_ring _ n _ hn
  have hMrange : ∀ c ∈ m, -(t : ℤ) < 2 * c ∧ 2 * c ≤ (t : ℤ) := by
    rw [hm]
    exact reduce_in_ring_coeff_range _ n _ (by exact_mod_cast ht)
  have hct : Encrypt ⟨n, (q : ℤ)⟩ (PublicKeyGen ⟨n, (q : ℤ)⟩ s e a) m e0 e1 u
      ((q / t : ℕ) : ℤ) =
      ((Encrypt ⟨n, (q : ℤ)⟩ (PublicKeyGen ⟨n, (q : ℤ)⟩ s e a) m e0 e1 u
        ((q / t : ℕ) : ℤ)).1,
       (Encrypt ⟨n, (q : ℤ)⟩ (PublicKeyGen ⟨n, (q : ℤ)⟩ s e a) m e0 e1 u
        ((q / t : ℕ) : ℤ)).2) := rfl
  rw [hct]
  apply Decrypt_recovery n q t hn hq ht s e0 e1 e u _ _ m (decryptNoise s e0 e1 e u)
    hMlen hMrange
  · exact encrypt_Phi_relation n q hn (by omega) _ s e a m e0 e1 u
  · intro i hi
    have hWlen : (reduce_coefficients_by_cyclo (decryptNoise s e0 e1 e u)
        (cycloPoly n)).length = n := reduce_cyclo_length _ n hn
    have hWmem : (reduce_coefficients_by_cyclo (decryptNoise s e0 e1 e u)
        (cycloPoly n)).getD i 0 ∈
        reduce_coefficients_by_cyclo (decryptNoise s e0 e1 e u) (cycloPoly n) := by
      rw [List.getD_eq_getElem _ _ (by omega)]
      exact List.getElem_mem _
    have hMmem : m.getD i 0 ∈ m := by
      rw [List.getD_eq_getElem _ _ (by omega)]
      exact List.getElem_mem _
    exact folded_noise_bound q t hq ht _ _ (hw _ hWmem) (hMrange _ hMmem)
  · exact hv

/-- C1 (counterexample to the unamended claim): with `n = 2`, `q = 35`,
`t = 2` (all `RLWE.__init__` validations pass), message `m = [0, 1] ∈ Rt`,
secret key `s = [1, 0]`, `a = [0, 0]`, `e = [8, 0]`, `u = [1, 0]`,
`e0 = e1 = [0, -8]`, every coefficient of the unfolded noise
`v = u*e + e0 + s*e1` is strictly below the threshold `q/(2t) - (q mod t)/2`,
yet decryption returns `[0, 0] ≠ m`: the check on the unfolded noise does not
guarantee recovery. -/
theorem C1_counterexample :
    rlweValid 2 35 2 = true ∧
    reduce_in_ring [0, 1] ⟨2, ((2 : ℕ) : ℤ)⟩ = [0, 1] ∧
    (∀ c ∈ decryptNoise [1, 0] [0, -8] [0, -8] [8, 0] [1, 0],
      |(c : ℚ)| < noiseThreshold ((35 : ℕ) : ℤ) ((2 : ℕ) : ℤ)) ∧
    Decrypt ⟨2, ((35 : ℕ) : ℤ)⟩ ⟨2, ((2 : ℕ) : ℤ)⟩ [1, 0]
      (Encrypt ⟨2, ((35 : ℕ) : ℤ)⟩ (PublicKeyGen ⟨2, ((35 : ℕ) : ℤ)⟩ [1, 0] [8, 0] [0, 0])
        [0, 1] [0, -8] [0, -8] [1, 0] ((35 / 2 : ℕ) : ℤ))
      [0, -8] [0, -8] [8, 0] [1, 0] = some [0, 0] := by
  have hv : decryptNoise [1, 0] [0, -8] [0, -8] [8, 0] [1, 0] = [8, -8, -8] := by
    simp only [decryptNoise, poly_mul_eq_naive]
    decide
  have hall : ([8, -8, -8] : List ℤ).all
      (fun c => decide (|(c : ℚ)| < noiseThreshold ((35 : ℕ) : ℤ) ((2 : ℕ) : ℤ))) = true := by
    simp only [List.all_cons, List.all_nil, Bool.and_eq_true, decide_eq_true_eq, and_true]
    refine ⟨?_, ?_, ?_⟩ <;> (rw [abs_lt]; constructor) <;> norm_num [noiseThreshold]
  refine ⟨by decide, by
    simp only [reduce_in_ring, reduce_coefficients_by_modulus, get_centered_remainder_eq_int]
    decide, ?_, ?_⟩
  · intro c hc
    rw [hv] at hc
    simp only [List.mem_cons, List.not_mem_nil, or_false] at hc
    rcases hc with rfl | rfl | rfl <;> (rw [abs_lt]; constructor) <;> norm_num [noiseThreshold]
  · have hpk : PublicKeyGen ⟨2, ((35 : ℕ) : ℤ)⟩ [1, 0] [8, 0] [0, 0] = ([8, 0], [0, 0]) := by
      simp only [PublicKeyGen, poly_mul_eq_naive, reduce_in_ring,
        reduce_coefficients_by_modulus, get_centered_remainder_eq_int]
      decide
    have hct : Encrypt ⟨2, ((35 : ℕ) : ℤ)⟩ ([8, 0], [0, 0]) [0, 1] [0, -8] [0, -8] [1, 0]
        ((35 / 2 : ℕ) : ℤ) = ([0, 1], [0, -8]) := by
      simp only [Encrypt, poly_mul_eq_naive, reduce_in_ring,
        reduce_coefficients_by_modulus, get_centered_remainder_eq_int]
      decide
    rw [hpk, hct]
    simp only [Decrypt]
    rw [hv, if_pos hall]
    have hn1 : reduce_in_ring (poly_add ([0, 1] : List ℤ) (poly_mul [0, -8] [1, 0]))
        ⟨2, ((35 : ℕ) : ℤ)⟩ = [-8, 1] := by
      simp only [poly_mul_eq_naive, reduce_in_ring,
        reduce_coefficients_by_modulus, get_centered_remainder_eq_int]
      decide
    rw [hn1]
    have hn2 : poly_mul [((2 : ℕ) : ℤ)] [-8, 1] = [-16, 2] := by
      rw [poly_mul_eq_naive]
      decide
    rw [hn2]
    have hq1 : python_round (((-16 : ℤ) : ℚ) / ((((35 : ℕ) : ℤ)) : ℚ)) = 0 := by
      apply python_round_eq_of_close
      rw [abs_lt]
      constructor <;> norm_num
    have hq2 : python_round (((2 : ℤ) : ℚ) / ((((35 : ℕ) : ℤ)) : ℚ)) = 0 := by
      apply python_round_eq_of_close
      rw [abs_lt]
      constructor <;> norm_num
    simp only [List.map_cons, List.map_nil]
    rw [hq1, hq2]
    simp only [reduce_in_ring, reduce_coefficients_by_modulus, get_centered_remainder_eq_int]
    decide

/-- C1 (witness): a concrete noiseless instance of the amended claim at
`n = 2`, `q = 35`, `t = 2`, `a = [3, -5]`, `m = [0, 1]`: decryption of the
encryption returns the message. -/
theorem C1_decrypt_of_encrypt_witness :
    rlweValid 2 35 2 = true ∧
    Decrypt ⟨2, ((35 : ℕ) : ℤ)⟩ ⟨2, ((2 : ℕ) : ℤ)⟩ [1, 0]
      (Encrypt ⟨2, ((35 : ℕ) : ℤ)⟩ (PublicKeyGen ⟨2, ((35 : ℕ) : ℤ)⟩ [1, 0] [0, 0] [3, -5])
        [0, 1] [0, 0] [0, 0] [1, 0] ((35 / 2 : ℕ) : ℤ))
      [0, 0] [0, 0] [0, 0] [1, 0] = some [0, 1] :=
  ⟨by decide,
    C1_decrypt_of_encrypt 2 35 2 (by decide) [1, 0] [0, 0] [3, -5] [0, 1] [0, 0] [0, 0] [1, 0]
      (by
        simp only [reduce_in_ring, reduce_coefficients_by_modulus,
          get_centered_remainder_eq_int]
        decide)
      (by
        have hz : decryptNoise [1, 0] [0, 0] [0, 0] [0, 0] [1, 0] = [0, 0, 0] := by
          simp only [decryptNoise, poly_mul_eq_naive]
          decide
        rw [hz]
        intro c hc
        simp only [List.mem_cons, List.not_mem_nil, or_false] at hc
        rcases hc with rfl | rfl | rfl <;> (rw [abs_lt]; constructor) <;>
          norm_num [noiseThreshold])
      (by
        have hz : decryptNoise [1, 0] [0, 0] [0, 0] [0, 0] [1, 0] = [0, 0, 0] := by
          simp only [decryptNoise, poly_mul_eq_naive]
          decide
        rw [hz]
        have hz2 : reduce_coefficients_by_cyclo ([0, 0, 0] : List ℤ) (cycloPoly 2) = [0, 0] := by
          decide
        rw [hz2]
        intro c hc
        simp only [List.mem_cons, List.not_mem_nil, or_false] at hc
        rcases hc with rfl | rfl <;> (rw [abs_lt]; constructor) <;>
          norm_num [noiseThreshold])⟩

/-- C3: `Decrypt` returns `none` (the source's failing `assert`, "noise is
too high") exactly when some coefficient of the unfolded noise
`v = u*e + e0 + s*e1` reaches the threshold `q/(2t) - (q mod t)/2` in
absolute value; when every coefficient is strictly below the threshold it
returns `some` recovered message. -/
theorem C3_decrypt_failure_iff (Rq Rt : PolynomialRing) (s : List ℤ)
    (ct : List ℤ × List ℤ) (e0 e1 e u : List ℤ) :
    (Decrypt Rq Rt s ct e0 e1 e u = none ↔
      ∃ c ∈ decryptNoise s e0 e1 e u,
        noiseThreshold Rq.modulus Rt.modulus ≤ |(c : ℚ)|) ∧
    ((∀ c ∈ decryptNoise s e0 e1 e u,
        |(c : ℚ)| < noiseThreshold Rq.modulus Rt.modulus) →
      ∃ out, Decrypt Rq Rt s ct e0 e1 e u = some out) := by
  have hiff : ((decryptNoise s e0 e1 e u).all
      (fun c => decide (|(c : ℚ)| < noiseThreshold Rq.modulus Rt.modulus)) = true) ↔
      ∀ c ∈ decryptNoise s e0 e1 e u,
        |(c : ℚ)| < noiseThreshold Rq.modulus Rt.modulus := by
    rw [List.all_eq_true]
    simp only [decide_eq_true_eq]
  simp only [Decrypt]
  by_cases hc : (decryptNoise s e0 e1 e u).all
      (fun c => decide (|(c : ℚ)| < noiseThreshold Rq.modulus Rt.modulus)) = true
  · rw [if_pos hc]
    constructor
    · apply iff_of_false (by simp)
      rintro ⟨c, hmem, hge⟩
      exact absurd (hiff.mp hc c hmem) (not_lt.mpr hge)
    · intro _
      exact ⟨_, rfl⟩
  · rw [if_neg hc]
    constructor
    · apply iff_of_true rfl
      rw [hiff] at hc
      push_neg at hc
      obtain ⟨c, hmem, hge⟩ := hc
      exact ⟨c, hmem, hge⟩
    · intro hforall
      exact absurd (hiff.mpr hforall) hc

/-- C3 (witness): a concrete below-threshold instance on which `Decrypt`
succeeds. -/
theorem C3_decrypt_failure_iff_witness :
    ∃ out, Decrypt ⟨2, ((35 : ℕ) : ℤ)⟩ ⟨2, ((2 : ℕ) : ℤ)⟩ [1, 0] ([0, 1], [0, 0])
      [0, 0] [0, 0] [0, 0] [1, 0] = some out :=
  (C3_decrypt_failure_iff ⟨2, ((35 : ℕ) : ℤ)⟩ ⟨2, ((2 : ℕ) : ℤ)⟩ [1, 0] ([0, 1], [0, 0])
      [0, 0] [0, 0] [0, 0] [1, 0]).2 (by
    have hz : decryptNoise [1, 0] [0, 0] [0, 0] [0, 0] [1, 0] = [0, 0, 0] := by
      simp only [decryptNoise, poly_mul_eq_naive]
      decide
    rw [hz]
    intro c hc
    simp only [List.mem_cons, List.not_mem_nil, or_false] at hc
    rcases hc with rfl | rfl | rfl <;> (rw [abs_lt]; constructor) <;>
      norm_num [noiseThreshold])

/-- C4: the FFT-based `poly_mul` agrees with schoolbook `poly_mul_naive`
exactly (in the exact-arithmetic model of the absent `fft.py`, the round-off
is zero, so the hypothesis of the claim is always met), the product has
`len(a) + len(b) - 1` coefficients, and `[1,2] * [1,3] = [1,5,6]`. -/
theorem C4_poly_mul_matches_naive (a b : List ℤ) :
    poly_mul a b = poly_mul_naive a b ∧
    (poly_mul a b).length = a.length + b.length - 1 ∧
    poly_mul [1, 2] [1, 3] = [1, 5, 6] :=
  ⟨poly_mul_eq_naive a b, poly_mul_length a b, by rw [poly_mul_eq_naive]; decide⟩

/-- C7: `reduce_in_ring` produces exactly `n` coefficients, each in the
half-open interval `(-modulus/2, modulus/2]`, and is idempotent. -/
theorem C7_reduce_in_ring_spec (p : List ℤ) (n : ℕ) (m : ℤ) (hn : 0 < n) (hm : 0 < m) :
    (reduce_in_ring p ⟨n, m⟩).length = n ∧
    (∀ c ∈ reduce_in_ring p ⟨n, m⟩,
      -((m : ℚ) / 2) < (c : ℚ) ∧ (c : ℚ) ≤ (m : ℚ) / 2) ∧
    reduce_in_ring (reduce_in_ring p ⟨n, m⟩) ⟨n, m⟩ = reduce_in_ring p ⟨n, m⟩ := by
  refine ⟨length_reduce_in_ring p n m hn, ?_, reduce_in_ring_idempotent p n m hn hm⟩
  intro c hc
  obtain ⟨h1, h2⟩ := reduce_in_ring_coeff_range p n m hm c hc
  constructor
  · have h1Q : ((-m : ℤ) : ℚ) < ((2 * c : ℤ) : ℚ) := by exact_mod_cast h1
    push_cast at h1Q
    linarith
  · have h2Q : ((2 * c : ℤ) : ℚ) ≤ ((m : ℤ) : ℚ) := by exact_mod_cast h2
    push_cast at h2Q
    linarith

/-- C7 (witness): the concrete instance `p = [7, 9, 3]`, `n = 2`, `m = 5`. -/
theorem C7_reduce_in_ring_spec_witness :
    (0 < 2 ∧ (0 : ℤ) < 5) ∧
    ((reduce_in_ring [7, 9, 3] ⟨2, (5 : ℤ)⟩).length = 2 ∧
      (∀ c ∈ reduce_in_ring [7, 9, 3] ⟨2, (5 : ℤ)⟩,
        -(((5 : ℤ) : ℚ) / 2) < (c : ℚ) ∧ (c : ℚ) ≤ ((5 : ℤ) : ℚ) / 2) ∧
      reduce_in_ring (reduce_in_ring [7, 9, 3] ⟨2, (5 : ℤ)⟩) ⟨2, (5 : ℤ)⟩ =
        reduce_in_ring [7, 9, 3] ⟨2, (5 : ℤ)⟩) :=
  ⟨⟨by decide, by decide⟩, C7_reduce_in_ring_spec [7, 9, 3] 2 5 (by decide) (by decide)⟩

/-- `n > 0 and n & (n - 1) == 0` really characterises the powers of two
(forward direction). -/
theorem pow_two_of_land_pred (n : ℕ) : 0 < n → n &&& (n - 1) = 0 → ∃ k, n = 2 ^ k := by
  induction n using Nat.strong_induction_on with
  | _ n ih =>
    intro hn h
    rcases Nat.even_or_odd n with he | ho
    · have hm2 : n % 2 = 0 := Nat.even_iff.mp he
      have hmpos : 0 < n / 2 := by omega
      have hmlt : n / 2 < n := by omega
      have hland : (n / 2) &&& (n / 2 - 1) = 0 := by
        apply Nat.zero_of_testBit_eq_false
        intro i
        have h1 : Nat.testBit (n / 2) i = Nat.testBit n (i + 1) := by
          rw [Nat.testBit_add_one]
        have h2 : Nat.testBit (n / 2 - 1) i = Nat.testBit (n - 1) (i + 1) := by
          rw [Nat.testBit_add_one]
          congr 1
          omega
        rw [Nat.testBit_land, h1, h2, ← Nat.testBit_land, h, Nat.zero_testBit]
      obtain ⟨k, hk⟩ := ih (n / 2) hmlt hmpos hland
      exact ⟨k + 1, by rw [pow_succ]; omega⟩
    · have hm2 : n % 2 = 1 := Nat.odd_iff.mp ho
      by_cases h1 : n = 1
      · exact ⟨0, by simp [h1]⟩
      · exfalso
        have hne : n / 2 ≠ 0 := by omega
        have hex : ∃ j, Nat.testBit (n / 2) j = true := by
          by_contra hall
          push_neg at hall
          exact hne (Nat.zero_of_testBit_eq_false fun i => by
            have := hall i
            simpa using this)
        obtain ⟨j, hj⟩ := hex
        have hb1 : Nat.testBit n (j + 1) = true := by
          rw [Nat.testBit_add_one]
          exact hj
        have hb2 : Nat.testBit (n - 1) (j + 1) = true := by
          rw [Nat.testBit_add_one]
          have hq : (n - 1) / 2 = n / 2 := by omega
          rw [hq]
          exact hj
        have hbit : Nat.testBit (n &&& (n - 1)) (j + 1) = true := by
          rw [Nat.testBit_land, hb1, hb2]
          rfl
        rw [h, Nat.zero_testBit] at hbit
        exact Bool.false_ne_true hbit

/-- `n > 0 and n & (n - 1) == 0` really characterises the powers of two
(backward direction). -/
theorem land_pred_of_pow_two (k : ℕ) : (2 ^ k) &&& (2 ^ k - 1) = 0 := by
  apply Nat.zero_of_testBit_eq_false
  intro i
  rw [Nat.testBit_land, Nat.testBit_two_pow, Nat.testBit_two_pow_sub_one]
  by_cases h : k = i
  · subst h
    simp
  · simp [h]

/-- The trial-division `is_prime` agrees with primality. -/
theorem is_prime_iff (n : ℕ) : is_prime n = true ↔ Nat.Prime n := by
  unfold is_prime
  by_cases h2 : n < 2
  · rw [if_pos h2]
    apply iff_of_false (by simp)
    intro hp
    exact absurd hp.two_le (by omega)
  · rw [if_neg h2]
    push_neg at h2
    rw [List.all_eq_true]
    constructor
    · intro hall
      rw [Nat.prime_def_lt]
      refine ⟨h2, fun m hmlt hdvd => ?_⟩
      by_contra hm1
      have hm0 : m ≠ 0 := by
        rintro rfl
        have := Nat.eq_zero_of_zero_dvd hdvd
        omega
      have hmem : m ∈ List.range' 2 (n - 2) := by
        rw [List.mem_range']
        exact ⟨m - 2, by omega, by omega⟩
      have hthis := hall m hmem
      rw [decide_eq_true_eq] at hthis
      exact hthis (Nat.mod_eq_zero_of_dvd hdvd)
    · intro hp m hmem
      rw [decide_eq_true_eq]
      rw [List.mem_range'] at hmem
      obtain ⟨i, hi, rfl⟩ := hmem
      intro hmod
      have hdvd : (2 + 1 * i) ∣ n := Nat.dvd_iff_mod_eq_zero.mpr hmod
      rcases Nat.Prime.eq_one_or_self_of_dvd hp _ hdvd with h | h <;> omega

/-- C8: the `RLWE.__init__` validation (run entirely at construction time in
the source) succeeds exactly when `t ≤ q`, `n` is a power of two, `q > 1`,
`t > 1`, `t` is prime and `gcd(q, t) = 1`. -/
theorem C8_rlwe_validation_iff (n q t : ℕ) :
    rlweValid n q t = true ↔
      t ≤ q ∧ (∃ k, n = 2 ^ k) ∧ 1 < q ∧ 1 < t ∧ Nat.Prime t ∧ Nat.gcd q t = 1 := by
  unfold rlweValid
  simp only [Bool.and_eq_true, decide_eq_true_eq, is_prime_iff]
  constructor
  · rintro ⟨⟨⟨⟨⟨htq, hn0, hpow⟩, hq⟩, ht⟩, hpr⟩, hg⟩
    exact ⟨htq, pow_two_of_land_pred n hn0 hpow, hq, ht, hpr, hg⟩
  · rintro ⟨htq, ⟨k, rfl⟩, hq, ht, hpr, hg⟩
    exact ⟨⟨⟨⟨⟨htq, Nat.pos_pow_of_pos k (by norm_num), land_pred_of_pow_two k⟩, hq⟩, ht⟩,
      hpr⟩, hg⟩

/-- C10: for a monic divisor (leading coefficient 1), `poly_div` returns a
quotient and remainder with `dividend = quotient * divisor + remainder` as
exact integer polynomials and with strictly fewer remainder coefficients than
the divisor has; consequently `reduce_coefficients_by_cyclo` replaces a
polynomial by a representative congruent to it modulo `x^n + 1`. -/
theorem C10_poly_div_identity (dividend divisor : List ℤ) (hd : divisor.getD 0 0 = 1) :
    (toP dividend = toP (poly_div dividend divisor).1 * toP divisor +
        toP (poly_div dividend divisor).2 ∧
      (poly_div dividend divisor).2.length < divisor.length) ∧
    ∀ n : ℕ, 0 < n →
      ((Polynomial.X : Polynomial ℤ) ^ n + 1) ∣
        (toP dividend - toP (reduce_coefficients_by_cyclo dividend (cycloPoly n))) := by
  obtain ⟨hid, hlen⟩ := poly_div_spec dividend divisor hd
  exact ⟨⟨hid, by omega⟩, fun n hn => reduce_cyclo_dvd dividend n hn⟩

/-- C10 (witness): dividend `[2, 3, 4, 5]`, monic divisor `[1, 0, 1]`. -/
theorem C10_poly_div_identity_witness :
    ([1, 0, 1] : List ℤ).getD 0 0 = 1 ∧
    ((toP [2, 3, 4, 5] = toP (poly_div [2, 3, 4, 5] [1, 0, 1]).1 * toP [1, 0, 1] +
        toP (poly_div [2, 3, 4, 5] [1, 0, 1]).2 ∧
      (poly_div ([2, 3, 4, 5] : List ℤ) [1, 0, 1]).2.length < ([1, 0, 1] : List ℤ).length) ∧
    ∀ n : ℕ, 0 < n →
      ((Polynomial.X : Polynomial ℤ) ^ n + 1) ∣
        (toP [2, 3, 4, 5] - toP (reduce_coefficients_by_cyclo [2, 3, 4, 5] (cycloPoly n)))) :=
  ⟨by decide, C10_poly_div_identity [2, 3, 4, 5] [1, 0, 1] (by decide)⟩

/-- C9: `sample_polynomial` fails (the `% 1 == 0` assert) when the modulus is
even; for an odd positive modulus it returns exactly `n` coefficients, each in
the centered range `[-(modulus-1)/2, (modulus-1)/2]`. -/
theorem C9_sample_polynomial_spec (R : PolynomialRing) (rand : ℕ → ℤ) :
    (R.modulus % 2 = 0 → sample_polynomial R rand = none) ∧
    (R.modulus % 2 = 1 → 0 < R.modulus →
      ∃ l, sample_polynomial R rand = some l ∧ l.length = R.n ∧
        ∀ c ∈ l, -((R.modulus - 1) / 2) ≤ c ∧ c ≤ (R.modulus - 1) / 2) := by
  constructor
  · intro hev
    unfold sample_polynomial
    rw [if_neg]
    rintro ⟨-, hup⟩
    have hfl : ((R.modulus : ℚ) - 1) = 2 * (⌊((R.modulus : ℚ) - 1) / 2⌋ : ℚ) := by
      linarith [hup]
    have hm : (R.modulus : ℤ) = 2 * ⌊((R.modulus : ℚ) - 1) / 2⌋ + 1 := by
      have hQ : ((R.modulus : ℤ) : ℚ) = ((2 * ⌊((R.modulus : ℚ) - 1) / 2⌋ + 1 : ℤ) : ℚ) := by
        push_cast
        linarith [hfl]
      exact_mod_cast hQ
    omega
  · intro hodd hpos
    unfold sample_polynomial
    obtain ⟨z, hzm⟩ : ∃ z : ℤ, R.modulus = 2 * z + 1 := ⟨R.modulus / 2, by omega⟩
    have hz0 : 0 ≤ z := by omega
    have hupq : ((R.modulus : ℚ) - 1) / 2 = ((z : ℤ) : ℚ) := by
      rw [hzm]
      push_cast
      ring
    have hloq : -((R.modulus : ℚ) - 1) / 2 = ((-z : ℤ) : ℚ) := by
      rw [hzm]
      push_cast
      ring
    have hfup : ⌊((R.modulus : ℚ) - 1) / 2⌋ = z := by
      rw [hupq, Int.floor_intCast]
    have hflo : ⌊-((R.modulus : ℚ) - 1) / 2⌋ = -z := by
      rw [hloq, Int.floor_intCast]
    rw [if_pos ⟨by rw [hflo, hloq], by rw [hfup, hupq]⟩, if_neg (by rw [hfup, hflo]; omega)]
    refine ⟨_, rfl, by simp, ?_⟩
    intro c hc
    simp only [List.mem_map, List.mem_range] at hc
    obtain ⟨i, -, rfl⟩ := hc
    have hr0 : 0 ≤ rand i % (⌊((R.modulus : ℚ) - 1) / 2⌋ - ⌊-((R.modulus : ℚ) - 1) / 2⌋ + 1) := by
      apply Int.emod_nonneg
      rw [hfup, hflo]
      omega
    have hrlt : rand i % (⌊((R.modulus : ℚ) - 1) / 2⌋ - ⌊-((R.modulus : ℚ) - 1) / 2⌋ + 1) <
        ⌊((R.modulus : ℚ) - 1) / 2⌋ - ⌊-((R.modulus : ℚ) - 1) / 2⌋ + 1 := by
      apply Int.emod_lt_of_pos
      rw [hfup, hflo]
      omega
    rw [hfup, hflo] at hr0 hrlt ⊢
    constructor <;> omega

/-- C9 (witness): modulus 5 and `n = 3`. -/
theorem C9_sample_polynomial_spec_witness :
    ((5 : ℤ) % 2 = 1 ∧ (0 : ℤ) < 5) ∧
    (∃ l, sample_polynomial ⟨3, (5 : ℤ)⟩ (fun i => (i : ℤ)) = some l ∧ l.length = 3 ∧
      ∀ c ∈ l, -(((5 : ℤ) - 1) / 2) ≤ c ∧ c ≤ ((5 : ℤ) - 1) / 2) :=
  ⟨⟨by decide, by decide⟩,
    (C9_sample_polynomial_spec ⟨3, (5 : ℤ)⟩ (fun i => (i : ℤ))).2 (by decide) (by decide)⟩


/-- The CRT recombination: for pairwise-coprime positive moduli, `recover`
inverts `from_integer` on `[0, q)`. -/
theorem crt_recover_roundtrip (qis : List ℕ) (hpos : ∀ qi ∈ qis, 0 < qi)
    (hcop : qis.Pairwise Nat.Coprime) (x : ℕ) (hx : x < crt_q qis) :
    crt_recover qis (crt_from_integer qis x) = x := by
  have hco' : ∀ j k (hj : j < qis.length) (hk : k < qis.length), j ≠ k →
      Nat.Coprime (qis.get ⟨j, hj⟩) (qis.get ⟨k, hk⟩) := by
    rw [List.pairwise_iff_getElem] at hcop
    intro j k hj hk hjk
    rcases Nat.lt_or_ge j k with h | h
    · exact hcop j k hj hk h
    · exact (hcop k j hk hj (by omega)).symm
  have hqpos : 0 < crt_q qis := List.prod_pos hpos
  set q := crt_q qis with hq
  set F : ℕ → ℕ := fun qi => (x % qi) * (q / qi) * mod_inv (q / qi) qi with hF
  have hsum : crt_recover qis (crt_from_integer qis x) = (qis.map F).sum % q := by
    simp only [crt_recover, crt_from_integer]
    rw [List.zipWith_map_right, List.zipWith_same]
  have hdvdq : ∀ j (hj : j < qis.length), qis.get ⟨j, hj⟩ ∣ q :=
    fun j hj => List.dvd_prod (qis.get_mem j hj)
  have hexact : ∀ j (hj : j < qis.length), qis.get ⟨j, hj⟩ * (q / qis.get ⟨j, hj⟩) = q :=
    fun j hj => Nat.mul_div_cancel' (hdvdq j hj)
  have hterm : ∀ i (hi : i < qis.length),
      (qis.map F).sum ≡ x [MOD qis.get ⟨i, hi⟩] := by
    intro i hi
    set qi := qis.get ⟨i, hi⟩ with hqi
    have hgi : qis[i] = qi := by rw [hqi, List.get_eq_getElem]
    have hqi0 : 0 < qi := hpos _ (qis.get_mem i hi)
    have hmaplen : i < (qis.map F).length := by
      rw [List.length_map]
      exact hi
    have hdropm : (qis.map F).drop i = F qi :: (qis.map F).drop (i + 1) := by
      have h1 := (List.getElem_cons_drop (qis.map F) i hmaplen).symm
      rw [List.getElem_map, hgi] at h1
      exact h1
    have hsum2 : (qis.map F).sum =
        ((qis.map F).take i).sum + (F qi + ((qis.map F).drop (i + 1)).sum) := by
      conv_lhs => rw [← List.take_append_drop i (qis.map F), hdropm]
      rw [List.sum_append, List.sum_cons]
    have hother : ∀ j (hj : j < qis.length), j ≠ i → qi ∣ F (qis.get ⟨j, hj⟩) := by
      intro j hj hne
      have hcop2 : Nat.Coprime qi (qis.get ⟨j, hj⟩) := hco' i j hi hj (fun h => hne h.symm)
      have hdvd2 : qi ∣ (q / qis.get ⟨j, hj⟩) * qis.get ⟨j, hj⟩ := by
        rw [Nat.mul_comm, hexact j hj]
        exact hdvdq i hi
      have hdvd3 : qi ∣ q / qis.get ⟨j, hj⟩ := hcop2.dvd_of_dvd_mul_right hdvd2
      exact (hdvd3.mul_left _).mul_right _
    have hdvdA : qi ∣ ((qis.map F).take i).sum := by
      apply List.dvd_sum
      intro y hy
      rw [List.mem_iff_getElem] at hy
      obtain ⟨j, hjlen, rfl⟩ := hy
      have hjlt : j < i := by
        have h2 := hjlen
        rw [List.length_take, List.length_map] at h2
        omega
      have hjn : j < qis.length := by omega
      have hy1 : ((qis.map F).take i)[j] = F (qis.get ⟨j, hjn⟩) := by
        simp
      rw [hy1]
      exact hother j hjn (by omega)
    have hdvdB : qi ∣ ((qis.map F).drop (i + 1)).sum := by
      apply List.dvd_sum
      intro y hy
      rw [List.mem_iff_getElem] at hy
      obtain ⟨j, hjlen, rfl⟩ := hy
      have hjn : i + 1 + j < qis.length := by
        have h2 := hjlen
        rw [List.length_drop, List.length_map] at h2
        omega
      have hy1 : ((qis.map F).drop (i + 1))[j] = F (qis.get ⟨i + 1 + j, hjn⟩) := by
        simp
      rw [hy1]
      exact hother (i + 1 + j) hjn (by omega)
    haveI : NeZero qi := ⟨by omega⟩
    have hdrop : qis.drop i = qi :: qis.drop (i + 1) := by
      have h1 := (List.getElem_cons_drop qis i hi).symm
      rw [hgi] at h1
      exact h1
    have hMcop : Nat.Coprime (q / qi) qi := by
      have hqM : q = qi * ((qis.take i).prod * (qis.drop (i + 1)).prod) := by
        rw [hq]
        unfold crt_q
        conv_lhs => rw [← List.take_append_drop i qis, hdrop]
        rw [List.prod_append, List.prod_cons]
        ring
      have hdivM : q / qi = (qis.take i).prod * (qis.drop (i + 1)).prod := by
        rw [hqM]
        exact Nat.mul_div_cancel_left _ hqi0
      rw [hdivM]
      apply Nat.Coprime.symm
      apply Nat.Coprime.mul_right
      · rw [Nat.coprime_list_prod_right_iff]
        intro b hb
        rw [List.mem_iff_getElem] at hb
        obtain ⟨j, hjlen, rfl⟩ := hb
        have hjlt : j < i := by
          have h2 := hjlen
          rw [List.length_take] at h2
          omega
        have hjn : j < qis.length := by omega
        have hgb : (qis.take i)[j] = qis.get ⟨j, hjn⟩ := by simp
        rw [hgb]
        exact hco' i j hi hjn (by omega)
      · rw [Nat.coprime_list_prod_right_iff]
        intro b hb
        rw [List.mem_iff_getElem] at hb
        obtain ⟨j, hjlen, rfl⟩ := hb
        have hjn : i + 1 + j < qis.length := by
          have h2 := hjlen
          rw [List.length_drop] at h2
          omega
        have hgb : (qis.drop (i + 1))[j] = qis.get ⟨i + 1 + j, hjn⟩ := by simp
        rw [hgb]
        exact hco' i (i + 1 + j) hi hjn (by omega)
    have hmodinv : (q / qi) * mod_inv (q / qi) qi ≡ 1 [MOD qi] := by
      have hcast : (((q / qi) * mod_inv (q / qi) qi : ℕ) : ZMod qi) = ((1 : ℕ) : ZMod qi) := by
        push_cast
        unfold mod_inv
        rw [ZMod.natCast_rightInverse _]
        exact ZMod.coe_mul_inv_eq_one _ hMcop
      exact (ZMod.natCast_eq_natCast_iff _ _ _).mp hcast
    have hFi : F qi ≡ x [MOD qi] := by
      have h1 : F qi = (x % qi) * ((q / qi) * mod_inv (q / qi) qi) := by
        rw [hF]
        ring
      rw [h1]
      calc (x % qi) * ((q / qi) * mod_inv (q / qi) qi)
          ≡ (x % qi) * 1 [MOD qi] := Nat.ModEq.mul_left _ hmodinv
      _ = x % qi := by ring
      _ ≡ x [MOD qi] := Nat.mod_modEq x qi
    rw [hsum2]
    have hA : ((qis.map F).take i).sum ≡ 0 [MOD qi] :=
      Nat.modEq_zero_iff_dvd.mpr hdvdA
    have hB : ((qis.map F).drop (i + 1)).sum ≡ 0 [MOD qi] :=
      Nat.modEq_zero_iff_dvd.mpr hdvdB
    calc ((qis.map F).take i).sum + (F qi + ((qis.map F).drop (i + 1)).sum)
        ≡ 0 + (x + 0) [MOD qi] := hA.add (hFi.add hB)
    _ = x := by ring
  have hmq : (qis.map F).sum ≡ x [MOD q] := by
    rw [hq]
    unfold crt_q
    rw [Nat.modEq_list_prod_iff hcop]
    intro i
    exact hterm i.val i.isLt
  rw [hsum]
  calc (qis.map F).sum % q = x % q := hmq
  _ = x := Nat.mod_eq_of_lt hx

/-- C6: `CRTInteger.recover` on moduli `[5,7,8]` and residues `[3,1,6]`
yields `78`, and for every `x < q` the residues of `from_integer` are
`x mod qi` and `recover` returns `x` itself. -/
theorem C6_crt_integer_recover (qis : List ℕ) (hpos : ∀ qi ∈ qis, 0 < qi)
    (hcop : qis.Pairwise Nat.Coprime) :
    crt_recover [5, 7, 8] [3, 1, 6] = 78 ∧
    ∀ x : ℕ, x < crt_q qis →
      crt_from_integer qis x = qis.map (x % ·) ∧
      crt_recover qis (crt_from_integer qis x) = x := by
  constructor
  · have h78 : crt_from_integer [5, 7, 8] 78 = [3, 1, 6] := by decide
    rw [← h78]
    exact crt_recover_roundtrip [5, 7, 8] (by decide) (by decide) 78 (by decide)
  · intro x hx
    exact ⟨rfl, crt_recover_roundtrip qis hpos hcop x hx⟩

/-- C6 (witness): the moduli `[5, 7, 8]` themselves. -/
theorem C6_crt_integer_recover_witness :
    ((∀ qi ∈ [5, 7, 8], 0 < qi) ∧ ([5, 7, 8] : List ℕ).Pairwise Nat.Coprime) ∧
    (crt_recover [5, 7, 8] [3, 1, 6] = 78 ∧
     ∀ x : ℕ, x < crt_q [5, 7, 8] →
       crt_from_integer [5, 7, 8] x = [5, 7, 8].map (x % ·) ∧
       crt_recover [5, 7, 8] (crt_from_integer [5, 7, 8] x) = x) :=
  ⟨⟨by decide, by decide⟩, C6_crt_integer_recover [5, 7, 8] (by decide) (by decide)⟩

/-! ### CRT for polynomials -/

theorem phiZ_poly_mul (q : ℕ) (a b : List ℤ) :
    phiZ q (poly_mul a b) = phiZ q a * phiZ q b := by
  unfold phiZ
  rw [toP_poly_mul, Polynomial.map_mul]

open Polynomial in
/-- Two coefficient lists of length at most `n` whose `phiZ` images differ by
a multiple of `x^n + 1` have equal `phiZ` images (degree argument). -/
theorem phiZ_eq_of_dvd (q n : ℕ) (hn : 0 < n) (hq : 1 < q) (l1 l2 : List ℤ)
    (h1 : l1.length ≤ n) (h2 : l2.length ≤ n)
    (hdvd : ((X : Polynomial (ZMod q)) ^ n + 1) ∣ (phiZ q l1 - phiZ q l2)) :
    phiZ q l1 = phiZ q l2 := by
  haveI : Fact (1 < q) := ⟨hq⟩
  have hmonic : ((X : Polynomial (ZMod q)) ^ n + 1).Monic := by
    have := Polynomial.monic_X_pow_add_C (R := ZMod q) (1 : ZMod q) (by omega : n ≠ 0)
    simpa using this
  have hdeg : (phiZ q l1 - phiZ q l2).degree < (n : WithBot ℕ) :=
    lt_of_le_of_lt (Polynomial.degree_sub_le _ _)
      (max_lt (phiZ_degree_lt q l1 n h1 hn) (phiZ_degree_lt q l2 n h2 hn))
  have hdegf : ((X : Polynomial (ZMod q)) ^ n + 1).degree = (n : WithBot ℕ) := by
    have := Polynomial.degree_X_pow_add_C (R := ZMod q) hn (1 : ZMod q)
    simpa using this
  have hzero : phiZ q l1 - phiZ q l2 = 0 := by
    obtain ⟨h, hh⟩ := hdvd
    by_cases hh0 : h = 0
    · rw [hh, hh0, mul_zero]
    · exfalso
      have hdm : (phiZ q l1 - phiZ q l2).degree = h.degree + (n : WithBot ℕ) := by
        rw [hh, mul_comm, hmonic.degree_mul, hdegf]
      have h0 : 0 ≤ h.degree := Polynomial.zero_le_degree_iff.mpr hh0
      have hge : (n : WithBot ℕ) ≤ (phiZ q l1 - phiZ q l2).degree := by
        rw [hdm]
        calc (n : WithBot ℕ) = 0 + n := (zero_add _).symm
        _ ≤ h.degree + n := add_le_add_right h0 _
      exact absurd hdeg (not_lt.mpr hge)
  rw [← sub_eq_zero]
  exact hzero

open Polynomial in
/-- Cyclotomic reduction respects coefficient-wise congruence: congruent
inputs have congruent folds. -/
theorem fold_phiZ_congr (q n : ℕ) (hn : 0 < n) (hq : 1 < q) (l1 l2 : List ℤ)
    (hphi : phiZ q l1 = phiZ q l2) :
    phiZ q (reduce_coefficients_by_cyclo l1 (cycloPoly n)) =
      phiZ q (reduce_coefficients_by_cyclo l2 (cycloPoly n)) := by
  apply phiZ_eq_of_dvd q n hn hq _ _ (le_of_eq (reduce_cyclo_length l1 n hn))
    (le_of_eq (reduce_cyclo_length l2 n hn))
  have hd1 := reduce_cyclo_dvd l1 n hn
  have hd2 := reduce_cyclo_dvd l2 n hn
  have hm1 := map_dvd (Polynomial.mapRingHom (Int.castRingHom (ZMod q))) hd1
  have hm2 := map_dvd (Polynomial.mapRingHom (Int.castRingHom (ZMod q))) hd2
  simp only [map_sub, Polynomial.coe_mapRingHom, Polynomial.map_add, Polynomial.map_pow,
    Polynomial.map_X, Polynomial.map_one] at hm1 hm2
  unfold phiZ
  unfold phiZ at hphi
  have key : Polynomial.map (Int.castRingHom (ZMod q))
        (toP (reduce_coefficients_by_cyclo l1 (cycloPoly n))) -
      Polynomial.map (Int.castRingHom (ZMod q))
        (toP (reduce_coefficients_by_cyclo l2 (cycloPoly n))) =
      ((Polynomial.map (Int.castRingHom (ZMod q)) (toP l2) -
          Polynomial.map (Int.castRingHom (ZMod q))
            (toP (reduce_coefficients_by_cyclo l2 (cycloPoly n)))) -
        (Polynomial.map (Int.castRingHom (ZMod q)) (toP l1) -
          Polynomial.map (Int.castRingHom (ZMod q))
            (toP (reduce_coefficients_by_cyclo l1 (cycloPoly n))))) +
      (Polynomial.map (Int.castRingHom (ZMod q)) (toP l1) -
        Polynomial.map (Int.castRingHom (ZMod q)) (toP l2)) := by
    ring
  rw [key]
  apply dvd_add (dvd_sub hm2 hm1)
  rw [hphi, sub_self]
  exact dvd_zero _

/-- Coefficients of `reduce_in_ring` at modulus `qi` vs modulus `q` (with
`qi ∣ q`) are congruent mod `qi` whenever the inputs are congruent mod `qi`. -/
theorem reduce_in_ring_getD_congr (qi q n : ℕ) (hn : 0 < n) (hqi : 1 < qi) (hq : 0 < q)
    (hdvd : qi ∣ q) (S T : List ℤ) (hphi : phiZ qi S = phiZ qi T) (j : ℕ) (hj : j < n) :
    (reduce_in_ring S ⟨n, (qi : ℤ)⟩).getD j 0 ≡
      (reduce_in_ring T ⟨n, (q : ℤ)⟩).getD j 0 [ZMOD (qi : ℤ)] := by
  have hqiZ : (0 : ℤ) < (qi : ℤ) := by exact_mod_cast (by omega : 0 < qi)
  have hqZ : (0 : ℤ) < (q : ℤ) := by exact_mod_cast hq
  set W1 := reduce_coefficients_by_cyclo S (cycloPoly n) with hW1
  set W2 := reduce_coefficients_by_cyclo T (cycloPoly n) with hW2
  have hfold : phiZ qi W1 = phiZ qi W2 := fold_phiZ_congr qi n hn hqi S T hphi
  have hl1 : W1.length = n := reduce_cyclo_length S n hn
  have hl2 : W2.length = n := reduce_cyclo_length T n hn
  have hgd : W1.getD j 0 ≡ W2.getD j 0 [ZMOD (qi : ℤ)] := by
    have hc : (phiZ qi W1).coeff (n - 1 - j) = (phiZ qi W2).coeff (n - 1 - j) := by
      rw [hfold]
    unfold phiZ at hc
    rw [Polynomial.coeff_map, Polynomial.coeff_map, toP_coeff, toP_coeff] at hc
    simp only [Int.coe_castRingHom] at hc
    have hmod : coeffD W1 (n - 1 - j) ≡ coeffD W2 (n - 1 - j) [ZMOD (qi : ℤ)] := by
      rw [← ZMod.intCast_eq_intCast_iff]
      exact_mod_cast hc
    unfold coeffD at hmod
    rw [hl1, hl2, if_pos (by omega), if_pos (by omega)] at hmod
    have harith : n - 1 - (n - 1 - j) = j := by omega
    rw [harith] at hmod
    exact hmod
  have hg1 : (reduce_in_ring S ⟨n, (qi : ℤ)⟩).getD j 0 =
      get_centered_remainder (W1.getD j 0) (qi : ℤ) := by
    unfold reduce_in_ring
    exact getD_reduce_by_modulus W1 (qi : ℤ) j (by rw [hl1]; omega)
  have hg2 : (reduce_in_ring T ⟨n, (q : ℤ)⟩).getD j 0 =
      get_centered_remainder (W2.getD j 0) (q : ℤ) := by
    unfold reduce_in_ring
    exact getD_reduce_by_modulus W2 (q : ℤ) j (by rw [hl2]; omega)
  rw [hg1, hg2]
  calc get_centered_remainder (W1.getD j 0) (qi : ℤ)
      ≡ W1.getD j 0 [ZMOD (qi : ℤ)] := get_centered_remainder_modEq _ _ (by omega)
  _ ≡ W2.getD j 0 [ZMOD (qi : ℤ)] := hgd
  _ ≡ get_centered_remainder (W2.getD j 0) (q : ℤ) [ZMOD (qi : ℤ)] := by
      have h1 : get_centered_remainder (W2.getD j 0) (q : ℤ) ≡
          W2.getD j 0 [ZMOD (q : ℤ)] := get_centered_remainder_modEq _ _ (by omega)
      exact (h1.of_dvd (by exact_mod_cast hdvd)).symm

/-- The coefficient-wise CRT recovery of congruent factor polynomials returns
the centered target polynomial. -/
theorem crt_poly_recover_eq (qis : List ℕ) (hpos : ∀ qi ∈ qis, 0 < qi)
    (hcop : qis.Pairwise Nat.Coprime) (n : ℕ)
    (target : List ℤ) (hlen : target.length = n)
    (hrange : ∀ c ∈ target, -(crt_q qis : ℤ) < 2 * c ∧ 2 * c ≤ (crt_q qis : ℤ))
    (polys : List (List ℤ)) (hplen : polys.length = qis.length)
    (hcong : ∀ i (hi : i < qis.length), ∀ j, j < n →
      (polys.getD i []).getD j 0 ≡ target.getD j 0 [ZMOD (qis.get ⟨i, hi⟩ : ℤ)]) :
    crt_poly_recover polys n qis = target := by
  have hqpos : 0 < crt_q qis := List.prod_pos hpos
  have hqZ : (0 : ℤ) < (crt_q qis : ℤ) := by exact_mod_cast hqpos
  have hreclen : (crt_poly_recover polys n qis).length = n := by
    unfold crt_poly_recover
    rw [List.length_map, List.length_range]
  apply List.ext_getElem (by rw [hreclen, hlen])
  intro j hj1 hj2
  have hjn : j < n := by rw [hreclen] at hj1; exact hj1
  have hentry : (crt_poly_recover polys n qis)[j] =
      crt_coeff_recover qis (polys.map fun p => p.getD j 0) := by
    unfold crt_poly_recover
    simp
  rw [hentry]
  set tj := target.getD j 0 with htjdef
  have htj_elem : tj = target[j] := List.getD_eq_getElem target 0 hj2
  set x : ℕ := (tj % (crt_q qis : ℤ)).toNat with hxdef
  have hxcast : ((x : ℕ) : ℤ) = tj % (crt_q qis : ℤ) :=
    Int.toNat_of_nonneg (Int.emod_nonneg _ (by omega))
  have hxlt : x < crt_q qis := by
    have h2 : ((x : ℕ) : ℤ) < ((crt_q qis : ℕ) : ℤ) := by
      rw [hxcast]
      exact Int.emod_lt_of_pos tj hqZ
    exact_mod_cast h2
  have hlists : List.zipWith (fun (qi : ℕ) (c : ℤ) => (c % (qi : ℤ)).toNat) qis
      (polys.map fun p => p.getD j 0) = crt_from_integer qis x := by
    apply List.ext_getElem
    · rw [List.length_zipWith, List.length_map, hplen]
      unfold crt_from_integer
      rw [List.length_map]
      omega
    intro i hi1 hi2
    have hin : i < qis.length := by
      rw [List.length_zipWith, List.length_map, hplen] at hi1
      omega
    have hip : i < polys.length := by omega
    have hqi_pos : 0 < qis.get ⟨i, hin⟩ := hpos _ (qis.get_mem i hin)
    have hqidvd : qis.get ⟨i, hin⟩ ∣ crt_q qis := List.dvd_prod (qis.get_mem i hin)
    have hcong_i := hcong i hin j hjn
    have hpi : polys.getD i [] = polys[i] := List.getD_eq_getElem polys [] hip
    rw [List.getElem_zipWith, List.getElem_map]
    unfold crt_from_integer
    rw [List.getElem_map]
    have hgetqi : qis[i] = qis.get ⟨i, hin⟩ := by
      rw [List.get_eq_getElem]
    have hzeq : polys[i].getD j 0 % ((qis[i] : ℕ) : ℤ) = ((x % qis[i] : ℕ) : ℤ) := by
      have h1 : (polys.getD i []).getD j 0 % ((qis.get ⟨i, hin⟩ : ℕ) : ℤ) =
          tj % ((qis.get ⟨i, hin⟩ : ℕ) : ℤ) := hcong_i
      have h2 : ((x % qis.get ⟨i, hin⟩ : ℕ) : ℤ) =
          ((x : ℕ) : ℤ) % ((qis.get ⟨i, hin⟩ : ℕ) : ℤ) := by
        push_cast
        ring
      rw [hgetqi, h2, hxcast, Int.emod_emod_of_dvd _ (by exact_mod_cast hqidvd)]
      rw [hpi] at h1
      exact h1
    rw [hzeq, Int.toNat_natCast]
  have hrec : crt_recover qis (List.zipWith (fun (qi : ℕ) (c : ℤ) => (c % (qi : ℤ)).toNat) qis
      (polys.map fun p => p.getD j 0)) = x := by
    rw [hlists]
    exact crt_recover_roundtrip qis hpos hcop x hxlt
  unfold crt_coeff_recover
  rw [hrec, ← htj_elem]
  apply centered_unique hqZ (get_centered_remainder_range _ _ hqZ)
    (hrange tj (by rw [htj_elem]; exact List.getElem_mem _))
  have hc1 : get_centered_remainder ((x : ℕ) : ℤ) (crt_q qis : ℤ) ≡
      ((x : ℕ) : ℤ) [ZMOD (crt_q qis : ℤ)] := get_centered_remainder_modEq _ _ (by omega)
  have hc2 : ((x : ℕ) : ℤ) ≡ tj [ZMOD (crt_q qis : ℤ)] := by
    rw [hxcast]
    exact Int.emod_emod_of_dvd tj dvd_rfl
  exact hc1.trans hc2

/-- C5: for polynomials already reduced in `Rq` (`q = Π qi`, the `qi`
pairwise coprime and `> 1`), decomposing into the factor rings and
recovering is the identity; and addition or multiplication performed
component-wise in the factor rings (each reduced in `R_qi`) recovers to the
operation performed directly in `Rq`. -/
theorem C5_crt_polynomial (qis : List ℕ) (n : ℕ) (hn : 0 < n)
    (hq1 : ∀ qi ∈ qis, 1 < qi) (hcop : qis.Pairwise Nat.Coprime)
    (p p1 p2 : List ℤ)
    (hp : p = reduce_in_ring p ⟨n, (crt_q qis : ℤ)⟩)
    (hp1 : p1 = reduce_in_ring p1 ⟨n, (crt_q qis : ℤ)⟩)
    (hp2 : p2 = reduce_in_ring p2 ⟨n, (crt_q qis : ℤ)⟩) :
    crt_poly_recover (crt_poly_decompose p qis) n qis = p ∧
    crt_poly_recover (qis.map fun (qi : ℕ) =>
        reduce_in_ring (poly_add (reduce_coefficients_by_modulus p1 (qi : ℤ))
          (reduce_coefficients_by_modulus p2 (qi : ℤ))) ⟨n, (qi : ℤ)⟩) n qis =
      reduce_in_ring (poly_add p1 p2) ⟨n, (crt_q qis : ℤ)⟩ ∧
    crt_poly_recover (qis.map fun (qi : ℕ) =>
        reduce_in_ring (poly_mul (reduce_coefficients_by_modulus p1 (qi : ℤ))
          (reduce_coefficients_by_modulus p2 (qi : ℤ))) ⟨n, (qi : ℤ)⟩) n qis =
      reduce_in_ring (poly_mul p1 p2) ⟨n, (crt_q qis : ℤ)⟩ := by
  have hpos : ∀ qi ∈ qis, 0 < qi := fun qi h => by have := hq1 qi h; omega
  have hqpos : 0 < crt_q qis := List.prod_pos hpos
  have hqZ : (0 : ℤ) < (crt_q qis : ℤ) := by exact_mod_cast hqpos
  refine ⟨?_, ?_, ?_⟩
  · -- roundtrip
    have hplen1 : p.length = n := by
      conv_lhs => rw [hp]
      exact length_reduce_in_ring p n _ hn
    refine crt_poly_recover_eq qis hpos hcop n p hplen1 ?_ (crt_poly_decompose p qis) ?_ ?_
    · intro c hc
      rw [hp] at hc
      exact reduce_in_ring_coeff_range p n _ hqZ c hc
    · unfold crt_poly_decompose
      rw [List.length_map]
    · intro i hi j hj
      have hentry : (crt_poly_decompose p qis).getD i [] =
          reduce_coefficients_by_modulus p ((qis.get ⟨i, hi⟩ : ℕ) : ℤ) := by
        unfold crt_poly_decompose
        rw [List.getD_eq_getElem _ _ (by rw [List.length_map]; exact hi),
          List.getElem_map, List.get_eq_getElem]
      rw [hentry, getD_reduce_by_modulus p _ j (by omega)]
      apply get_centered_remainder_modEq
      have hq2 := hq1 _ (qis.get_mem i hi)
      exact_mod_cast (by omega : (qis.get ⟨i, hi⟩ : ℕ) ≠ 0)
  · -- addition
    refine crt_poly_recover_eq qis hpos hcop n _ (length_reduce_in_ring _ n _ hn)
      (reduce_in_ring_coeff_range _ n _ hqZ) _ (by rw [List.length_map]) ?_
    intro i hi j hj
    have hentry : ((qis.map fun (qi : ℕ) =>
        reduce_in_ring (poly_add (reduce_coefficients_by_modulus p1 (qi : ℤ))
          (reduce_coefficients_by_modulus p2 (qi : ℤ))) ⟨n, (qi : ℤ)⟩).getD i []) =
        reduce_in_ring (poly_add
          (reduce_coefficients_by_modulus p1 ((qis.get ⟨i, hi⟩ : ℕ) : ℤ))
          (reduce_coefficients_by_modulus p2 ((qis.get ⟨i, hi⟩ : ℕ) : ℤ)))
          ⟨n, ((qis.get ⟨i, hi⟩ : ℕ) : ℤ)⟩ := by
      rw [List.getD_eq_getElem _ _ (by rw [List.length_map]; exact hi),
        List.getElem_map, List.get_eq_getElem]
    rw [hentry]
    have hq2 := hq1 _ (qis.get_mem i hi)
    apply reduce_in_ring_getD_congr _ _ n hn hq2 hqpos
      (List.dvd_prod (qis.get_mem i hi)) _ _ ?_ j hj
    rw [phiZ_poly_add, phiZ_poly_add, phiZ_reduce_by_modulus _ (by omega) p1,
      phiZ_reduce_by_modulus _ (by omega) p2]
  · -- multiplication
    refine crt_poly_recover_eq qis hpos hcop n _ (length_reduce_in_ring _ n _ hn)
      (reduce_in_ring_coeff_range _ n _ hqZ) _ (by rw [List.length_map]) ?_
    intro i hi j hj
    have hentry : ((qis.map fun (qi : ℕ) =>
        reduce_in_ring (poly_mul (reduce_coefficients_by_modulus p1 (qi : ℤ))
          (reduce_coefficients_by_modulus p2 (qi : ℤ))) ⟨n, (qi : ℤ)⟩).getD i []) =
        reduce_in_ring (poly_mul
          (reduce_coefficients_by_modulus p1 ((qis.get ⟨i, hi⟩ : ℕ) : ℤ))
          (reduce_coefficients_by_modulus p2 ((qis.get ⟨i, hi⟩ : ℕ) : ℤ)))
          ⟨n, ((qis.get ⟨i, hi⟩ : ℕ) : ℤ)⟩ := by
      rw [List.getD_eq_getElem _ _ (by rw [List.length_map]; exact hi),
        List.getElem_map, List.get_eq_getElem]
    rw [hentry]
    have hq2 := hq1 _ (qis.get_mem i hi)
    apply reduce_in_ring_getD_congr _ _ n hn hq2 hqpos
      (List.dvd_prod (qis.get_mem i hi)) _ _ ?_ j hj
    rw [phiZ_poly_mul, phiZ_poly_mul, phiZ_reduce_by_modulus _ (by omega) p1,
      phiZ_reduce_by_modulus _ (by omega) p2]

/-- C5 (witness): moduli `[3, 5]`, `n = 2`, `p = [1, -2]`, `p1 = [2, 3]`,
`p2 = [-4, 6]`. -/
theorem C5_crt_polynomial_witness :
    (0 < 2 ∧ (∀ qi ∈ [3, 5], 1 < qi) ∧ ([3, 5] : List ℕ).Pairwise Nat.Coprime ∧
      [1, -2] = reduce_in_ring [1, -2] ⟨2, (crt_q [3, 5] : ℤ)⟩ ∧
      [2, 3] = reduce_in_ring [2, 3] ⟨2, (crt_q [3, 5] : ℤ)⟩ ∧
      [-4, 6] = reduce_in_ring [-4, 6] ⟨2, (crt_q [3, 5] : ℤ)⟩) ∧
    (crt_poly_recover (crt_poly_decompose [1, -2] [3, 5]) 2 [3, 5] = [1, -2] ∧
     crt_poly_recover ([3, 5].map fun (qi : ℕ) =>
         reduce_in_ring (poly_add (reduce_coefficients_by_modulus [2, 3] (qi : ℤ))
           (reduce_coefficients_by_modulus [-4, 6] (qi : ℤ))) ⟨2, (qi : ℤ)⟩) 2 [3, 5] =
       reduce_in_ring (poly_add [2, 3] [-4, 6]) ⟨2, (crt_q [3, 5] : ℤ)⟩ ∧
     crt_poly_recover ([3, 5].map fun (qi : ℕ) =>
         reduce_in_ring (poly_mul (reduce_coefficients_by_modulus [2, 3] (qi : ℤ))
           (reduce_coefficients_by_modulus [-4, 6] (qi : ℤ))) ⟨2, (qi : ℤ)⟩) 2 [3, 5] =
       reduce_in_ring (poly_mul [2, 3] [-4, 6]) ⟨2, (crt_q [3, 5] : ℤ)⟩) :=
  ⟨⟨by decide, by decide, by decide,
    by
      simp only [reduce_in_ring, reduce_coefficients_by_modulus, get_centered_remainder_eq_int]
      decide,
    by
      simp only [reduce_in_ring, reduce_coefficients_by_modulus, get_centered_remainder_eq_int]
      decide,
    by
      simp only [reduce_in_ring, reduce_coefficients_by_modulus, get_centered_remainder_eq_int]
      decide⟩,
  C5_crt_polynomial [3, 5] 2 (by decide) (by decide) (by decide) [1, -2] [2, 3] [-4, 6]
    (by
      simp only [reduce_in_ring, reduce_coefficients_by_modulus, get_centered_remainder_eq_int]
      decide)
    (by
      simp only [reduce_in_ring, reduce_coefficients_by_modulus, get_centered_remainder_eq_int]
      decide)
    (by
      simp only [reduce_in_ring, reduce_coefficients_by_modulus, get_centered_remainder_eq_int]
      decide)⟩

/-! ### Homomorphic addition -/

open Polynomial in
/-- Integer version of the degree argument: coefficient lists of length at
most `n` whose `toP` images differ by a multiple of `x^n + 1` have equal
`toP` images. -/
theorem toP_eq_of_dvd (n : ℕ) (hn : 0 < n) (l1 l2 : List ℤ)
    (h1 : l1.length ≤ n) (h2 : l2.length ≤ n)
    (hdvd : ((X : Polynomial ℤ) ^ n + 1) ∣ (toP l1 - toP l2)) :
    toP l1 = toP l2 := by
  have hmonic : ((X : Polynomial ℤ) ^ n + 1).Monic := by
    have := Polynomial.monic_X_pow_add_C (R := ℤ) (1 : ℤ) (by omega : n ≠ 0)
    simpa using this
  have hdeg : (toP l1 - toP l2).degree < (n : WithBot ℕ) :=
    lt_of_le_of_lt (Polynomial.degree_sub_le _ _)
      (max_lt (toP_degree_lt l1 n h1 hn) (toP_degree_lt l2 n h2 hn))
  have hdegf : ((X : Polynomial ℤ) ^ n + 1).degree = (n : WithBot ℕ) := by
    have := Polynomial.degree_X_pow_add_C (R := ℤ) hn (1 : ℤ)
    simpa using this
  have hzero : toP l1 - toP l2 = 0 := by
    obtain ⟨h, hh⟩ := hdvd
    by_cases hh0 : h = 0
    · rw [hh, hh0, mul_zero]
    · exfalso
      have hdm : (toP l1 - toP l2).degree = h.degree + (n : WithBot ℕ) := by
        rw [hh, mul_comm, hmonic.degree_mul, hdegf]
      have h0 : 0 ≤ h.degree := Polynomial.zero_le_degree_iff.mpr hh0
      have hge : (n : WithBot ℕ) ≤ (toP l1 - toP l2).degree := by
        rw [hdm]
        calc (n : WithBot ℕ) = 0 + n := (zero_add _).symm
        _ ≤ h.degree + n := add_le_add_right h0 _
      exact absurd hdeg (not_lt.mpr hge)
  rw [← sub_eq_zero]
  exact hzero

/-- Two length-`n` coefficient lists denoting the same integer polynomial
are equal. -/
theorem list_eq_of_toP_eq (n : ℕ) (l1 l2 : List ℤ) (hl1 : l1.length = n)
    (hl2 : l2.length = n) (h : toP l1 = toP l2) : l1 = l2 := by
  have hcoeffs : ∀ k, coeffD l1 k = coeffD l2 k := by
    intro k
    have hc := congrArg (fun p => Polynomial.coeff p k) h
    simpa [toP_coeff] using hc
  apply List.ext_getElem (by omega)
  intro i hi1 hi2
  have hc := hcoeffs (n - 1 - i)
  unfold coeffD at hc
  rw [if_pos (by omega), if_pos (by omega)] at hc
  rw [show l1.length - 1 - (n - 1 - i) = i by omega,
    show l2.length - 1 - (n - 1 - i) = i by omega] at hc
  rw [List.getD_eq_getElem _ _ hi1, List.getD_eq_getElem _ _ hi2] at hc
  exact hc

/-- Cyclotomic reduction of a sum whose right summand already has length `n`
adds that summand to the reduction of the left summand. -/
theorem fold_poly_add_right (n : ℕ) (hn : 0 < n) (A B : List ℤ) (hB : B.length = n) :
    reduce_coefficients_by_cyclo (poly_add A B) (cycloPoly n) =
      poly_add (reduce_coefficients_by_cyclo A (cycloPoly n)) B := by
  apply list_eq_of_toP_eq n _ _ (reduce_cyclo_length _ n hn)
    (by rw [length_poly_add, reduce_cyclo_length A n hn, hB]; omega)
  apply toP_eq_of_dvd n hn _ _ (le_of_eq (reduce_cyclo_length _ n hn))
    (by rw [length_poly_add, reduce_cyclo_length A n hn, hB]; omega)
  have hd1 := reduce_cyclo_dvd (poly_add A B) n hn
  have hd2 := reduce_cyclo_dvd A n hn
  have key : toP (reduce_coefficients_by_cyclo (poly_add A B) (cycloPoly n)) -
      toP (poly_add (reduce_coefficients_by_cyclo A (cycloPoly n)) B) =
      (toP A - toP (reduce_coefficients_by_cyclo A (cycloPoly n))) -
      (toP (poly_add A B) -
        toP (reduce_coefficients_by_cyclo (poly_add A B) (cycloPoly n))) := by
    rw [toP_poly_add, toP_poly_add]
    ring
  rw [key]
  exact dvd_sub hd2 hd1

/-- The plaintext-sum carry: a length-`n` list equals its centered reduction
mod `t` plus `t` times an integral carry list. -/
theorem plaintext_carry (n : ℕ) (hn : 0 < n) (t : ℤ) (ht : 0 < t)
    (S : List ℤ) (hS : S.length = n) :
    S = poly_add (reduce_in_ring S ⟨n, t⟩)
      (poly_mul [t] (List.zipWith (fun x y => (x - y) / t) S (reduce_in_ring S ⟨n, t⟩))) := by
  set M := reduce_in_ring S ⟨n, t⟩ with hM
  have hMlen : M.length = n := length_reduce_in_ring S n t hn
  have hKlen : (List.zipWith (fun x y => (x - y) / t) S M).length = n := by
    rw [List.length_zipWith, hS, hMlen]
    omega
  have hmullen : (poly_mul [t] (List.zipWith (fun x y => (x - y) / t) S M)).length = n := by
    rw [poly_mul_length, List.length_singleton, hKlen]
    omega
  apply List.ext_getElem (by rw [length_poly_add, hMlen, hmullen, hS]; omega)
  intro i h1 h2
  have hi_n : i < n := by rw [hS] at h1; exact h1
  rw [← List.getD_eq_getElem S 0 h1, ← List.getD_eq_getElem _ 0 h2]
  rw [getD_poly_add_len_eq (by rw [hMlen, hmullen]) i]
  rw [poly_mul_eq_naive, getD_poly_mul_singleton]
  have hzip : (List.zipWith (fun x y => (x - y) / t) S M).getD i 0 =
      (S.getD i 0 - M.getD i 0) / t := by
    rw [List.getD_eq_getElem _ _ (by rw [hKlen]; exact hi_n), List.getElem_zipWith]
    rw [List.getD_eq_getElem _ _ (by omega),
      List.getD_eq_getElem _ _ (by rw [hMlen]; exact hi_n)]
  rw [hzip]
  have hfold : reduce_coefficients_by_cyclo S (cycloPoly n) = S := by
    rw [reduce_cyclo_short S n hn (le_of_eq hS), hS]
    simp
  have hMi : M.getD i 0 = get_centered_remainder (S.getD i 0) t := by
    rw [hM]
    unfold reduce_in_ring
    rw [hfold]
    exact getD_reduce_by_modulus S t i (by omega)
  obtain ⟨Kc, hKc⟩ := get_centered_decomp (S.getD i 0) t (by omega)
  rw [hMi, hKc]
  have hdiv : (S.getD i 0 - (S.getD i 0 + t * Kc)) / t = -Kc := by
    have heq : S.getD i 0 - (S.getD i 0 + t * Kc) = t * (-Kc) := by ring
    rw [heq, Int.mul_ediv_cancel_left _ (by omega)]
  rw [hdiv]
  ring

theorem Phi_singleton_mul (n q : ℕ) (a b : ℤ) :
    Phi n q [a] * Phi n q [b] = Phi n q [a * b] := by
  rw [Phi_singleton, Phi_singleton, Phi_singleton, ← map_mul, ← Polynomial.C_mul,
    Int.cast_mul]

/-- The rounding bound for the homomorphic sum: folded combined noise below
`threshold - (q mod t)`, plaintext coefficient centered mod `t`, and a carry
of absolute value at most 1. -/
theorem folded_noise_bound_add (q t : ℕ) (hq : 1 < q) (ht : 0 < t) (Wi Mi Ki : ℤ)
    (hWi : |(Wi : ℚ)| < noiseThreshold (q : ℤ) (t : ℤ) - (((q : ℤ) % (t : ℤ) : ℤ) : ℚ))
    (hMi : -(t : ℤ) < 2 * Mi ∧ 2 * Mi ≤ t)
    (hKi : |Ki| ≤ 1) :
    |2 * ((t : ℤ) * (Wi + -((q : ℤ) % (t : ℤ)) * Ki) - ((q : ℤ) % (t : ℤ)) * Mi)| <
      (q : ℤ) := by
  have htz : (0 : ℤ) < (t : ℤ) := by exact_mod_cast ht
  have hr0 : (0 : ℤ) ≤ (q : ℤ) % (t : ℤ) := Int.emod_nonneg _ (by omega)
  have htQ : (0 : ℚ) < (t : ℚ) := by exact_mod_cast ht
  have hr0Q : (0 : ℚ) ≤ (((q : ℤ) % (t : ℤ) : ℤ) : ℚ) := by exact_mod_cast hr0
  unfold noiseThreshold at hWi
  obtain ⟨hW1, hW2⟩ := abs_lt.mp hWi
  have hM1 : -(t : ℚ) < 2 * (Mi : ℚ) := by exact_mod_cast hMi.1
  have hM2 : 2 * (Mi : ℚ) ≤ (t : ℚ) := by exact_mod_cast hMi.2
  obtain ⟨hK1, hK2⟩ := abs_le.mp hKi
  have hK1Q : (-1 : ℚ) ≤ (Ki : ℚ) := by exact_mod_cast hK1
  have hK2Q : (Ki : ℚ) ≤ 1 := by exact_mod_cast hK2
  have hcastBound : ((((q : ℕ) : ℤ) : ℚ)) = (q : ℚ) := by push_cast; ring
  have hcastBoundT : ((((t : ℕ) : ℤ) : ℚ)) = (t : ℚ) := by push_cast; ring
  rw [hcastBound, hcastBoundT] at hW1 hW2
  have hgoalQ : |((2 * ((t : ℤ) * (Wi + -((q : ℤ) % (t : ℤ)) * Ki) -
      ((q : ℤ) % (t : ℤ)) * Mi) : ℤ) : ℚ)| < (q : ℚ) := by
    have hcast : ((2 * ((t : ℤ) * (Wi + -((q : ℤ) % (t : ℤ)) * Ki) -
        ((q : ℤ) % (t : ℤ)) * Mi) : ℤ) : ℚ) =
        2 * ((t : ℚ) * ((Wi : ℚ) + -(((q : ℤ) % (t : ℤ) : ℤ) : ℚ) * (Ki : ℚ)) -
          (((q : ℤ) % (t : ℤ) : ℤ) : ℚ) * (Mi : ℚ)) := by
      push_cast
      ring
    rw [hcast, abs_lt]
    have ht2 : (0 : ℚ) < 2 * (t : ℚ) := by positivity
    have hup : 2 * (t : ℚ) * (Wi : ℚ) <
        2 * (t : ℚ) * ((q : ℚ) / (2 * (t : ℚ)) - (((q : ℤ) % (t : ℤ) : ℤ) : ℚ) / 2 -
          (((q : ℤ) % (t : ℤ) : ℤ) : ℚ)) :=
      mul_lt_mul_of_pos_left hW2 ht2
    have hlo : 2 * (t : ℚ) * (-((q : ℚ) / (2 * (t : ℚ)) - (((q : ℤ) % (t : ℤ) : ℤ) : ℚ) / 2 -
        (((q : ℤ) % (t : ℤ) : ℤ) : ℚ))) < 2 * (t : ℚ) * (Wi : ℚ) :=
      mul_lt_mul_of_pos_left hW1 ht2
    have hkey : 2 * (t : ℚ) * ((q : ℚ) / (2 * (t : ℚ)) - (((q : ℤ) % (t : ℤ) : ℤ) : ℚ) / 2 -
        (((q : ℤ) % (t : ℤ) : ℤ) : ℚ)) =
        (q : ℚ) - (t : ℚ) * (((q : ℤ) % (t : ℤ) : ℤ) : ℚ) -
          2 * (t : ℚ) * (((q : ℤ) % (t : ℤ) : ℤ) : ℚ) := by
      field_simp
      ring
    have hrup : (((q : ℤ) % (t : ℤ) : ℤ) : ℚ) * (2 * (Mi : ℚ)) ≤
        (((q : ℤ) % (t : ℤ) : ℤ) : ℚ) * (t : ℚ) := mul_le_mul_of_nonneg_left hM2 hr0Q
    have hrlo : (((q : ℤ) % (t : ℤ) : ℤ) : ℚ) * (-(t : ℚ)) ≤
        (((q : ℤ) % (t : ℤ) : ℤ) : ℚ) * (2 * (Mi : ℚ)) :=
      mul_le_mul_of_nonneg_left (le_of_lt hM1) hr0Q
    have hkup : (((q : ℤ) % (t : ℤ) : ℤ) : ℚ) * (Ki : ℚ) ≤
        (((q : ℤ) % (t : ℤ) : ℤ) : ℚ) := by
      calc (((q : ℤ) % (t : ℤ) : ℤ) : ℚ) * (Ki : ℚ) ≤
          (((q : ℤ) % (t : ℤ) : ℤ) : ℚ) * 1 := mul_le_mul_of_nonneg_left hK2Q hr0Q
      _ = (((q : ℤ) % (t : ℤ) : ℤ) : ℚ) := mul_one _
    have hklo : -(((q : ℤ) % (t : ℤ) : ℤ) : ℚ) ≤
        (((q : ℤ) % (t : ℤ) : ℤ) : ℚ) * (Ki : ℚ) := by
      calc -(((q : ℤ) % (t : ℤ) : ℤ) : ℚ) = (((q : ℤ) % (t : ℤ) : ℤ) : ℚ) * (-1) := by ring
      _ ≤ (((q : ℤ) % (t : ℤ) : ℤ) : ℚ) * (Ki : ℚ) := mul_le_mul_of_nonneg_left hK1Q hr0Q
    have hkup2 : 2 * (t : ℚ) * ((((q : ℤ) % (t : ℤ) : ℤ) : ℚ) * (Ki : ℚ)) ≤
        2 * (t : ℚ) * (((q : ℤ) % (t : ℤ) : ℤ) : ℚ) := mul_le_mul_of_nonneg_left hkup (by positivity)
    have hklo2 : 2 * (t : ℚ) * (-(((q : ℤ) % (t : ℤ) : ℤ) : ℚ)) ≤
        2 * (t : ℚ) * ((((q : ℤ) % (t : ℤ) : ℤ) : ℚ) * (Ki : ℚ)) :=
      mul_le_mul_of_nonneg_left hklo (by positivity)
    constructor
    · linarith [hup, hlo, hrup, hrlo, hkey, hkup2, hklo2]
    · linarith [hup, hlo, hrup, hrlo, hkey, hkup2, hklo2]
  exact_mod_cast hgoalQ

set_option maxHeartbeats 1000000 in
/-- C2 (amended): decrypting the `EvalAdd` of two encryptions (with the
combined encryption randomness) recovers `(m1 + m2) mod t`, provided both the
combined unfolded noise passes the implementation's threshold check and — the
amendment — the cyclotomically folded combined noise stays below
`threshold - (q mod t)` (the slack absorbs the plaintext carry); and whenever
some combined-noise coefficient reaches the threshold, `Decrypt` refuses
(`none`) instead of returning a result. -/
theorem C2_evaladd_homomorphic (n q t : ℕ) (hvalid : rlweValid n q t = true)
    (s e a m1 m2 e0a e1a ua e0b e1b ub : List ℤ)
    (hm1 : m1 = reduce_in_ring m1 ⟨n, (t : ℤ)⟩)
    (hm2 : m2 = reduce_in_ring m2 ⟨n, (t : ℤ)⟩) :
    ((∀ c ∈ decryptNoise s (poly_add e0a e0b) (poly_add e1a e1b) e (poly_add ua ub),
        |(c : ℚ)| < noiseThreshold (q : ℤ) (t : ℤ)) →
      (∀ c ∈ reduce_coefficients_by_cyclo
          (decryptNoise s (poly_add e0a e0b) (poly_add e1a e1b) e (poly_add ua ub))
          (cycloPoly n),
        |(c : ℚ)| < noiseThreshold (q : ℤ) (t : ℤ) - (((q : ℤ) % (t : ℤ) : ℤ) : ℚ)) →
      Decrypt ⟨n, (q : ℤ)⟩ ⟨n, (t : ℤ)⟩ s
        (EvalAdd ⟨n, (q : ℤ)⟩
          (Encrypt ⟨n, (q : ℤ)⟩ (PublicKeyGen ⟨n, (q : ℤ)⟩ s e a) m1 e0a e1a ua
            ((q / t : ℕ) : ℤ))
          (Encrypt ⟨n, (q : ℤ)⟩ (PublicKeyGen ⟨n, (q : ℤ)⟩ s e a) m2 e0b e1b ub
            ((q / t : ℕ) : ℤ)))
        (poly_add e0a e0b) (poly_add e1a e1b) e (poly_add ua ub) =
        some (reduce_in_ring (poly_add m1 m2) ⟨n, (t : ℤ)⟩)) ∧
    ((∃ c ∈ decryptNoise s (poly_add e0a e0b) (poly_add e1a e1b) e (poly_add ua ub),
        noiseThreshold (q : ℤ) (t : ℤ) ≤ |(c : ℚ)|) →
      Decrypt ⟨n, (q : ℤ)⟩ ⟨n, (t : ℤ)⟩ s
        (EvalAdd ⟨n, (q : ℤ)⟩
          (Encrypt ⟨n, (q : ℤ)⟩ (PublicKeyGen ⟨n, (q : ℤ)⟩ s e a) m1 e0a e1a ua
            ((q / t : ℕ) : ℤ))
          (Encrypt ⟨n, (q : ℤ)⟩ (PublicKeyGen ⟨n, (q : ℤ)⟩ s e a) m2 e0b e1b ub
            ((q / t : ℕ) : ℤ)))
        (poly_add e0a e0b) (poly_add e1a e1b) e (poly_add ua ub) = none) := by
  simp only [rlweValid, Bool.and_eq_true, decide_eq_true_eq] at hvalid
  obtain ⟨⟨⟨⟨⟨htq, hn0, hpow⟩, hq1⟩, ht1⟩, hprime⟩, hgcd⟩ := hvalid
  have hn : 0 < n := hn0
  have hq : 1 < q := hq1
  have ht : 0 < t := by omega
  have hq0 : 0 < q := by omega
  have htz : (0 : ℤ) < (t : ℤ) := by exact_mod_cast ht
  constructor
  · intro hv hw
    have hm1len : m1.length = n := by
      conv_lhs => rw [hm1]
      exact length_reduce_in_ring m1 n _ hn
    have hm2len : m2.length = n := by
      conv_lhs => rw [hm2]
      exact length_reduce_in_ring m2 n _ hn
    have hSlen : (poly_add m1 m2).length = n := by
      rw [length_poly_add, hm1len, hm2len]
      omega
    set M := reduce_in_ring (poly_add m1 m2) ⟨n, (t : ℤ)⟩ with hMdef
    set K := List.zipWith (fun x y => (x - y) / (t : ℤ)) (poly_add m1 m2) M with hKdef
    have hMlen : M.length = n := length_reduce_in_ring _ n _ hn
    have hMrange : ∀ c ∈ M, -(t : ℤ) < 2 * c ∧ 2 * c ≤ (t : ℤ) :=
      reduce_in_ring_coeff_range _ n _ htz
    have hKlen : K.length = n := by
      rw [hKdef, List.length_zipWith, hSlen, hMlen]
      omega
    have hcarry := plaintext_carry n hn (t : ℤ) htz (poly_add m1 m2) hSlen
    rw [← hMdef, ← hKdef] at hcarry
    -- the carry coefficients have absolute value at most 1
    have hKbound : ∀ i, i < n → |K.getD i 0| ≤ 1 := by
      intro i hi
      have hKi : K.getD i 0 = ((poly_add m1 m2).getD i 0 - M.getD i 0) / (t : ℤ) := by
        rw [hKdef, List.getD_eq_getElem _ _ (by rw [List.length_zipWith, hSlen, hMlen]; omega),
          List.getElem_zipWith, List.getD_eq_getElem _ _ (by omega),
          List.getD_eq_getElem _ _ (by omega)]
      have hSi : (poly_add m1 m2).getD i 0 = m1.getD i 0 + m2.getD i 0 :=
        getD_poly_add_len_eq (by omega) i
      have hm1mem : m1.getD i 0 ∈ m1 := by
        rw [List.getD_eq_getElem _ _ (by omega)]
        exact List.getElem_mem _
      have hm2mem : m2.getD i 0 ∈ m2 := by
        rw [List.getD_eq_getElem _ _ (by omega)]
        exact List.getElem_mem _
      have hMmem : M.getD i 0 ∈ M := by
        rw [List.getD_eq_getElem _ _ (by omega)]
        exact List.getElem_mem _
      have hm1range : ∀ c ∈ m1, -(t : ℤ) < 2 * c ∧ 2 * c ≤ (t : ℤ) := by
        intro c hc
        rw [hm1] at hc
        exact reduce_in_ring_coeff_range m1 n _ htz c hc
      have hm2range : ∀ c ∈ m2, -(t : ℤ) < 2 * c ∧ 2 * c ≤ (t : ℤ) := by
        intro c hc
        rw [hm2] at hc
        exact reduce_in_ring_coeff_range m2 n _ htz c hc
      have hr1 := hm1range _ hm1mem
      have hr2 := hm2range _ hm2mem
      have hrM := hMrange _ hMmem
      -- t * K_i = S_i - M_i
      have hdvd : (t : ℤ) ∣ ((poly_add m1 m2).getD i 0 - M.getD i 0) := by
        have hMi : M.getD i 0 = get_centered_remainder ((poly_add m1 m2).getD i 0) (t : ℤ) := by
          rw [hMdef]
          unfold reduce_in_ring
          rw [reduce_cyclo_short _ n hn (le_of_eq hSlen), hSlen]
          simp only [Nat.sub_self, List.replicate_zero, List.nil_append]
          exact getD_reduce_by_modulus _ _ i (by omega)
        obtain ⟨Kc, hKc⟩ := get_centered_decomp ((poly_add m1 m2).getD i 0) (t : ℤ) (by omega)
        rw [hMi, hKc]
        exact ⟨-Kc, by ring⟩
      have htK : (t : ℤ) * K.getD i 0 = (poly_add m1 m2).getD i 0 - M.getD i 0 := by
        rw [hKi]
        exact Int.mul_ediv_cancel' hdvd
      rw [abs_le]
      constructor
      · nlinarith [htK, hSi, hr1.1, hr2.1, hrM.2, htz]
      · nlinarith [htK, hSi, hr1.2, hr2.2, hrM.1, htz]
    -- the ciphertext identity
    have hct : EvalAdd ⟨n, (q : ℤ)⟩
        (Encrypt ⟨n, (q : ℤ)⟩ (PublicKeyGen ⟨n, (q : ℤ)⟩ s e a) m1 e0a e1a ua ((q / t : ℕ) : ℤ))
        (Encrypt ⟨n, (q : ℤ)⟩ (PublicKeyGen ⟨n, (q : ℤ)⟩ s e a) m2 e0b e1b ub ((q / t : ℕ) : ℤ)) =
        ((EvalAdd ⟨n, (q : ℤ)⟩
          (Encrypt ⟨n, (q : ℤ)⟩ (PublicKeyGen ⟨n, (q : ℤ)⟩ s e a) m1 e0a e1a ua ((q / t : ℕ) : ℤ))
          (Encrypt ⟨n, (q : ℤ)⟩ (PublicKeyGen ⟨n, (q : ℤ)⟩ s e a) m2 e0b e1b ub ((q / t : ℕ) : ℤ))).1,
         (EvalAdd ⟨n, (q : ℤ)⟩
          (Encrypt ⟨n, (q : ℤ)⟩ (PublicKeyGen ⟨n, (q : ℤ)⟩ s e a) m1 e0a e1a ua ((q / t : ℕ) : ℤ))
          (Encrypt ⟨n, (q : ℤ)⟩ (PublicKeyGen ⟨n, (q : ℤ)⟩ s e a) m2 e0b e1b ub ((q / t : ℕ) : ℤ))).2) := rfl
    rw [hct]
    apply Decrypt_recovery n q t hn hq ht s (poly_add e0a e0b) (poly_add e1a e1b) e
      (poly_add ua ub) _ _ M
      (poly_add (decryptNoise s (poly_add e0a e0b) (poly_add e1a e1b) e (poly_add ua ub))
        (poly_mul [-((q : ℤ) % (t : ℤ))] K))
      hMlen hMrange
    · -- the Phi identity
      have h1 := encrypt_Phi_relation n q hn hq0 ((q / t : ℕ) : ℤ) s e a m1 e0a e1a ua
      have h2 := encrypt_Phi_relation n q hn hq0 ((q / t : ℕ) : ℤ) s e a m2 e0b e1b ub
      have hdelta_t : Phi n q [((q / t : ℕ) : ℤ)] * Phi n q [(t : ℤ)] =
          Phi n q [-((q : ℤ) % (t : ℤ))] := by
        rw [Phi_singleton_mul]
        apply Phi_singleton_congr
        rw [ZMod.intCast_eq_intCast_iff]
        have hqdiv : ((q / t : ℕ) : ℤ) * (t : ℤ) + (q : ℤ) % (t : ℤ) = (q : ℤ) := by
          have hnat : q / t * t + q % t = q := by
            rw [Nat.mul_comm]
            exact Nat.div_add_mod q t
          have hmodcast : (q : ℤ) % (t : ℤ) = ((q % t : ℕ) : ℤ) := by push_cast; ring
          rw [hmodcast]
          exact_mod_cast hnat
        rw [Int.modEq_iff_dvd]
        exact ⟨-1, by linarith [hqdiv]⟩
      have hm12 : Phi n q m1 + Phi n q m2 =
          Phi n q M + Phi n q [(t : ℤ)] * Phi n q K := by
        have hcongr := congrArg (Phi n q) hcarry
        simp only [Phi_poly_add, Phi_poly_mul] at hcongr
        exact hcongr
      simp only [EvalAdd, decryptNoise, Phi_poly_add, Phi_poly_mul,
        Phi_reduce_in_ring n q hn hq0]
      simp only [decryptNoise, Phi_poly_add, Phi_poly_mul] at h1 h2
      linear_combination h1 + h2 + Phi n q [((q / t : ℕ) : ℤ)] * hm12 +
        Phi n q K * hdelta_t
    · -- the rounding bound
      intro i hi
      have hrKlen : (poly_mul [-((q : ℤ) % (t : ℤ))] K).length = n := by
        rw [poly_mul_length, List.length_singleton, hKlen]
        omega
      rw [fold_poly_add_right n hn _ _ hrKlen]
      have hWlen : (reduce_coefficients_by_cyclo
          (decryptNoise s (poly_add e0a e0b) (poly_add e1a e1b) e (poly_add ua ub))
          (cycloPoly n)).length = n := reduce_cyclo_length _ n hn
      rw [getD_poly_add_len_eq (by rw [hWlen, hrKlen]) i, poly_mul_eq_naive,
        getD_poly_mul_singleton]
      have hWmem : (reduce_coefficients_by_cyclo
          (decryptNoise s (poly_add e0a e0b) (poly_add e1a e1b) e (poly_add ua ub))
          (cycloPoly n)).getD i 0 ∈
          reduce_coefficients_by_cyclo
            (decryptNoise s (poly_add e0a e0b) (poly_add e1a e1b) e (poly_add ua ub))
            (cycloPoly n) := by
        rw [List.getD_eq_getElem _ _ (by omega)]
        exact List.getElem_mem _
      have hMmem : M.getD i 0 ∈ M := by
        rw [List.getD_eq_getElem _ _ (by omega)]
        exact List.getElem_mem _
      exact folded_noise_bound_add q t hq ht _ _ _ (hw _ hWmem) (hMrange _ hMmem)
        (hKbound i hi)
    · exact hv
  · rintro ⟨c, hcmem, hcge⟩
    simp only [Decrypt]
    rw [if_neg]
    intro hall
    rw [List.all_eq_true] at hall
    have hc := hall c hcmem
    rw [decide_eq_true_eq] at hc
    exact absurd hc (not_lt.mpr hcge)

/-- C2 (counterexample to the unamended claim): with `n = 2`, `q = 35`,
`t = 2`, messages `m1 = [0, 1]` and `m2 = [0, 0]` in `Rt`, and the second
ciphertext encrypted with zero randomness, every coefficient of the combined
noise stays strictly below the threshold, yet decrypting the `EvalAdd` sum
returns `[0, 0]` while `(m1 + m2) mod t = [0, 1]`: the implementation
silently returns a wrong plaintext. -/
theorem C2_counterexample :
    rlweValid 2 35 2 = true ∧
    reduce_in_ring [0, 1] ⟨2, ((2 : ℕ) : ℤ)⟩ = [0, 1] ∧
    reduce_in_ring [0, 0] ⟨2, ((2 : ℕ) : ℤ)⟩ = [0, 0] ∧
    (∀ c ∈ decryptNoise [1, 0] (poly_add [0, -8] [0, 0]) (poly_add [0, -8] [0, 0]) [8, 0]
        (poly_add [1, 0] [0, 0]),
      |(c : ℚ)| < noiseThreshold ((35 : ℕ) : ℤ) ((2 : ℕ) : ℤ)) ∧
    Decrypt ⟨2, ((35 : ℕ) : ℤ)⟩ ⟨2, ((2 : ℕ) : ℤ)⟩ [1, 0]
      (EvalAdd ⟨2, ((35 : ℕ) : ℤ)⟩
        (Encrypt ⟨2, ((35 : ℕ) : ℤ)⟩ (PublicKeyGen ⟨2, ((35 : ℕ) : ℤ)⟩ [1, 0] [8, 0] [0, 0])
          [0, 1] [0, -8] [0, -8] [1, 0] ((35 / 2 : ℕ) : ℤ))
        (Encrypt ⟨2, ((35 : ℕ) : ℤ)⟩ (PublicKeyGen ⟨2, ((35 : ℕ) : ℤ)⟩ [1, 0] [8, 0] [0, 0])
          [0, 0] [0, 0] [0, 0] [0, 0] ((35 / 2 : ℕ) : ℤ)))
      (poly_add [0, -8] [0, 0]) (poly_add [0, -8] [0, 0]) [8, 0] (poly_add [1, 0] [0, 0]) =
      some [0, 0] ∧
    reduce_in_ring (poly_add [0, 1] [0, 0]) ⟨2, ((2 : ℕ) : ℤ)⟩ = [0, 1] := by
  have hE : poly_add ([0, -8] : List ℤ) [0, 0] = [0, -8] := by decide
  have hU : poly_add ([1, 0] : List ℤ) [0, 0] = [1, 0] := by decide
  have hv : decryptNoise [1, 0] [0, -8] [0, -8] [8, 0] [1, 0] = [8, -8, -8] := by
    simp only [decryptNoise, poly_mul_eq_naive]
    decide
  have hall : ([8, -8, -8] : List ℤ).all
      (fun c => decide (|(c : ℚ)| < noiseThreshold ((35 : ℕ) : ℤ) ((2 : ℕ) : ℤ))) = true := by
    simp only [List.all_cons, List.all_nil, Bool.and_eq_true, decide_eq_true_eq, and_true]
    refine ⟨?_, ?_, ?_⟩ <;> (rw [abs_lt]; constructor) <;> norm_num [noiseThreshold]
  refine ⟨by decide,
    by
      simp only [reduce_in_ring, reduce_coefficients_by_modulus, get_centered_remainder_eq_int]
      decide,
    by
      simp only [reduce_in_ring, reduce_coefficients_by_modulus, get_centered_remainder_eq_int]
      decide,
    ?_, ?_,
    by
      simp only [reduce_in_ring, reduce_coefficients_by_modulus, get_centered_remainder_eq_int]
      decide⟩
  · intro c hc
    rw [hE, hU, hv] at hc
    simp only [List.mem_cons, List.not_mem_nil, or_false] at hc
    rcases hc with rfl | rfl | rfl <;> (rw [abs_lt]; constructor) <;> norm_num [noiseThreshold]
  · have hpk : PublicKeyGen ⟨2, ((35 : ℕ) : ℤ)⟩ [1, 0] [8, 0] [0, 0] = ([8, 0], [0, 0]) := by
      simp only [PublicKeyGen, poly_mul_eq_naive, reduce_in_ring,
        reduce_coefficients_by_modulus, get_centered_remainder_eq_int]
      decide
    have hct1 : Encrypt ⟨2, ((35 : ℕ) : ℤ)⟩ ([8, 0], [0, 0]) [0, 1] [0, -8] [0, -8] [1, 0]
        ((35 / 2 : ℕ) : ℤ) = ([0, 1], [0, -8]) := by
      simp only [Encrypt, poly_mul_eq_naive, reduce_in_ring,
        reduce_coefficients_by_modulus, get_centered_remainder_eq_int]
      decide
    have hct2 : Encrypt ⟨2, ((35 : ℕ) : ℤ)⟩ ([8, 0], [0, 0]) [0, 0] [0, 0] [0, 0] [0, 0]
        ((35 / 2 : ℕ) : ℤ) = ([0, 0], [0, 0]) := by
      simp only [Encrypt, poly_mul_eq_naive, reduce_in_ring,
        reduce_coefficients_by_modulus, get_centered_remainder_eq_int]
      decide
    have hsum : EvalAdd ⟨2, ((35 : ℕ) : ℤ)⟩ (([0, 1], [0, -8]) : List ℤ × List ℤ)
        (([0, 0], [0, 0]) : List ℤ × List ℤ) = ([0, 1], [0, -8]) := by
      simp only [EvalAdd, reduce_in_ring, reduce_coefficients_by_modulus,
        get_centered_remainder_eq_int]
      decide
    rw [hpk, hct1, hct2, hsum, hE, hU]
    simp only [Decrypt]
    rw [hv, if_pos hall]
    have hn1 : reduce_in_ring (poly_add ([0, 1] : List ℤ) (poly_mul [0, -8] [1, 0]))
        ⟨2, ((35 : ℕ) : ℤ)⟩ = [-8, 1] := by
      simp only [poly_mul_eq_naive, reduce_in_ring,
        reduce_coefficients_by_modulus, get_centered_remainder_eq_int]
      decide
    rw [hn1]
    have hn2 : poly_mul [((2 : ℕ) : ℤ)] [-8, 1] = [-16, 2] := by
      rw [poly_mul_eq_naive]
      decide
    rw [hn2]
    have hq1 : python_round (((-16 : ℤ) : ℚ) / ((((35 : ℕ) : ℤ)) : ℚ)) = 0 := by
      apply python_round_eq_of_close
      rw [abs_lt]
      constructor <;> norm_num
    have hq2 : python_round (((2 : ℤ) : ℚ) / ((((35 : ℕ) : ℤ)) : ℚ)) = 0 := by
      apply python_round_eq_of_close
      rw [abs_lt]
      constructor <;> norm_num
    simp only [List.map_cons, List.map_nil]
    rw [hq1, hq2]
    simp only [reduce_in_ring, reduce_coefficients_by_modulus, get_centered_remainder_eq_int]
    decide

/-- C2 (witness): a noiseless instance with a genuine plaintext carry:
`m1 = [0, 1]`, `m2 = [1, 1]`, `t = 2`, so `(m1 + m2) mod t = [1, 0]`. -/
theorem C2_evaladd_homomorphic_witness :
    rlweValid 2 35 2 = true ∧
    Decrypt ⟨2, ((35 : ℕ) : ℤ)⟩ ⟨2, ((2 : ℕ) : ℤ)⟩ [1, 0]
      (EvalAdd ⟨2, ((35 : ℕ) : ℤ)⟩
        (Encrypt ⟨2, ((35 : ℕ) : ℤ)⟩ (PublicKeyGen ⟨2, ((35 : ℕ) : ℤ)⟩ [1, 0] [0, 0] [3, -5])
          [0, 1] [0, 0] [0, 0] [1, 0] ((35 / 2 : ℕ) : ℤ))
        (Encrypt ⟨2, ((35 : ℕ) : ℤ)⟩ (PublicKeyGen ⟨2, ((35 : ℕ) : ℤ)⟩ [1, 0] [0, 0] [3, -5])
          [1, 1] [0, 0] [0, 0] [0, 0] ((35 / 2 : ℕ) : ℤ)))
      (poly_add [0, 0] [0, 0]) (poly_add [0, 0] [0, 0]) [0, 0] (poly_add [1, 0] [0, 0]) =
      some (reduce_in_ring (poly_add [0, 1] [1, 1]) ⟨2, ((2 : ℕ) : ℤ)⟩) :=
  ⟨by decide,
    (C2_evaladd_homomorphic 2 35 2 (by decide) [1, 0] [0, 0] [3, -5] [0, 1] [1, 1]
      [0, 0] [0, 0] [1, 0] [0, 0] [0, 0] [0, 0]
      (by
        simp only [reduce_in_ring, reduce_coefficients_by_modulus, get_centered_remainder_eq_int]
        decide)
      (by
        simp only [reduce_in_ring, reduce_coefficients_by_modulus, get_centered_remainder_eq_int]
        decide)).1
    (by
      have hz : decryptNoise [1, 0] (poly_add [0, 0] [0, 0]) (poly_add [0, 0] [0, 0]) [0, 0]
          (poly_add [1, 0] [0, 0]) = [0, 0, 0] := by
        simp only [decryptNoise, poly_mul_eq_naive]
        decide
      rw [hz]
      intro c hc
      simp only [List.mem_cons, List.not_mem_nil, or_false] at hc
      rcases hc with rfl | rfl | rfl <;> (rw [abs_lt]; constructor) <;>
        norm_num [noiseThreshold])
    (by
      have hz : decryptNoise [1, 0] (poly_add [0, 0] [0, 0]) (poly_add [0, 0] [0, 0]) [0, 0]
          (poly_add [1, 0] [0, 0]) = [0, 0, 0] := by
        simp only [decryptNoise, poly_mul_eq_naive]
        decide
      rw [hz]
      have hz2 : reduce_coefficients_by_cyclo ([0, 0, 0] : List ℤ) (cycloPoly 2) = [0, 0] := by
        decide
      rw [hz2]
      intro c hc
      simp only [List.mem_cons, List.not_mem_nil, or_false] at hc
      rcases hc with rfl | rfl <;> (rw [abs_lt]; constructor) <;>
        norm_num [noiseThreshold])⟩

end BFV
